import Mathlib

/-!
# SplitterFilter (filters/splitter/SplitterFilter.cpp)

A shallow embedding of `SplitterFilter::run`.

Conventions of the embedding:
* a C++ `double` is the rational number it holds (`ℚ`); the difference, the
  product and the quotient of two doubles are rounded to the nearest binary64
  value, ties to even (`roundDouble`), while `std::floor`, `std::ceil`,
  `std::fmod`, the comparisons and the conversion of an `int` are exact.
  Infinities are not represented (a result beyond the largest double is kept
  as the rounded rational) and the one `double` that can hold the
  not-a-number sentinel, the configured origin, is an `Option ℚ` with `none`
  for NaN (the test `m_xOrigin != m_xOrigin`);
* a C++ `int` has 32 bits: the conversion `(int) d` truncates toward zero
  when the truncation is in `[-2^31, 2^31 - 1]` and is `-2^31`, the value the
  conversion instruction gives, when it is not (undefined in C++); sums,
  differences and negations of `int`s are the exact integers, their overflow
  being undefined in C++;
* a point view is the list of the (X, Y) fields of its points, a point's
  `PointId` being its position in the list;
* the `std::map<Coord, PointViewPtr, CoordCompare>` is an association list
  kept in `CoordCompare` order; an output view is the list of the input
  `PointId`s appended to it, in append order.
-/

namespace SplitterFilter

/-- Ordinal of a point inside a view. -/
abbrev PointId := Nat

/-- Grid cell coordinate: `typedef std::pair<int, int> Coord`. -/
abbrev Coord := Int × Int

/-- Input view: the X and Y field of every point, by `PointId`. -/
abbrev PointView := List (ℚ × ℚ)

/-- Output view: the input `PointId`s appended, in order. -/
abbrev OutView := List PointId

/-- The cell map `std::map<Coord, PointViewPtr, CoordCompare>`. -/
abbrev ViewMap := List (Coord × OutView)

/-- The comparator `CoordCompare::operator()`. -/
def CoordCompare (c1 c2 : Coord) : Bool :=
  if c1.1 < c2.1 then true
  else if c1.1 > c2.1 then false
  else if c1.2 < c2.2 then true
  else false

/-- The filter's members, set by `addArgs`. -/
structure Filter where
  m_length : ℚ
  m_buffer : ℚ
  m_xOrigin : Option ℚ
  m_yOrigin : Option ℚ
  deriving DecidableEq

/-- Defaults of `addArgs`: length 1000, buffer 0, both origins NaN. -/
def Filter.default : Filter :=
  { m_length := 1000, m_buffer := 0, m_xOrigin := none, m_yOrigin := none }

/-- The box filled by `calculateBounds`. -/
structure BOX2D where
  minx : ℚ
  miny : ℚ
  maxx : ℚ
  maxy : ℚ
  deriving DecidableEq

/-- Modelled from the spec: `PointView::calculateBounds` is not part of the
sources at hand; the axis-aligned bounding box of the points of a view, here
of a non-empty view given as its first point and the rest. -/
def calculateBounds (p : ℚ × ℚ) (rest : List (ℚ × ℚ)) : BOX2D :=
  rest.foldl
    (fun b q =>
      { minx := min b.minx q.1, miny := min b.miny q.2,
        maxx := max b.maxx q.1, maxy := max b.maxy q.2 })
    { minx := p.1, miny := p.2, maxx := p.1, maxy := p.2 }

/-- The integer nearest to `q`, the even one of the two when `q` is half way
between them. -/
def roundHalfEven (q : ℚ) : Int :=
  let f := Int.floor q
  let r := q - (f : ℚ)
  if r < 1 / 2 then f
  else if 1 / 2 < r then f + 1
  else if f % 2 = 0 then f else f + 1

/-- The position of the leading bit of `n`, by halving at most `fuel`
times. -/
def log2Nat : Nat → Nat → Nat
  | 0, _ => 0
  | fuel + 1, n => if n < 2 then 0 else log2Nat fuel (n / 2) + 1

/-- The binary exponent of a positive rational `q`: the `e` with
`2^e ≤ q < 2^(e+1)`. -/
def log2Floor (q : ℚ) : Int :=
  let k : Int := (log2Nat q.num.natAbs q.num.natAbs : Int) - (log2Nat q.den q.den : Int)
  if (2 : ℚ) ^ k ≤ q then k else k - 1

/-- The rounding of the exact result of an operation on doubles to binary64,
to nearest with ties to even: 53 significant bits, the unit in the last place
no smaller than `2^-1074`. -/
def roundDouble (q : ℚ) : ℚ :=
  if q = 0 then 0
  else
    let u : ℚ := (2 : ℚ) ^ (max (log2Floor |q|) (-1022) - 52)
    (roundHalfEven (q / u) : ℚ) * u

/-- The difference `a - b` of two doubles. -/
def fsub (a b : ℚ) : ℚ :=
  roundDouble (a - b)

/-- The product `a * b` of two doubles. -/
def fmul (a b : ℚ) : ℚ :=
  roundDouble (a * b)

/-- The quotient `a / b` of two doubles, `b` not zero. -/
def fdiv (a b : ℚ) : ℚ :=
  roundDouble (a / b)

/-- Truncation toward zero. -/
def trunc (d : ℚ) : Int :=
  if 0 ≤ d then Int.floor d else Int.ceil d

/-- The conversion `(int) d` of a double to the 32-bit `int`: truncation
toward zero when that is in the range of `int`, else `-2^31`. -/
def toInt (d : ℚ) : Int :=
  if -2147483648 ≤ trunc d ∧ trunc d ≤ 2147483647 then trunc d else -2147483648

/-- The function `std::fmod` for a non-zero divisor: what is left of `a`
after taking off the whole multiple `trunc (a / b) * b`; the result is exact. -/
def fmod (a b : ℚ) : ℚ :=
  a - (trunc (a / b) : ℚ) * b

/-- The origin adjustment of one axis (lines 101-107 and 108-115): `o` is the
configured origin, `m` the minimum bound, `L` the cell length. -/
def resolveOrigin (o : Option ℚ) (m L : ℚ) : ℚ :=
  match o with
  | none => m
  | some o =>
    if o < m then
      let num_bins : Int := toInt ((Int.ceil (fdiv (fsub m o) L) : Int) : ℚ)
      fsub o (fmul (num_bins : ℚ) L)
    else o

/-- The statement `viewMap[c]` followed by `appendPoint(.., idx)`: the view
keyed by `c` is created empty when the map has none, then gets `idx`. -/
def appendAt (m : ViewMap) (c : Coord) (idx : PointId) : ViewMap :=
  match m with
  | [] => [(c, [idx])]
  | (k, v) :: rest =>
    if CoordCompare c k then (c, [idx]) :: (k, v) :: rest
    else if CoordCompare k c then (k, v) :: appendAt rest c idx
    else (k, v ++ [idx]) :: rest

/-- The values `lo, lo+1, .., hi` taken by the counter of
`for (int i = lo; i <= hi; i++)`. -/
def loopRange (lo hi : Int) : List Int :=
  (List.range (hi + 1 - lo).toNat).map (fun (k : Nat) => lo + (k : Int))

/-- Lower and upper neighbour offset of one axis (lines 144-164), from the
local coordinate `loc` of the point and its bin `bin` on that axis. -/
def adjRange (L buffer loc : ℚ) (bin : Int) : Int × Int :=
  let num_adj_p : Int := toInt ((Int.floor (fdiv buffer L) : Int) : ℚ)
  let num_adj_n : Int := -num_adj_p
  let resid_bin_min : ℚ := fsub loc (fmul (bin : ℚ) L)
  let resid_bin_max : ℚ := fsub (fmul ((bin + 1 : Int) : ℚ) L) loc
  let buffer_residual : ℚ := fmod buffer L
  let num_adj_n := if resid_bin_min < buffer_residual then num_adj_n - 1 else num_adj_n
  let num_adj_p := if resid_bin_max ≥ buffer_residual then num_adj_p + 1 else num_adj_p
  (num_adj_n, num_adj_p)

/-- The cells visited by the rectangle loop (lines 167-184), in loop order:
bins outside `[0, max_bin]` and the offset (0, 0) are skipped. -/
def neighbourCells (bin_x bin_y max_x_bin max_y_bin : Int)
    (rx ry : Int × Int) : List Coord :=
  (loopRange rx.1 rx.2).flatMap (fun ix =>
    if bin_x + ix < 0 ∨ bin_x + ix > max_x_bin then []
    else (loopRange ry.1 ry.2).flatMap (fun iy =>
      if bin_y + iy < 0 ∨ bin_y + iy > max_y_bin then []
      else if ix = 0 ∧ iy = 0 then []
      else [(bin_x + ix, bin_y + iy)]))

/-- The primary cell `bin0` of a point (lines 127-134). -/
def primaryCell (L ox oy : ℚ) (p : ℚ × ℚ) : Coord :=
  (toInt (fdiv (fsub p.1 ox) L), toInt (fdiv (fsub p.2 oy) L))

/-- Every cell one point is appended to by one pass of the loop body (lines
127-184), in the order of the appends. -/
def cellsOf (L buffer ox oy : ℚ) (max_x_bin max_y_bin : Int) (p : ℚ × ℚ) :
    List Coord :=
  let local_x := fsub p.1 ox
  let local_y := fsub p.2 oy
  let bin_x := toInt (fdiv local_x L)
  let bin_y := toInt (fdiv local_y L)
  if buffer ≤ 0 then [(bin_x, bin_y)]
  else
    (bin_x, bin_y) ::
      neighbourCells bin_x bin_y max_x_bin max_y_bin
        (adjRange L buffer local_x bin_x) (adjRange L buffer local_y bin_y)

/-- One pass of the loop body for the point `idx`. -/
def processPoint (L buffer ox oy : ℚ) (max_x_bin max_y_bin : Int)
    (m : ViewMap) (idx : PointId) (p : ℚ × ℚ) : ViewMap :=
  (cellsOf L buffer ox oy max_x_bin max_y_bin p).foldl
    (fun acc c => appendAt acc c idx) m

/-- The loop `for (PointId idx = ..; idx < inView->size(); idx++)` over the
points not yet visited, `idx` being the `PointId` of the first of them. -/
def pointLoop (L buffer ox oy : ℚ) (max_x_bin max_y_bin : Int) :
    List (ℚ × ℚ) → PointId → ViewMap → ViewMap
  | [], _, m => m
  | p :: ps, idx, m =>
    pointLoop L buffer ox oy max_x_bin max_y_bin ps (idx + 1)
      (processPoint L buffer ox oy max_x_bin max_y_bin m idx p)

/-- The X origin after lines 101-107, for the bounds `b` of the view. -/
def originX (f : Filter) (b : BOX2D) : ℚ :=
  resolveOrigin f.m_xOrigin b.minx f.m_length

/-- The Y origin after lines 108-115, for the bounds `b` of the view. -/
def originY (f : Filter) (b : BOX2D) : ℚ :=
  resolveOrigin f.m_yOrigin b.miny f.m_length

/-- The value of `max_x_bin` (line 118). -/
def maxBinX (f : Filter) (b : BOX2D) : Int :=
  toInt (fdiv (fsub b.maxx (originX f b)) f.m_length)

/-- The value of `max_y_bin` (line 119). -/
def maxBinY (f : Filter) (b : BOX2D) : Int :=
  toInt (fdiv (fsub b.maxy (originY f b)) f.m_length)

/-- The method `SplitterFilter::run`: the filter after the call (the
resolved origin is stored in the filter) and the views pulled out of the
cell map, each with the coordinate that keys it. -/
def run (f : Filter) (inView : PointView) : Filter × ViewMap :=
  match inView with
  | [] => (f, [])
  | p :: rest =>
    let bounds := calculateBounds p rest
    ({ f with m_xOrigin := some (originX f bounds), m_yOrigin := some (originY f bounds) },
      pointLoop f.m_length f.m_buffer (originX f bounds) (originY f bounds)
        (maxBinX f bounds) (maxBinY f bounds) (p :: rest) 0 [])

end SplitterFilter

/-!
# PipelineReaderJSON (src/PipelineReaderJSON.cpp)

A shallow embedding of the JSON pipeline reader.

Conventions of the embedding:
* a function that can throw returns `Except Failure _`; dereferencing a null
  `Stage*`, which is undefined behaviour in C++, is the failure
  `Failure.nullDereference`;
* a `Stage*` is the position of the stage in the list `m_stages` of the
  pipeline manager, a null pointer is `none`;
* an `Options` object is the list of its options in the order they were added;
* the manager, threaded through the functions, is the state they change.
-/

namespace PipelineReaderJSON

/-- What ends a call other than a normal return. -/
inductive Failure where
  | pdal_error (msg : String)
  | jsonError (msg : String)
  | nullDereference
  deriving DecidableEq, Repr

/-- A parsed JSON value (`Json::Value`). A number carries the text that
`asString` renders for it; the members of an object are in key order, no key
twice. -/
inductive Json where
  | null
  | bool (b : Bool)
  | num (text : String)
  | str (s : String)
  | arr (items : List Json)
  | obj (members : List (String × Json))

namespace Json

/-- `Json::Value::isString`. -/
def isString : Json → Bool
  | str _ => true
  | _ => false

/-- `Json::Value::isNull`, also `operator!`. -/
def isNull : Json → Bool
  | null => true
  | _ => false

/-- `Json::Value::asString`: null is the empty string, an array or an object
is not convertible. -/
def asString : Json → Except Failure String
  | null => .ok ""
  | bool b => .ok (if b then "true" else "false")
  | num text => .ok text
  | str s => .ok s
  | arr _ => .error (.jsonError "Type is not convertible to string")
  | obj _ => .error (.jsonError "Type is not convertible to string")

/-- `Json::Value::isMember`: requires an object or null. -/
def isMember (v : Json) (key : String) : Except Failure Bool :=
  match v with
  | null => .ok false
  | obj members => .ok ((members.lookup key).isSome)
  | _ => .error (.jsonError "requires objectValue or nullValue")

/-- `Json::Value::operator[]` with a string key: the member, or null when
there is none; requires an object or null. -/
def get (v : Json) (key : String) : Except Failure Json :=
  match v with
  | null => .ok null
  | obj members => .ok ((members.lookup key).getD null)
  | _ => .error (.jsonError "requires objectValue or nullValue")

/-- `Json::Value::getMemberNames`: requires an object or null. -/
def getMemberNames : Json → Except Failure (List String)
  | null => .ok []
  | obj members => .ok (members.map Prod.fst)
  | _ => .error (.jsonError "value must be objectValue")

/-- `Json::Value::size`: elements of an array, members of an object, 0 for
anything else. -/
def size : Json → Nat
  | arr items => items.length
  | obj members => members.length
  | _ => 0

/-- The values visited by `for (auto const& node : tree)`: the elements of an
array, the member values of an object, nothing for anything else. -/
def elements : Json → List Json
  | arr items => items
  | obj members => members.map Prod.snd
  | _ => []

end Json

/-- An option of a stage, `Option(name, value)`, the value as its string. -/
structure StageOption where
  name : String
  value : String
  deriving DecidableEq, Repr

/-- An `Options` object. -/
abbrev Options := List StageOption

/-- The manager call that constructed a stage. -/
inductive StageKind where
  | reader
  | filter
  | writer
  deriving DecidableEq, Repr

/-- A stage held by the manager: how it was constructed, its driver name, its
options and its inputs (`m_inputs`). -/
structure Stage where
  kind : StageKind
  type : String
  options : Options
  inputs : List Nat
  deriving DecidableEq, Repr

/-- The stages `m_stages` of a `PipelineManager`. -/
abbrev PipelineManager := List Stage

/-- Modelled from the spec: `StageFactory` is not part of the sources at
hand; driver inference from a filename (the empty name when no driver
recognises it), the option changes a writer filename implies, and whether the
registry can create a stage of a given driver name. -/
structure StageFactory where
  inferReaderDriver : String → String
  inferWriterDriver : String → String
  inferWriterOptionsChanges : String → Options
  createStage : String → Bool

/-- Modelled from the spec: `PipelineManager::addReader` is not part of the
sources at hand; a stage of the driver is created and appended to the
manager, an unknown driver is an error. The result is the manager and the
new stage. -/
def addReader (f : StageFactory) (m : PipelineManager) (type : String) :
    Except Failure (PipelineManager × Nat) :=
  if f.createStage type then
    .ok (m ++ [{ kind := .reader, type := type, options := [], inputs := [] }], m.length)
  else .error (.pdal_error ("Couldn't create reader stage of type '" ++ type ++ "'."))

/-- Modelled from the spec: `PipelineManager::addFilter`, as `addReader`. -/
def addFilter (f : StageFactory) (m : PipelineManager) (type : String) :
    Except Failure (PipelineManager × Nat) :=
  if f.createStage type then
    .ok (m ++ [{ kind := .filter, type := type, options := [], inputs := [] }], m.length)
  else .error (.pdal_error ("Couldn't create filter stage of type '" ++ type ++ "'."))

/-- Modelled from the spec: `PipelineManager::addWriter`, as `addReader`. -/
def addWriter (f : StageFactory) (m : PipelineManager) (type : String) :
    Except Failure (PipelineManager × Nat) :=
  if f.createStage type then
    .ok (m ++ [{ kind := .writer, type := type, options := [], inputs := [] }], m.length)
  else .error (.pdal_error ("Couldn't create writer stage of type '" ++ type ++ "'."))

/-- The manager after a change `g` to the stage a pointer refers to. -/
def modifyStage (m : PipelineManager) (stage : Nat) (g : Stage → Stage) :
    PipelineManager :=
  match m, stage with
  | [], _ => []
  | s :: rest, 0 => g s :: rest
  | s :: rest, k + 1 => s :: modifyStage rest k g

/-- Modelled from the spec: `Stage::setOptions` replaces the options. -/
def setOptions (m : PipelineManager) (stage : Nat) (options : Options) : PipelineManager :=
  modifyStage m stage (fun s => { s with options := options })

/-- Modelled from the spec: `Stage::addOptions` adds every option given to
the options of the stage. -/
def addOptions (m : PipelineManager) (stage : Nat) (options : Options) : PipelineManager :=
  modifyStage m stage (fun s => { s with options := s.options ++ options })

/-- Modelled from the spec: `Stage::setInput` adds the stage given to the
inputs of the stage. -/
def setInput (m : PipelineManager) (stage input : Nat) : PipelineManager :=
  modifyStage m stage (fun s => { s with inputs := s.inputs ++ [input] })

/-- The enumeration `StageParserContext::Cardinality`. -/
inductive Cardinality where
  | None
  | One
  | Many
  deriving DecidableEq, Repr

/-- The class `StageParserContext`. -/
structure StageParserContext where
  m_numTypes : Int
  m_cardinality : Cardinality
  m_numStages : Int
  deriving DecidableEq, Repr

namespace StageParserContext

/-- The constructor `StageParserContext()`. -/
def new : StageParserContext :=
  { m_numTypes := 0, m_cardinality := .One, m_numStages := 0 }

/-- `setCardinality`. -/
def setCardinality (c : StageParserContext) (cardinality : Cardinality) :
    StageParserContext :=
  { c with m_cardinality := cardinality }

/-- `addType`. -/
def addType (c : StageParserContext) : StageParserContext :=
  { c with m_numTypes := c.m_numTypes + 1 }

/-- `getNumTypes`. -/
def getNumTypes (c : StageParserContext) : Int :=
  c.m_numTypes

/-- `addStage`. -/
def addStage (c : StageParserContext) : StageParserContext :=
  { c with m_numStages := c.m_numStages + 1 }

/-- `validate`: the first failed check throws. -/
def validate (c : StageParserContext) : Except Failure Unit :=
  if c.m_numTypes = 0 then
    .error (.pdal_error "PipelineReaderJSON: expected Type element missing")
  else if c.m_numTypes > 1 then
    .error (.pdal_error "PipelineReaderJSON: extra Type element found")
  else if c.m_cardinality = .None ∧ c.m_numStages ≠ 0 then
    .error (.pdal_error "PipelineReaderJSON: found child stages where none were expected")
  else if c.m_cardinality = .One ∧ c.m_numStages = 0 then
    .error (.pdal_error "PipelineReaderJSON: expected child stage missing")
  else if c.m_cardinality = .One ∧ c.m_numStages > 1 then
    .error (.pdal_error "PipelineReaderJSON: extra child stages found")
  else if c.m_cardinality = .Many ∧ c.m_numStages = 0 then
    .error (.pdal_error "PipelineReaderJSON: expected child stage missing")
  else .ok ()

end StageParserContext

/-- The base options set up by the constructor `PipelineReaderJSON(..)`. -/
def baseOptions (isDebug : Bool) (verboseLevel : Nat) : Options :=
  (if isDebug then [{ name := "debug", value := "true" }] else []) ++
  (if verboseLevel ≠ 0 then [{ name := "verbose", value := toString verboseLevel }] else [])

/-- `parseReaderByFilename`: the manager after the call and the new stage. -/
def parseReaderByFilename (f : StageFactory) (base : Options) (m : PipelineManager)
    (filename : String) : Except Failure (PipelineManager × Nat) :=
  let options : Options := base
  let context := StageParserContext.new
  let type := f.inferReaderDriver filename
  let context := if type ≠ "" then context.addType else context
  let options := options ++ [{ name := "filename", value := filename }]
  let context := context.setCardinality .None
  do
    context.validate
    let (m, reader) ← addReader f m type
    pure (setOptions m reader options, reader)

/-- `parseWriterByFilename`: the manager after the call and the new stage. -/
def parseWriterByFilename (f : StageFactory) (base : Options) (m : PipelineManager)
    (filename : String) : Except Failure (PipelineManager × Nat) :=
  let options : Options := base
  let context := StageParserContext.new
  let type := f.inferWriterDriver filename
  if type = "" then
    .error (.pdal_error ("Cannot determine output file type of " ++ filename))
  else
    let options := options ++ f.inferWriterOptionsChanges filename
    let context := context.addType
    let context := context.setCardinality .None
    do
      context.validate
      let (m, writer) ← addWriter f m type
      pure (setOptions m writer options, writer)

/-- The locals of `parseElement_Pipeline` that live across the iterations of
its loop, with the manager: `tags`, `stages`, `isWriter` and `i`. The map
`tags` is never iterated; it is kept as an association list, the latest
entry of a key first. -/
structure LoopState where
  manager : PipelineManager
  tags : List (String × Option Nat)
  stages : List (Option Nat)
  isWriter : Bool
  i : Nat

/-- The end of an iteration (lines 478-485): the stage is pushed on `stages`
and, except in the first iteration, gets the stage before it as input. -/
def linkStage (st : LoopState) (m : PipelineManager) (tags : List (String × Option Nat))
    (stage : Option Nat) (isWriter : Bool) : Except Failure LoopState :=
  let stages := st.stages ++ [stage]
  if st.i ≠ 0 then
    match stage, (stages[st.i - 1]?).join with
    | some s, some prev =>
      .ok { manager := setInput m s prev, tags := tags, stages := stages,
            isWriter := isWriter, i := st.i + 1 }
    | _, _ => .error .nullDereference
  else
    .ok { manager := m, tags := tags, stages := stages, isWriter := isWriter, i := st.i + 1 }

/-- The string branch of an iteration (lines 390-408). -/
def parseStringNode (f : StageFactory) (base : Options) (n : Nat) (st : LoopState)
    (filename : String) : Except Failure (PipelineManager × Option Nat × Bool) :=
  if st.i < n - 1 then do
    let (m, stage) ← parseReaderByFilename f base st.manager filename
    pure (m, some stage, st.isWriter)
  else do
    let (m, stage) ← parseWriterByFilename f base st.manager filename
    pure (m, some stage, true)

/-- The construction of the stage of a non-string node (lines 421-448) from
its `type` and `filename`; the stage stays null when both are empty. -/
def constructStage (f : StageFactory) (base : Options) (n : Nat) (st : LoopState)
    (type filename : String) : Except Failure (PipelineManager × Option Nat × Bool) :=
  if type ≠ "" then
    if st.i < n - 1 then do
      let (m, stage) ← addReader f st.manager type
      pure (m, some stage, st.isWriter)
    else do
      let (m, stage) ← addWriter f st.manager type
      pure (m, some stage, true)
  else if filename ≠ "" then
    if st.i < n - 1 then do
      let (m, stage) ← parseReaderByFilename f base st.manager filename
      pure (m, some stage, st.isWriter)
    else do
      let (m, stage) ← parseWriterByFilename f base st.manager filename
      pure (m, some stage, true)
  else .ok (st.manager, none, st.isWriter)

/-- The registration of a tag (lines 450-456). -/
def registerTag (tags : List (String × Option Nat)) (tag : String) (stage : Option Nat) :
    Except Failure (List (String × Option Nat)) :=
  if tag ≠ "" then
    if ((tags.lookup tag).join).isSome then
      .error (.pdal_error ("Duplicate tag " ++ tag))
    else .ok ((tag, stage) :: tags)
  else .ok tags

/-- The options collected from the members of a node (lines 458-473). -/
def collectOptions (base : Options) (node : Json) : Except Failure Options := do
  let names ← node.getMemberNames
  names.foldlM
    (fun (options : Options) kate =>
      if kate = "filename" then pure options
      else if kate = "type" then pure options
      else if kate = "inputs" then pure options
      else if kate = "tag" then pure options
      else do
        let value ← (← node.get kate).asString
        pure (options ++ [{ name := kate, value := value }]))
    base

/-- The member `key` of a node as a string when the node has it, the empty
string otherwise (lines 412-417). -/
def memberString (node : Json) (key : String) : Except Failure String := do
  if (← node.isMember key) then (← node.get key).asString else pure ""

/-- The non-string branch of an iteration (lines 411-475). -/
def parseObjectNode (f : StageFactory) (base : Options) (n : Nat) (st : LoopState)
    (node : Json) :
    Except Failure (PipelineManager × List (String × Option Nat) × Option Nat × Bool) := do
  let type ← memberString node "type"
  let filename ← memberString node "filename"
  let tag ← memberString node "tag"
  let _inputs ← (← node.get "inputs").getMemberNames
  let (m, stage, isWriter) ← constructStage f base n st type filename
  let tags ← registerTag st.tags tag stage
  let options ← collectOptions base node
  match stage with
  | none => .error .nullDereference
  | some s => pure (addOptions m s options, tags, some s, isWriter)

/-- One iteration of the loop of `parseElement_Pipeline` on `node`, `n` being
`tree.size()`. -/
def parseNode (f : StageFactory) (base : Options) (n : Nat) (st : LoopState)
    (node : Json) : Except Failure LoopState :=
  match node with
  | .str filename => do
    let (m, stage, isWriter) ← parseStringNode f base n st filename
    linkStage st m st.tags stage isWriter
  | node => do
    let (m, tags, stage, isWriter) ← parseObjectNode f base n st node
    linkStage st m tags stage isWriter

/-- The loop of `parseElement_Pipeline` over the nodes still to visit. -/
def parseLoop (f : StageFactory) (base : Options) (n : Nat) :
    LoopState → List Json → Except Failure LoopState
  | st, [] => .ok st
  | st, node :: rest => do
    let st ← parseNode f base n st node
    parseLoop f base n st rest

/-- The state the loop of `parseElement_Pipeline` starts from (lines 379-384). -/
def initialState (m : PipelineManager) : LoopState :=
  { manager := m, tags := [], stages := [], isWriter := false, i := 0 }

/-- `parseElement_Pipeline`: the manager after the call and the value
returned, `isWriter`. -/
def parseElement_Pipeline (f : StageFactory) (base : Options) (m : PipelineManager)
    (tree : Json) : Except Failure (PipelineManager × Bool) := do
  let st ← parseLoop f base tree.size (initialState m) tree.elements
  pure (st.manager, st.isWriter)

/-- `readPipeline(std::istream&)`: `root` is the document parsed by the JSON
reader, `none` when it cannot be parsed. The non-const `root["pipeline"]`
requires an object or null. -/
def readPipeline (f : StageFactory) (base : Options) (m : PipelineManager)
    (root : Option Json) : Except Failure (PipelineManager × Bool) :=
  match root with
  | none => .error (.pdal_error "PipelineReaderJSON: unable to parse pipeline")
  | some root => do
    let subtree ← root.get "pipeline"
    if subtree.isNull then
      .error (.pdal_error "PipelineReaderJSON: root element is not a Pipeline")
    else parseElement_Pipeline f base m subtree

end PipelineReaderJSON

namespace PipelineReaderJSON

/-- The string `asString` gives for a value, the empty string for a value
that is not convertible. -/
def Json.text : Json → String
  | .null => ""
  | .bool b => if b then "true" else "false"
  | .num text => text
  | .str s => s
  | .arr _ => ""
  | .obj _ => ""

/-- The text of the member `key` among `members`, empty when there is none. -/
def memberText (members : List (String × Json)) (key : String) : String :=
  ((members.lookup key).getD .null).text

/-- The tag a descriptor carries, empty when it carries none. -/
def tagText : Json → String
  | .obj members => memberText members "tag"
  | _ => ""

/-- A member name that is not turned into an option (lines 461-468). -/
def reservedName (name : String) : Bool :=
  name = "filename" ∨ name = "type" ∨ name = "inputs" ∨ name = "tag"

/-- Driver inference resolves the filename at position `i` of `n`: a reader
driver before the last position, a writer driver at the last, and the
registry can create a stage of that driver. -/
def DriverResolvable (f : StageFactory) (n i : Nat) (filename : String) : Prop :=
  if i < n - 1 then
    f.inferReaderDriver filename ≠ "" ∧ f.createStage (f.inferReaderDriver filename) = true
  else
    f.inferWriterDriver filename ≠ "" ∧ f.createStage (f.inferWriterDriver filename) = true

/-- The stages of the loop are the ones added to the manager `m0` the loop
started from, one an iteration, and `stages` points at them in order. -/
def LoopInv (m0 : PipelineManager) (st : LoopState) : Prop :=
  st.manager.length = m0.length + st.i ∧
  st.stages = (List.range st.i).map (fun k => some (m0.length + k))

end PipelineReaderJSON

namespace PipelineReaderJSON

/-- The stage lines 390-448 construct, when they construct one, for the
`type` and `filename` of the node at position `i` of `n`: by the reader
constructor before the last position and the writer constructor at the last;
from `type` when it is not empty, else by inference from `filename`. -/
def constructedStage (f : StageFactory) (base : Options) (n i : Nat)
    (type filename : String) : Stage :=
  if type ≠ "" then
    { kind := if i < n - 1 then .reader else .writer, type := type, options := [],
      inputs := [] }
  else if i < n - 1 then
    { kind := .reader, type := f.inferReaderDriver filename,
      options := base ++ [{ name := "filename", value := filename }], inputs := [] }
  else
    { kind := .writer, type := f.inferWriterDriver filename,
      options := base ++ f.inferWriterOptionsChanges filename, inputs := [] }

/-- The options lines 458-473 make of the members of an object node. -/
def memberOptions (members : List (String × Json)) : Options :=
  (members.filter (fun kv => !reservedName kv.1)).map
    (fun kv => { name := kv.1, value := kv.2.text })

end PipelineReaderJSON

namespace PipelineReaderJSON

/-- A registry for examples: every filename is recognised by the reader
driver `readers.ext` and the writer driver `writers.ext`, a writer filename
implies the option `filename`, and every driver name can be created. -/
def extFactory : StageFactory :=
  { inferReaderDriver := fun _ => "readers.ext"
    inferWriterDriver := fun _ => "writers.ext"
    inferWriterOptionsChanges := fun filename => [{ name := "filename", value := filename }]
    createStage := fun _ => true }

end PipelineReaderJSON

namespace PipelineReaderJSON

/-- A result that is not the error "Duplicate tag ..." of line 453. -/
def NotDuplicateTagError {α : Type} (r : Except Failure α) : Prop :=
  ∀ t : String, r ≠ .error (.pdal_error ("Duplicate tag " ++ t))

end PipelineReaderJSON

namespace SplitterFilter

end SplitterFilter

namespace PipelineReaderJSON

/-- Modelled from the spec: `FileUtils::isAbsolutePath` is not part of the
sources at hand; on the platforms with `wordexp` a path is absolute when it
starts with a slash. -/
def isAbsolutePath (path : String) : Bool :=
  path.data.head? = some '/'

end PipelineReaderJSON

/-! ## Log (src/Log.cpp)

A shallow embedding of `Log::Log` and `Log::get`. An output stream is a
name; a `Log` records the text it has sent to `*m_log`.
-/

namespace PdalLog

/-- Modelled from the spec: the enumeration `LogLevel` is not part of the
sources at hand; the levels in their numeric order. -/
inductive LogLevel where
  | Error
  | Warning
  | Info
  | Debug
  | Debug1
  | Debug2
  | Debug3
  | Debug4
  | Debug5
  deriving DecidableEq, Repr

/-- Modelled from the spec: `Utils::toNative`, the number of a level. -/
def toNative : LogLevel → Nat
  | .Error => 0
  | .Warning => 1
  | .Info => 2
  | .Debug => 3
  | .Debug1 => 4
  | .Debug2 => 5
  | .Debug3 => 6
  | .Debug4 => 7
  | .Debug5 => 8

/-- An output stream a `Log` can point at. -/
inductive Stream where
  | clog
  | cerr
  | cout
  | null
  | file (name : String)
  | given (id : Nat)
  deriving DecidableEq, Repr

/-- The members of a `Log`, and `written`, the text sent to `*m_log`. The
stack `m_leaders` has its top first. -/
structure Log where
  m_level : LogLevel
  m_deleteStreamOnCleanup : Bool
  m_log : Stream
  m_nullStream : Stream
  m_leaders : List String
  written : String
  deriving DecidableEq, Repr

namespace Log

/-- Modelled from the spec: `Utils::iequals`, equality of two strings
without regard to case. -/
def iequals (a b : String) : Bool :=
  a.toLower = b.toLower

/-- The constructor `Log(leaderString, outputName)` (lines 44-65). -/
def ofName (leaderString outputName : String) : Log :=
  let m_nullStream := Stream.null
  if iequals outputName "stdlog" then
    { m_level := .Error, m_deleteStreamOnCleanup := false, m_log := .clog,
      m_nullStream := m_nullStream, m_leaders := [leaderString], written := "" }
  else if iequals outputName "stderr" then
    { m_level := .Error, m_deleteStreamOnCleanup := false, m_log := .cerr,
      m_nullStream := m_nullStream, m_leaders := [leaderString], written := "" }
  else if iequals outputName "stdout" then
    { m_level := .Error, m_deleteStreamOnCleanup := false, m_log := .cout,
      m_nullStream := m_nullStream, m_leaders := [leaderString], written := "" }
  else if iequals outputName "devnull" then
    { m_level := .Error, m_deleteStreamOnCleanup := false, m_log := m_nullStream,
      m_nullStream := m_nullStream, m_leaders := [leaderString], written := "" }
  else
    { m_level := .Error, m_deleteStreamOnCleanup := true, m_log := .file outputName,
      m_nullStream := m_nullStream, m_leaders := [leaderString], written := "" }

/-- The constructor `Log(leaderString, std::ostream*)` (lines 68-76). -/
def ofStream (leaderString : String) (v : Stream) : Log :=
  { m_level := .Error, m_deleteStreamOnCleanup := false, m_log := v,
    m_nullStream := .null, m_leaders := [leaderString], written := "" }

/-- Modelled from the spec: `Log::leader`, the top of `m_leaders`, empty when
the stack is empty. -/
def leader (log : Log) : String :=
  log.m_leaders.headD ""

/-- `Log::getLevelString`. -/
def getLevelString : LogLevel → String
  | .Error => "Error"
  | .Warning => "Warning"
  | .Info => "Info"
  | _ => "Debug"

/-- The text `get` sends to `*m_log` for a message of the level (lines
124-127). -/
def linePrefix (log : Log) (level : LogLevel) : String :=
  "(" ++ leader log ++ " " ++ getLevelString level ++ ": " ++ toString (toNative level) ++
    "): " ++
    String.mk (List.replicate
      (if toNative level < toNative .Debug then 0 else toNative level - toNative .Debug)
      (Char.ofNat 9))

/-- `Log::get`: the log after the call and the stream returned. -/
def get (log : Log) (level : LogLevel) : Log × Stream :=
  let incoming := toNative level
  let stored := toNative log.m_level
  if incoming ≤ stored then
    ({ log with written := log.written ++ linePrefix log level }, log.m_log)
  else (log, log.m_nullStream)

end Log

end PdalLog

/-! ## Outlier filters (plugins/pcl/filters)

A shallow embedding of `RadiusOutlierFilter::run` and
`StatisticalOutlierFilter::run`, which are the same from the point where the
PCL filter has given the list of retained indices (`inliers->indices`); that
list is an argument of the embedding. The only field `run` writes is
Classification: the input view is the list of the Classification of its
points. Reading or writing a `std::vector` outside its bounds, undefined
behaviour in C++, is the failure `Failure.indexOutOfRange`.
-/

namespace OutlierFilter

/-- What ends `run` other than a return. -/
inductive Failure where
  | indexOutOfRange
  deriving DecidableEq, Repr

/-- The members `m_classify` and `m_extract` of both filters. -/
structure Filter where
  m_classify : Bool
  m_extract : Bool
  deriving DecidableEq, Repr

/-- A member of the returned set: the input view, or a view made by
`makeNew` with the points appended to it, as indices of the input. -/
inductive View where
  | input
  | made (points : List Nat)
  deriving DecidableEq, Repr

/-- The variables `j`, `k` and `outliers` of the complement loop. -/
structure Scan where
  j : Nat
  k : Nat
  outliers : List Nat
  deriving DecidableEq, Repr

/-- One pass of the body of the complement loop (lines 122-127) for the
point `i`. -/
def scanStep (indices : List Nat) (s : Scan) (i : Nat) : Except Failure Scan :=
  match indices[s.j]? with
  | none => .error .indexOutOfRange
  | some idx =>
    if i = idx then .ok { s with j := s.j + 1 }
    else if s.k < s.outliers.length then
      .ok { s with k := s.k + 1, outliers := s.outliers.set s.k i }
    else .error .indexOutOfRange

/-- The vector `outliers` after the complement loop (lines 119-128) over the
`n` points of the input. -/
def computeOutliers (n : Nat) (indices : List Nat) : Except Failure (List Nat) := do
  let s ← (List.range n).foldlM (scanStep indices)
    { j := 0, k := 0, outliers := List.replicate (n - indices.length) 0 }
  pure s.outliers

/-- The loop of lines 139-142: Classification 18 for every outlier. -/
def classifyOutliers (classification : List Nat) (outliers : List Nat) : List Nat :=
  outliers.foldl (fun c i => c.set i 18) classification

/-- `std::set::insert`. -/
def insertView (viewSet : List View) (v : View) : List View :=
  if v ∈ viewSet then viewSet else viewSet ++ [v]

/-- `std::set::erase`. -/
def eraseView (viewSet : List View) (v : View) : List View :=
  viewSet.filter (fun w => w ≠ v)

/-- The method `run` of both filters, from line 110 (113): the
Classification of the points after the call and the set returned. -/
def run (flt : Filter) (classification : List Nat) (inliers : List Nat) :
    Except Failure (List Nat × List View) :=
  let viewSet : List View := []
  if inliers.isEmpty then .ok (classification, insertView viewSet .input)
  else do
    let outliers ← computeOutliers classification.length inliers
    if !outliers.isEmpty && (flt.m_classify || flt.m_extract) then
      let (classification, viewSet) :=
        if flt.m_classify then
          (classifyOutliers classification outliers, insertView viewSet .input)
        else (classification, viewSet)
      let viewSet :=
        if flt.m_extract then insertView (eraseView viewSet .input) (.made inliers)
        else viewSet
      pure (classification, viewSet)
    else pure (classification, insertView viewSet .input)

end OutlierFilter

namespace OutlierFilter

/-- An access of the complement loop to one of its two vectors:
`inliers->indices[j]` (line 122) or `outliers[k]` (line 127). -/
inductive Access where
  | read (j : Nat)
  | write (k : Nat)
  deriving DecidableEq, Repr

/-- The accesses of one pass of the body of the complement loop for the point
`i`: the condition reads `inliers->indices[j]`, and where the point is not the
index read the assignment writes `outliers[k]`. After a read out of bounds
nothing more is listed. -/
def stepAccesses (indices : List Nat) (s : Scan) (i : Nat) : List Access :=
  match indices[s.j]? with
  | none => [.read s.j]
  | some idx => if i = idx then [.read s.j] else [.read s.j, .write s.k]

/-- The accesses of the complement loop over the points `points`, in order,
up to the first one out of bounds. -/
def accesses (indices : List Nat) : Scan → List Nat → List Access
  | _, [] => []
  | s, i :: rest =>
    stepAccesses indices s i ++
      match scanStep indices s i with
      | .ok s' => accesses indices s' rest
      | .error _ => []

/-- The accesses of the complement loop (lines 119-128) over the `n` points
of the input. -/
def loopAccesses (n : Nat) (indices : List Nat) : List Access :=
  accesses indices { j := 0, k := 0, outliers := List.replicate (n - indices.length) 0 }
    (List.range n)

end OutlierFilter

namespace SplitterFilter

/-! ## The comparator and the cell map -/

theorem coordCompare_iff (a b : Coord) :
    CoordCompare a b = true ↔ a.1 < b.1 ∨ (a.1 = b.1 ∧ a.2 < b.2) := by
  unfold CoordCompare
  split_ifs <;> simp <;> omega

theorem coordCompare_trans {a b c : Coord} (h1 : CoordCompare a b = true)
    (h2 : CoordCompare b c = true) : CoordCompare a c = true := by
  rw [coordCompare_iff] at *
  omega

theorem coordCompare_irrefl (a : Coord) : CoordCompare a a = false := by
  cases h : CoordCompare a a
  · rfl
  · rw [coordCompare_iff] at h
    omega

theorem eq_of_not_coordCompare {a b : Coord} (h1 : CoordCompare a b = false)
    (h2 : CoordCompare b a = false) : a = b := by
  have h1' : ¬ (CoordCompare a b = true) := by simp [h1]
  have h2' : ¬ (CoordCompare b a = true) := by simp [h2]
  rw [coordCompare_iff] at h1' h2'
  apply Prod.ext <;> omega

/-- The point `j` is a member of the view keyed by `c`. -/
def Holds (m : ViewMap) (c : Coord) (j : Nat) : Prop :=
  ∃ v, (c, v) ∈ m ∧ j ∈ v

theorem holds_appendAt (m : ViewMap) (c : Coord) (i : Nat) (k : Coord)
    (j : Nat) :
    Holds (appendAt m c i) k j ↔ (k = c ∧ j = i) ∨ Holds m k j := by
  induction m with
  | nil =>
    constructor
    · rintro ⟨v, hv, hj⟩
      simp only [appendAt, List.mem_singleton, Prod.mk.injEq] at hv
      obtain ⟨rfl, rfl⟩ := hv
      left; exact ⟨rfl, by simpa using hj⟩
    · rintro (⟨rfl, rfl⟩ | ⟨v, hv, _⟩)
      · exact ⟨[j], by simp [appendAt], by simp⟩
      · simp at hv
  | cons e rest ih =>
    obtain ⟨k0, v0⟩ := e
    unfold appendAt
    by_cases h1 : CoordCompare c k0 = true
    · simp only [h1, if_true]
      simp only [Holds, List.mem_cons, Prod.mk.injEq] at *
      constructor
      · rintro ⟨v, (⟨rfl, rfl⟩ | h), hj⟩
        · left; simpa using hj
        · right; exact ⟨v, h, hj⟩
      · rintro (⟨rfl, rfl⟩ | ⟨v, h, hj⟩)
        · exact ⟨[j], Or.inl ⟨rfl, rfl⟩, by simp⟩
        · exact ⟨v, Or.inr h, hj⟩
    · have h1f : CoordCompare c k0 = false := by simpa using h1
      by_cases h2 : CoordCompare k0 c = true
      · simp only [h1f, h2, if_true, Bool.false_eq_true, if_false]
        have : ∀ (mm : ViewMap), Holds ((k0, v0) :: mm) k j ↔
            (k = k0 ∧ j ∈ v0) ∨ Holds mm k j := by
          intro mm
          simp only [Holds, List.mem_cons, Prod.mk.injEq]
          constructor
          · rintro ⟨v, (⟨rfl, rfl⟩ | h), hj⟩
            · left; exact ⟨rfl, hj⟩
            · right; exact ⟨v, h, hj⟩
          · rintro (⟨rfl, hj⟩ | ⟨v, h, hj⟩)
            · exact ⟨v0, Or.inl ⟨rfl, rfl⟩, hj⟩
            · exact ⟨v, Or.inr h, hj⟩
        rw [this, this, ih]
        tauto
      · have h2f : CoordCompare k0 c = false := by simpa using h2
        have hck : c = k0 := eq_of_not_coordCompare h1f h2f
        subst hck
        simp only [h1f, Bool.false_eq_true, if_false]
        simp only [Holds, List.mem_cons, Prod.mk.injEq]
        constructor
        · rintro ⟨v, (⟨rfl, rfl⟩ | h), hj⟩
          · rcases List.mem_append.1 hj with hj | hj
            · right; exact ⟨v0, Or.inl ⟨rfl, rfl⟩, hj⟩
            · left; exact ⟨rfl, by simpa using hj⟩
          · right; exact ⟨v, Or.inr h, hj⟩
        · rintro (⟨rfl, rfl⟩ | ⟨v, (⟨rfl, rfl⟩ | h), hj⟩)
          · exact ⟨v0 ++ [j], Or.inl ⟨rfl, rfl⟩, by simp⟩
          · exact ⟨v ++ [i], Or.inl ⟨rfl, rfl⟩, by simp [hj]⟩
          · exact ⟨v, Or.inr h, hj⟩

theorem mem_keys_appendAt (m : ViewMap) (c : Coord) (i : Nat) (k : Coord) :
    k ∈ (appendAt m c i).map Prod.fst ↔ k = c ∨ k ∈ m.map Prod.fst := by
  induction m with
  | nil => simp [appendAt]
  | cons e rest ih =>
    obtain ⟨k0, v0⟩ := e
    unfold appendAt
    by_cases h1 : CoordCompare c k0 = true
    · simp [h1]
    · have h1f : CoordCompare c k0 = false := by simpa using h1
      by_cases h2 : CoordCompare k0 c = true
      · simp only [h1f, h2, if_true, Bool.false_eq_true, if_false, List.map_cons,
          List.mem_cons, ih]
        tauto
      · have h2f : CoordCompare k0 c = false := by simpa using h2
        have hck : c = k0 := eq_of_not_coordCompare h1f h2f
        subst hck
        simp [h1f]

/-- The keys of the cell map are in strictly increasing `CoordCompare` order. -/
def Sorted (m : ViewMap) : Prop :=
  (m.map Prod.fst).Pairwise (fun a b => CoordCompare a b = true)

theorem sorted_appendAt (m : ViewMap) (c : Coord) (i : Nat) (h : Sorted m) :
    Sorted (appendAt m c i) := by
  induction m with
  | nil => simp [appendAt, Sorted]
  | cons e rest ih =>
    obtain ⟨k0, v0⟩ := e
    unfold Sorted at h
    simp only [List.map_cons, List.pairwise_cons] at h
    obtain ⟨hk0, hrest⟩ := h
    unfold appendAt
    by_cases h1 : CoordCompare c k0 = true
    · simp only [h1, if_true, Sorted, List.map_cons, List.pairwise_cons]
      refine ⟨?_, hk0, hrest⟩
      intro a ha
      rcases List.mem_cons.1 ha with rfl | ha
      · exact h1
      · exact coordCompare_trans h1 (hk0 a ha)
    · have h1f : CoordCompare c k0 = false := by simpa using h1
      by_cases h2 : CoordCompare k0 c = true
      · simp only [h1f, h2, if_true, Bool.false_eq_true, if_false, Sorted, List.map_cons,
          List.pairwise_cons]
        refine ⟨?_, ih hrest⟩
        intro a ha
        rcases (mem_keys_appendAt rest c i a).1 ha with rfl | ha
        · exact h2
        · exact hk0 a ha
      · have h2f : CoordCompare k0 c = false := by simpa using h2
        simp only [h1f, h2f, Bool.false_eq_true, if_false, Sorted, List.map_cons,
          List.pairwise_cons]
        exact ⟨hk0, hrest⟩

theorem sorted_nodup_keys (m : ViewMap) (h : Sorted m) : (m.map Prod.fst).Nodup := by
  unfold Sorted at h
  refine List.Pairwise.imp ?_ h
  intro a b hab heq
  subst heq
  rw [coordCompare_irrefl] at hab
  exact Bool.false_ne_true hab

/-- Number of times the point `j` occurs in all the views of the map. -/
def occurrences (m : ViewMap) (j : Nat) : Nat :=
  (m.map (fun e => e.2.count j)).sum

theorem occurrences_appendAt (m : ViewMap) (c : Coord) (i j : Nat) :
    occurrences (appendAt m c i) j = occurrences m j + (if j = i then 1 else 0) := by
  induction m with
  | nil =>
    by_cases h : j = i
    · subst h; simp [appendAt, occurrences]
    · have h' : i ≠ j := fun e => h e.symm
      simp [appendAt, occurrences, h, List.count_cons, h']
  | cons e rest ih =>
    obtain ⟨k0, v0⟩ := e
    unfold appendAt
    by_cases h1 : CoordCompare c k0 = true
    · simp only [h1, if_true]
      by_cases h : j = i
      · subst h; simp [occurrences]; omega
      · have h' : i ≠ j := fun e => h e.symm
        simp [occurrences, h, List.count_cons, h']
    · have h1f : CoordCompare c k0 = false := by simpa using h1
      by_cases h2 : CoordCompare k0 c = true
      · simp only [h1f, h2, if_true, Bool.false_eq_true, if_false]
        unfold occurrences at ih ⊢
        simp only [List.map_cons, List.sum_cons, ih]
        omega
      · have h2f : CoordCompare k0 c = false := by simpa using h2
        simp only [h1f, h2f, Bool.false_eq_true, if_false]
        unfold occurrences
        by_cases h : j = i
        · subst h; simp; omega
        · have h' : i ≠ j := fun e => h e.symm
          simp [h, List.count_cons, h']

/-! ## The loop over the points -/

theorem holds_foldl_appendAt (cs : List Coord) (m : ViewMap) (i : Nat)
    (k : Coord) (j : Nat) :
    Holds (cs.foldl (fun acc c => appendAt acc c i) m) k j ↔
      (j = i ∧ k ∈ cs) ∨ Holds m k j := by
  induction cs generalizing m with
  | nil => simp
  | cons c cs ih =>
    rw [List.foldl_cons, ih, holds_appendAt]
    simp only [List.mem_cons]
    tauto

theorem mem_keys_foldl_appendAt (cs : List Coord) (m : ViewMap) (i : Nat)
    (k : Coord) :
    k ∈ (cs.foldl (fun acc c => appendAt acc c i) m).map Prod.fst ↔
      k ∈ cs ∨ k ∈ m.map Prod.fst := by
  induction cs generalizing m with
  | nil => simp
  | cons c cs ih =>
    rw [List.foldl_cons, ih, mem_keys_appendAt]
    simp only [List.mem_cons]
    tauto

theorem sorted_foldl_appendAt (cs : List Coord) (m : ViewMap) (i : Nat)
    (h : Sorted m) : Sorted (cs.foldl (fun acc c => appendAt acc c i) m) := by
  induction cs generalizing m with
  | nil => simpa using h
  | cons c cs ih =>
    rw [List.foldl_cons]
    exact ih _ (sorted_appendAt m c i h)

theorem holds_pointLoop (L buffer ox oy : ℚ) (mx my : Int) (ps : List (ℚ × ℚ))
    (idx : Nat) (m : ViewMap) (k : Coord) (j : Nat) :
    Holds (pointLoop L buffer ox oy mx my ps idx m) k j ↔
      (∃ n p, ps[n]? = some p ∧ j = idx + n ∧ k ∈ cellsOf L buffer ox oy mx my p) ∨
        Holds m k j := by
  induction ps generalizing idx m with
  | nil => simp [pointLoop]
  | cons q ps ih =>
    rw [pointLoop, ih, processPoint, holds_foldl_appendAt]
    constructor
    · rintro (⟨n, p, hn, hj, hk⟩ | ⟨hj, hk⟩ | h)
      · exact Or.inl ⟨n + 1, p, by simpa using hn, by omega, hk⟩
      · exact Or.inl ⟨0, q, by simp, by omega, hk⟩
      · exact Or.inr h
    · rintro (⟨n, p, hn, hj, hk⟩ | h)
      · cases n with
        | zero =>
          simp only [List.getElem?_cons_zero, Option.some.injEq] at hn
          subst hn
          exact Or.inr (Or.inl ⟨by omega, hk⟩)
        | succ n =>
          exact Or.inl ⟨n, p, by simpa using hn, by omega, hk⟩
      · exact Or.inr (Or.inr h)

theorem mem_keys_pointLoop (L buffer ox oy : ℚ) (mx my : Int) (ps : List (ℚ × ℚ))
    (idx : Nat) (m : ViewMap) (k : Coord) :
    k ∈ (pointLoop L buffer ox oy mx my ps idx m).map Prod.fst ↔
      (∃ p ∈ ps, k ∈ cellsOf L buffer ox oy mx my p) ∨ k ∈ m.map Prod.fst := by
  induction ps generalizing idx m with
  | nil => simp [pointLoop]
  | cons q ps ih =>
    rw [pointLoop, ih, processPoint, mem_keys_foldl_appendAt]
    constructor
    · rintro (⟨p, hp, hk⟩ | hk | hk)
      · exact Or.inl ⟨p, List.mem_cons_of_mem _ hp, hk⟩
      · exact Or.inl ⟨q, List.mem_cons_self _ _, hk⟩
      · exact Or.inr hk
    · rintro (⟨p, hp, hk⟩ | hk)
      · rcases List.mem_cons.1 hp with rfl | hp
        · exact Or.inr (Or.inl hk)
        · exact Or.inl ⟨p, hp, hk⟩
      · exact Or.inr (Or.inr hk)

theorem sorted_pointLoop (L buffer ox oy : ℚ) (mx my : Int) (ps : List (ℚ × ℚ))
    (idx : Nat) (m : ViewMap) (h : Sorted m) :
    Sorted (pointLoop L buffer ox oy mx my ps idx m) := by
  induction ps generalizing idx m with
  | nil => simpa [pointLoop] using h
  | cons q ps ih =>
    rw [pointLoop]
    exact ih _ _ (sorted_foldl_appendAt _ _ _ h)

theorem occurrences_pointLoop (L buffer ox oy : ℚ) (mx my : Int) (hb : buffer ≤ 0)
    (ps : List (ℚ × ℚ)) (idx : Nat) (m : ViewMap) (j : Nat) :
    occurrences (pointLoop L buffer ox oy mx my ps idx m) j =
      occurrences m j + (if idx ≤ j ∧ j < idx + ps.length then 1 else 0) := by
  induction ps generalizing idx m with
  | nil =>
    have : ¬ (idx ≤ j ∧ j < idx + 0) := by omega
    simp [pointLoop, this]
  | cons q ps ih =>
    rw [pointLoop, ih, processPoint]
    simp only [cellsOf, hb, if_true, List.foldl_cons, List.foldl_nil, occurrences_appendAt,
      List.length_cons]
    by_cases h1 : j = idx
    · subst h1
      have h2 : ¬ (j + 1 ≤ j ∧ j < j + 1 + ps.length) := by omega
      have h3 : j ≤ j ∧ j < j + (ps.length + 1) := by omega
      simp [h2, h3]
    · by_cases h2 : idx + 1 ≤ j ∧ j < idx + 1 + ps.length
      · have h3 : idx ≤ j ∧ j < idx + (ps.length + 1) := by omega
        simp [h1, h2, h3]
      · have h3 : ¬ (idx ≤ j ∧ j < idx + (ps.length + 1)) := by omega
        simp [h1, h2, h3]

/-! ## Bounds and truncation -/

theorem calculateBounds_fold (rest : List (ℚ × ℚ)) (b0 : BOX2D) :
    let b := rest.foldl
      (fun b q =>
        ({ minx := min b.minx q.1, miny := min b.miny q.2,
           maxx := max b.maxx q.1, maxy := max b.maxy q.2 } : BOX2D)) b0
    (b.minx ≤ b0.minx ∧ b.miny ≤ b0.miny ∧ b0.maxx ≤ b.maxx ∧ b0.maxy ≤ b.maxy) ∧
      ∀ q ∈ rest, b.minx ≤ q.1 ∧ b.miny ≤ q.2 ∧ q.1 ≤ b.maxx ∧ q.2 ≤ b.maxy := by
  induction rest generalizing b0 with
  | nil => simp
  | cons r rest ih =>
    intro b
    have h := ih { minx := min b0.minx r.1, miny := min b0.miny r.2,
                   maxx := max b0.maxx r.1, maxy := max b0.maxy r.2 }
    simp only at h
    obtain ⟨⟨h1, h2, h3, h4⟩, h5⟩ := h
    refine ⟨⟨le_trans h1 (min_le_left _ _), le_trans h2 (min_le_left _ _),
      le_trans (le_max_left _ _) h3, le_trans (le_max_left _ _) h4⟩, ?_⟩
    intro q hq
    rcases List.mem_cons.1 hq with rfl | hq
    · exact ⟨le_trans h1 (min_le_right _ _), le_trans h2 (min_le_right _ _),
        le_trans (le_max_right _ _) h3, le_trans (le_max_right _ _) h4⟩
    · exact h5 q hq

theorem calculateBounds_spec (p : ℚ × ℚ) (rest : List (ℚ × ℚ)) :
    ∀ q ∈ p :: rest,
      (calculateBounds p rest).minx ≤ q.1 ∧ (calculateBounds p rest).miny ≤ q.2 ∧
      q.1 ≤ (calculateBounds p rest).maxx ∧ q.2 ≤ (calculateBounds p rest).maxy := by
  have h := calculateBounds_fold rest { minx := p.1, miny := p.2, maxx := p.1, maxy := p.2 }
  simp only at h
  obtain ⟨⟨h1, h2, h3, h4⟩, h5⟩ := h
  intro q hq
  rcases List.mem_cons.1 hq with rfl | hq
  · exact ⟨h1, h2, h3, h4⟩
  · exact h5 q hq

/-! ## Rounding to binary64 -/

theorem roundHalfEven_bounds (q : ℚ) :
    Int.floor q ≤ roundHalfEven q ∧ roundHalfEven q ≤ Int.floor q + 1 := by
  unfold roundHalfEven
  simp only
  split_ifs <;> omega

theorem roundHalfEven_intCast (z : Int) : roundHalfEven (z : ℚ) = z := by
  unfold roundHalfEven
  simp

theorem roundHalfEven_mono {a b : ℚ} (h : a ≤ b) : roundHalfEven a ≤ roundHalfEven b := by
  have hf : Int.floor a ≤ Int.floor b := Int.floor_mono h
  rcases lt_or_eq_of_le hf with hlt | heq
  · have h1 := (roundHalfEven_bounds a).2
    have h2 := (roundHalfEven_bounds b).1
    omega
  · unfold roundHalfEven
    simp only [heq]
    have hr : a - (Int.floor b : ℚ) ≤ b - (Int.floor b : ℚ) := by linarith
    split_ifs <;> first | omega | linarith

theorem log2Nat_spec : ∀ (fuel n : Nat), 1 ≤ n → n ≤ fuel →
    2 ^ log2Nat fuel n ≤ n ∧ n < 2 ^ (log2Nat fuel n + 1) := by
  intro fuel
  induction fuel with
  | zero => intro n h1 h2; omega
  | succ fuel ih =>
    intro n h1 h2
    unfold log2Nat
    by_cases hn : n < 2
    · simp only [hn, if_true]
      have : n = 1 := by omega
      subst this
      simp
    · simp only [hn, if_false]
      obtain ⟨ha, hb⟩ := ih (n / 2) (by omega) (by omega)
      rw [pow_succ] at hb ⊢
      rw [pow_succ] 
      constructor <;> omega

theorem log2Floor_spec {q : ℚ} (hq : 0 < q) :
    (2 : ℚ) ^ log2Floor q ≤ q ∧ q < (2 : ℚ) ^ (log2Floor q + 1) := by
  have hnum : 0 < q.num := Rat.num_pos.2 hq
  have hden : 0 < q.den := q.den_pos
  have hn1 : 1 ≤ q.num.natAbs := by omega
  obtain ⟨na, nb⟩ := log2Nat_spec q.num.natAbs q.num.natAbs hn1 le_rfl
  obtain ⟨da, db⟩ := log2Nat_spec q.den q.den hden le_rfl
  have hqeq : q = (q.num.natAbs : ℚ) / (q.den : ℚ) := by
    have h1 : ((q.num.natAbs : Nat) : ℚ) = (q.num : ℚ) := by
      rw [Nat.cast_natAbs, abs_of_pos hnum]
    rw [h1]
    exact (Rat.num_div_den q).symm
  set a := log2Nat q.num.natAbs q.num.natAbs with ha
  set b := log2Nat q.den q.den with hb
  have hdpos : (0 : ℚ) < (q.den : ℚ) := by exact_mod_cast hden
  have na' : (2 : ℚ) ^ a ≤ (q.num.natAbs : ℚ) := by exact_mod_cast na
  have nb' : (q.num.natAbs : ℚ) < (2 : ℚ) ^ (a + 1) := by exact_mod_cast nb
  have da' : (2 : ℚ) ^ b ≤ (q.den : ℚ) := by exact_mod_cast da
  have db' : (q.den : ℚ) < (2 : ℚ) ^ (b + 1) := by exact_mod_cast db
  have h2 : (0 : ℚ) < 2 := by norm_num
  have hk1 : (2 : ℚ) ^ ((a : Int) - (b : Int) - 1) ≤ q := by
    have e : (2 : ℚ) ^ ((a : Int) - (b : Int) - 1) = (2 : ℚ) ^ a / (2 : ℚ) ^ (b + 1) := by
      rw [show (a : Int) - (b : Int) - 1 = (a : Int) - ((b + 1 : Nat) : Int) by push_cast; ring,
        zpow_sub₀ (by norm_num), zpow_natCast, zpow_natCast]
    rw [e]
    exact le_of_le_of_eq (div_le_div₀ (by positivity) na' hdpos db'.le) hqeq.symm
  have hk2 : q < (2 : ℚ) ^ ((a : Int) - (b : Int) + 1) := by
    have e : (2 : ℚ) ^ ((a : Int) - (b : Int) + 1) = (2 : ℚ) ^ (a + 1) / (2 : ℚ) ^ b := by
      rw [show (a : Int) - (b : Int) + 1 = ((a + 1 : Nat) : Int) - (b : Int) by push_cast; ring,
        zpow_sub₀ (by norm_num), zpow_natCast, zpow_natCast]
    rw [e]
    exact lt_of_eq_of_lt hqeq (div_lt_div₀ nb' da' (by positivity) (by positivity))
  unfold log2Floor
  simp only
  rw [← ha, ← hb]
  by_cases hc : (2 : ℚ) ^ ((a : Int) - (b : Int)) ≤ q
  · rw [if_pos hc]
    exact ⟨hc, hk2⟩
  · rw [if_neg hc]
    refine ⟨hk1, ?_⟩
    rw [sub_add_cancel]
    exact lt_of_not_le hc

theorem roundHalfEven_zero : roundHalfEven 0 = 0 := by
  have h := roundHalfEven_intCast 0
  simpa using h

theorem roundDouble_eq {q : ℚ} (h : q ≠ 0) :
    roundDouble q =
      (roundHalfEven (q / (2 : ℚ) ^ (max (log2Floor |q|) (-1022) - 52)) : ℚ) *
        (2 : ℚ) ^ (max (log2Floor |q|) (-1022) - 52) := by
  unfold roundDouble
  rw [if_neg h]

theorem roundDouble_zero : roundDouble 0 = 0 := by
  unfold roundDouble
  rw [if_pos rfl]

theorem roundDouble_nonneg {q : ℚ} (h : 0 ≤ q) : 0 ≤ roundDouble q := by
  by_cases h0 : q = 0
  · rw [h0, roundDouble_zero]
  · rw [roundDouble_eq h0]
    have hu : (0 : ℚ) < (2 : ℚ) ^ (max (log2Floor |q|) (-1022) - 52) :=
      zpow_pos (by norm_num) _
    have hr : 0 ≤ roundHalfEven (q / (2 : ℚ) ^ (max (log2Floor |q|) (-1022) - 52)) := by
      have := roundHalfEven_mono (div_nonneg h hu.le)
      rwa [roundHalfEven_zero] at this
    exact mul_nonneg (by exact_mod_cast hr) hu.le

theorem log2Floor_mono {a b : ℚ} (ha : 0 < a) (hab : a ≤ b) : log2Floor a ≤ log2Floor b := by
  have h1 := (log2Floor_spec ha).1
  have h2 := (log2Floor_spec (lt_of_lt_of_le ha hab)).2
  have h3 : (2 : ℚ) ^ log2Floor a < (2 : ℚ) ^ (log2Floor b + 1) :=
    lt_of_le_of_lt (le_trans h1 hab) h2
  have h4 := (zpow_lt_zpow_iff_right₀ (by norm_num : (1 : ℚ) < 2)).1 h3
  omega

/-- Rounding to binary64 keeps the order of non-negative numbers. -/
theorem roundDouble_mono_of_nonneg {a b : ℚ} (ha : 0 ≤ a) (hab : a ≤ b) :
    roundDouble a ≤ roundDouble b := by
  by_cases ha0 : a = 0
  · rw [ha0, roundDouble_zero]
    exact roundDouble_nonneg (le_trans ha hab)
  have hapos : 0 < a := lt_of_le_of_ne ha (Ne.symm ha0)
  have hbpos : 0 < b := lt_of_lt_of_le hapos hab
  have hb0 : b ≠ 0 := ne_of_gt hbpos
  rw [roundDouble_eq ha0, roundDouble_eq hb0, abs_of_pos hapos, abs_of_pos hbpos]
  have he := log2Floor_mono hapos hab
  have h2 : (1 : ℚ) < 2 := by norm_num
  have h20 : (2 : ℚ) ≠ 0 := by norm_num
  rcases lt_or_eq_of_le (max_le_max he (le_refl (-1022 : Int))) with hlt | heq
  · -- different binades: a power of two lies between the two roundings
    have hMb : max (log2Floor b) (-1022) = log2Floor b := by
      rcases le_total (log2Floor b) (-1022) with h | h
      · rw [max_eq_right h] at hlt
        have := le_max_right (log2Floor a) (-1022)
        omega
      · exact max_eq_left h
    rw [hMb] at hlt ⊢
    set Ma := max (log2Floor a) (-1022) with hMa
    have hua : (0 : ℚ) < (2 : ℚ) ^ (Ma - 52) := zpow_pos (by norm_num) _
    have hub : (0 : ℚ) < (2 : ℚ) ^ (log2Floor b - 52) := zpow_pos (by norm_num) _
    -- the rounding of `a` is at most 2 ^ (Ma + 1)
    have ha_lt : a < (2 : ℚ) ^ (Ma + 1) :=
      lt_of_lt_of_le (log2Floor_spec hapos).2
        (zpow_le_zpow_right₀ h2.le (by have := le_max_left (log2Floor a) (-1022); omega))
    have hqa : a / (2 : ℚ) ^ (Ma - 52) ≤ ((2 ^ 53 : Int) : ℚ) := by
      rw [div_le_iff₀ hua]
      have e : (((2 : Int) ^ 53 : Int) : ℚ) * (2 : ℚ) ^ (Ma - 52) = (2 : ℚ) ^ (Ma + 1) := by
        rw [show Ma + 1 = 53 + (Ma - 52) by ring, zpow_add₀ h20]
        norm_num
      rw [e]
      exact ha_lt.le
    have hra : roundHalfEven (a / (2 : ℚ) ^ (Ma - 52)) ≤ 2 ^ 53 := by
      have := roundHalfEven_mono hqa
      rwa [roundHalfEven_intCast] at this
    have hA : (roundHalfEven (a / (2 : ℚ) ^ (Ma - 52)) : ℚ) * (2 : ℚ) ^ (Ma - 52) ≤
        (2 : ℚ) ^ (Ma + 1) := by
      have e : (2 : ℚ) ^ (Ma + 1) = (((2 : Int) ^ 53 : Int) : ℚ) * (2 : ℚ) ^ (Ma - 52) := by
        rw [show Ma + 1 = 53 + (Ma - 52) by ring, zpow_add₀ h20]
        norm_num
      rw [e]
      exact mul_le_mul_of_nonneg_right (by exact_mod_cast hra) hua.le
    -- the rounding of `b` is at least 2 ^ log2Floor b
    have hqb : (((2 : Int) ^ 52 : Int) : ℚ) ≤ b / (2 : ℚ) ^ (log2Floor b - 52) := by
      rw [le_div_iff₀ hub]
      have e : (((2 : Int) ^ 52 : Int) : ℚ) * (2 : ℚ) ^ (log2Floor b - 52) =
          (2 : ℚ) ^ log2Floor b := by
        rw [show log2Floor b = 52 + (log2Floor b - 52) by ring, zpow_add₀ h20]
        norm_num
      rw [e]
      exact (log2Floor_spec hbpos).1
    have hrb : 2 ^ 52 ≤ roundHalfEven (b / (2 : ℚ) ^ (log2Floor b - 52)) := by
      have := roundHalfEven_mono hqb
      rwa [roundHalfEven_intCast] at this
    have hB : (2 : ℚ) ^ log2Floor b ≤
        (roundHalfEven (b / (2 : ℚ) ^ (log2Floor b - 52)) : ℚ) *
          (2 : ℚ) ^ (log2Floor b - 52) := by
      have e : (2 : ℚ) ^ log2Floor b =
          (((2 : Int) ^ 52 : Int) : ℚ) * (2 : ℚ) ^ (log2Floor b - 52) := by
        rw [show log2Floor b = 52 + (log2Floor b - 52) by ring, zpow_add₀ h20]
        norm_num
      rw [e]
      exact mul_le_mul_of_nonneg_right (by exact_mod_cast hrb) hub.le
    have hmid : (2 : ℚ) ^ (Ma + 1) ≤ (2 : ℚ) ^ log2Floor b :=
      zpow_le_zpow_right₀ h2.le (by omega)
    exact le_trans hA (le_trans hmid hB)
  · -- same binade: the same unit in the last place
    rw [heq]
    have hu : (0 : ℚ) < (2 : ℚ) ^ (max (log2Floor b) (-1022) - 52) := zpow_pos (by norm_num) _
    have hq : a / (2 : ℚ) ^ (max (log2Floor b) (-1022) - 52) ≤
        b / (2 : ℚ) ^ (max (log2Floor b) (-1022) - 52) :=
      div_le_div_of_nonneg_right hab hu.le
    exact mul_le_mul_of_nonneg_right (by exact_mod_cast roundHalfEven_mono hq) hu.le

/-! ## The conversion to `int` -/

theorem trunc_of_nonneg {d : ℚ} (h : 0 ≤ d) : trunc d = Int.floor d := by
  simp [trunc, h]

theorem trunc_intCast (z : Int) : trunc (z : ℚ) = z := by
  unfold trunc
  split_ifs <;> simp

theorem toInt_of_nonneg {d : ℚ} (h : 0 ≤ d) (hr : d < 2147483648) :
    toInt d = Int.floor d := by
  have hf0 : 0 ≤ Int.floor d := Int.floor_nonneg.2 h
  have hf1 : Int.floor d < 2147483648 := Int.floor_lt.2 (by exact_mod_cast hr)
  unfold toInt
  rw [trunc_of_nonneg h, if_pos ⟨by omega, by omega⟩]

theorem toInt_nonneg {d : ℚ} (h : 0 ≤ d) (hr : d < 2147483648) : 0 ≤ toInt d := by
  rw [toInt_of_nonneg h hr]
  exact Int.floor_nonneg.2 h

theorem toInt_mono_of_nonneg {a b : ℚ} (ha : 0 ≤ a) (hab : a ≤ b) (hr : b < 2147483648) :
    toInt a ≤ toInt b := by
  rw [toInt_of_nonneg ha (lt_of_le_of_lt hab hr), toInt_of_nonneg (le_trans ha hab) hr]
  exact Int.floor_mono hab

theorem toInt_intCast (z : Int) (h1 : -2147483648 ≤ z) (h2 : z ≤ 2147483647) :
    toInt (z : ℚ) = z := by
  unfold toInt
  rw [trunc_intCast, if_pos ⟨h1, h2⟩]

theorem fsub_nonneg {a b : ℚ} (h : b ≤ a) : 0 ≤ fsub a b :=
  roundDouble_nonneg (sub_nonneg.2 h)

theorem fsub_mono_left {a b c : ℚ} (hc : c ≤ a) (hab : a ≤ b) : fsub a c ≤ fsub b c :=
  roundDouble_mono_of_nonneg (sub_nonneg.2 hc) (sub_le_sub_right hab c)

theorem fdiv_nonneg {a L : ℚ} (ha : 0 ≤ a) (hL : 0 < L) : 0 ≤ fdiv a L :=
  roundDouble_nonneg (div_nonneg ha hL.le)

theorem fdiv_mono_left {a b L : ℚ} (ha : 0 ≤ a) (hab : a ≤ b) (hL : 0 < L) :
    fdiv a L ≤ fdiv b L :=
  roundDouble_mono_of_nonneg (div_nonneg ha hL.le) (div_le_div_of_nonneg_right hab hL.le)

theorem originX_of_unset (f : Filter) (b : BOX2D) (h : f.m_xOrigin = none) :
    originX f b = b.minx := by
  simp [originX, resolveOrigin, h]

theorem originY_of_unset (f : Filter) (b : BOX2D) (h : f.m_yOrigin = none) :
    originY f b = b.miny := by
  simp [originY, resolveOrigin, h]

/-! ## The neighbour rectangle -/

theorem mem_loopRange (lo hi z : Int) : z ∈ loopRange lo hi ↔ lo ≤ z ∧ z ≤ hi := by
  unfold loopRange
  simp only [List.mem_map, List.mem_range]
  constructor
  · rintro ⟨k, hk, rfl⟩
    omega
  · rintro ⟨h1, h2⟩
    exact ⟨(z - lo).toNat, by omega, by omega⟩

theorem mem_neighbourCells (bx by_ mx my : Int) (rx ry : Int × Int) (c : Coord) :
    c ∈ neighbourCells bx by_ mx my rx ry ↔
      (rx.1 ≤ c.1 - bx ∧ c.1 - bx ≤ rx.2) ∧ (ry.1 ≤ c.2 - by_ ∧ c.2 - by_ ≤ ry.2) ∧
      (0 ≤ c.1 ∧ c.1 ≤ mx) ∧ (0 ≤ c.2 ∧ c.2 ≤ my) ∧ c ≠ (bx, by_) := by
  unfold neighbourCells
  simp only [List.mem_flatMap, mem_loopRange]
  constructor
  · rintro ⟨ix, hix, hc⟩
    split_ifs at hc with h1
    · simp at hc
    · simp only [List.mem_flatMap, mem_loopRange] at hc
      obtain ⟨iy, hiy, hc⟩ := hc
      split_ifs at hc with h2 h3
      · simp at hc
      · simp at hc
      · simp only [List.mem_singleton] at hc
        subst hc
        refine ⟨by constructor <;> simp <;> omega, by constructor <;> simp <;> omega,
          by constructor <;> simp <;> omega, by constructor <;> simp <;> omega, ?_⟩
        intro heq
        simp only [Prod.mk.injEq] at heq
        omega
  · rintro ⟨hx, hy, hgx, hgy, hne⟩
    refine ⟨c.1 - bx, hx, ?_⟩
    have h1 : ¬ (bx + (c.1 - bx) < 0 ∨ bx + (c.1 - bx) > mx) := by omega
    rw [if_neg h1]
    simp only [List.mem_flatMap, mem_loopRange]
    refine ⟨c.2 - by_, hy, ?_⟩
    have h2 : ¬ (by_ + (c.2 - by_) < 0 ∨ by_ + (c.2 - by_) > my) := by omega
    have h3 : ¬ (c.1 - bx = 0 ∧ c.2 - by_ = 0) := by
      rintro ⟨e1, e2⟩
      apply hne
      apply Prod.ext <;> simp <;> omega
    rw [if_neg h2, if_neg h3]
    simp only [List.mem_singleton]
    apply Prod.ext <;> simp

end SplitterFilter

namespace SplitterFilter

/-! ## Claims about `SplitterFilter::run` -/

theorem cellsOf_of_buffer_nonpos (L buffer ox oy : ℚ) (mx my : Int) (q : ℚ × ℚ)
    (hb : buffer ≤ 0) : cellsOf L buffer ox oy mx my q = [primaryCell L ox oy q] := by
  simp [cellsOf, primaryCell, hb]

theorem primaryCell_mem_cellsOf (L buffer ox oy : ℚ) (mx my : Int) (q : ℚ × ℚ) :
    primaryCell L ox oy q ∈ cellsOf L buffer ox oy mx my q := by
  unfold cellsOf primaryCell
  split_ifs <;> simp

/-- C1: with buffer 0 and a positive cell length, whatever the configured
origin, `run` on a non-empty view returns a strict partition: every input
point index occurs exactly once in all the output collections taken together
(so in exactly one of them, once), no other index occurs, and there are as
many output collections as distinct primary cells of the input points. -/
theorem run_zero_buffer_partition (f : Filter) (p : ℚ × ℚ) (rest : List (ℚ × ℚ))
    (_hL : 0 < f.m_length) (hb : f.m_buffer = 0) :
    (∀ i, i < (p :: rest).length →
        ((run f (p :: rest)).2.map (fun e => e.2.count i)).sum = 1) ∧
    (∀ i, (p :: rest).length ≤ i →
        ((run f (p :: rest)).2.map (fun e => e.2.count i)).sum = 0) ∧
    (run f (p :: rest)).2.length =
      (((p :: rest).map (primaryCell f.m_length (originX f (calculateBounds p rest))
          (originY f (calculateBounds p rest)))).dedup).length := by
  have hb' : f.m_buffer ≤ 0 := le_of_eq hb
  have hocc := occurrences_pointLoop f.m_length f.m_buffer
    (originX f (calculateBounds p rest)) (originY f (calculateBounds p rest))
    (maxBinX f (calculateBounds p rest)) (maxBinY f (calculateBounds p rest)) hb'
    (p :: rest) 0 []
  simp only [occurrences, List.map_nil, List.sum_nil, Nat.zero_add, Nat.zero_le,
    true_and] at hocc
  refine ⟨?_, ?_, ?_⟩
  · intro i hi
    simp only [run]
    rw [hocc i, if_pos hi]
  · intro i hi
    simp only [run]
    rw [hocc i, if_neg (by omega)]
  · have hsorted := sorted_pointLoop f.m_length f.m_buffer
      (originX f (calculateBounds p rest)) (originY f (calculateBounds p rest))
      (maxBinX f (calculateBounds p rest)) (maxBinY f (calculateBounds p rest))
      (p :: rest) 0 [] (by simp [Sorted])
    have hnodup := sorted_nodup_keys _ hsorted
    have hperm : ((run f (p :: rest)).2.map Prod.fst).Perm
        (((p :: rest).map (primaryCell f.m_length (originX f (calculateBounds p rest))
          (originY f (calculateBounds p rest)))).dedup) := by
      rw [List.perm_ext_iff_of_nodup (by simpa only [run] using hnodup) (List.nodup_dedup _)]
      intro k
      simp only [run]
      rw [mem_keys_pointLoop, List.mem_dedup]
      constructor
      · rintro (⟨q, hq, hk⟩ | hk)
        · rw [cellsOf_of_buffer_nonpos _ _ _ _ _ _ _ hb', List.mem_singleton] at hk
          exact List.mem_map.2 ⟨q, hq, hk.symm⟩
        · simp at hk
      · intro hk
        obtain ⟨q, hq, rfl⟩ := List.mem_map.1 hk
        refine Or.inl ⟨q, hq, ?_⟩
        rw [cellsOf_of_buffer_nonpos _ _ _ _ _ _ _ hb']
        simp
    have hlen := hperm.length_eq
    simpa using hlen

/-- Witness of C1 on the two points (1,1) and (11,1) with cell length 10. -/
theorem run_zero_buffer_partition_witness :
    ((run ⟨10, 0, some 3, none⟩ [(1, 1), (11, 1)]).2.map (fun e => e.2.count 1)).sum = 1 ∧
    (run ⟨10, 0, some 3, none⟩ [(1, 1), (11, 1)]).2.length =
      (([((1 : ℚ), (1 : ℚ)), (11, 1)].map (primaryCell 10
          (originX ⟨10, 0, some 3, none⟩ (calculateBounds (1, 1) [(11, 1)]))
          (originY ⟨10, 0, some 3, none⟩ (calculateBounds (1, 1) [(11, 1)])))).dedup).length :=
  ⟨(run_zero_buffer_partition ⟨10, 0, some 3, none⟩ (1, 1) [(11, 1)]
      (by norm_num) rfl).1 1 (by decide),
   (run_zero_buffer_partition ⟨10, 0, some 3, none⟩ (1, 1) [(11, 1)]
      (by norm_num) rfl).2.2⟩

/-- C3 as stated fails. Cell length 1, points (0,0) and (3000000000,0): the
quotient 3000000000 is beyond the range of `int`, and the primary cell of the
second point is (-2147483648, 0), not the floor. Cell length the double
nearest to 0.1, points (0,0) and (1/2,0): the quotient computed in doubles is
5 and the primary cell of the second point is (5,0), where the floor of the
exact quotient is 4. -/
theorem run_primary_cell_not_floor :
    ¬ (∀ (i : Nat) (q : ℚ × ℚ), [((0 : ℚ), (0 : ℚ)), (3000000000, 0)][i]? = some q →
        primaryCell 1 (originX ⟨1, 0, none, none⟩ (calculateBounds (0, 0) [(3000000000, 0)]))
            (originY ⟨1, 0, none, none⟩ (calculateBounds (0, 0) [(3000000000, 0)])) q =
          (Int.floor ((q.1 - (calculateBounds (0, 0) [(3000000000, 0)]).minx) / 1),
           Int.floor ((q.2 - (calculateBounds (0, 0) [(3000000000, 0)]).miny) / 1))) ∧
    ¬ (∀ (i : Nat) (q : ℚ × ℚ), [((0 : ℚ), (0 : ℚ)), (1 / 2, 0)][i]? = some q →
        primaryCell (3602879701896397 / 36028797018963968)
            (originX ⟨3602879701896397 / 36028797018963968, 0, none, none⟩
              (calculateBounds (0, 0) [(1 / 2, 0)]))
            (originY ⟨3602879701896397 / 36028797018963968, 0, none, none⟩
              (calculateBounds (0, 0) [(1 / 2, 0)])) q =
          (Int.floor ((q.1 - (calculateBounds (0, 0) [(1 / 2, 0)]).minx) /
              (3602879701896397 / 36028797018963968)),
           Int.floor ((q.2 - (calculateBounds (0, 0) [(1 / 2, 0)]).miny) /
              (3602879701896397 / 36028797018963968)))) := by
  constructor
  · intro h
    have h1 := h 1 (3000000000, 0) (by simp)
    revert h1
    decide!
  · intro h
    have h1 := h 1 (1 / 2, 0) (by simp)
    revert h1
    decide!

/-- C3, amended: with the origin unset and a positive cell length (any
buffer), the resolved origin is the minimum corner of the bounds and every
input point is a member of the output collection keyed by its primary cell;
on each axis the quotient of the local offset by the cell length, as computed
in doubles, is not negative, and where it is below 2^31 the primary cell
coordinate is its floor. Where moreover the subtraction and the division are
exact, that is the floor of the exact quotient. -/
theorem run_primary_cell_floor (f : Filter) (p : ℚ × ℚ) (rest : List (ℚ × ℚ))
    (hL : 0 < f.m_length) (hx : f.m_xOrigin = none) (hy : f.m_yOrigin = none)
    (i : Nat) (q : ℚ × ℚ) (hq : (p :: rest)[i]? = some q) :
    (run f (p :: rest)).1.m_xOrigin = some (calculateBounds p rest).minx ∧
    (run f (p :: rest)).1.m_yOrigin = some (calculateBounds p rest).miny ∧
    (∃ v, (primaryCell f.m_length (originX f (calculateBounds p rest))
            (originY f (calculateBounds p rest)) q, v) ∈ (run f (p :: rest)).2 ∧ i ∈ v) ∧
    0 ≤ fdiv (fsub q.1 (calculateBounds p rest).minx) f.m_length ∧
    0 ≤ fdiv (fsub q.2 (calculateBounds p rest).miny) f.m_length ∧
    (fdiv (fsub q.1 (calculateBounds p rest).minx) f.m_length < 2147483648 →
      (primaryCell f.m_length (originX f (calculateBounds p rest))
          (originY f (calculateBounds p rest)) q).1 =
        Int.floor (fdiv (fsub q.1 (calculateBounds p rest).minx) f.m_length)) ∧
    (fdiv (fsub q.2 (calculateBounds p rest).miny) f.m_length < 2147483648 →
      (primaryCell f.m_length (originX f (calculateBounds p rest))
          (originY f (calculateBounds p rest)) q).2 =
        Int.floor (fdiv (fsub q.2 (calculateBounds p rest).miny) f.m_length)) ∧
    (fsub q.1 (calculateBounds p rest).minx = q.1 - (calculateBounds p rest).minx →
      fdiv (q.1 - (calculateBounds p rest).minx) f.m_length =
        (q.1 - (calculateBounds p rest).minx) / f.m_length →
      (q.1 - (calculateBounds p rest).minx) / f.m_length < 2147483648 →
      (primaryCell f.m_length (originX f (calculateBounds p rest))
          (originY f (calculateBounds p rest)) q).1 =
        Int.floor ((q.1 - (calculateBounds p rest).minx) / f.m_length)) ∧
    (fsub q.2 (calculateBounds p rest).miny = q.2 - (calculateBounds p rest).miny →
      fdiv (q.2 - (calculateBounds p rest).miny) f.m_length =
        (q.2 - (calculateBounds p rest).miny) / f.m_length →
      (q.2 - (calculateBounds p rest).miny) / f.m_length < 2147483648 →
      (primaryCell f.m_length (originX f (calculateBounds p rest))
          (originY f (calculateBounds p rest)) q).2 =
        Int.floor ((q.2 - (calculateBounds p rest).miny) / f.m_length)) := by
  have hmem : q ∈ p :: rest := List.getElem?_mem hq
  obtain ⟨b1, b2, -, -⟩ := calculateBounds_spec p rest q hmem
  have hox := originX_of_unset f (calculateBounds p rest) hx
  have hoy := originY_of_unset f (calculateBounds p rest) hy
  have n1 : 0 ≤ fdiv (fsub q.1 (calculateBounds p rest).minx) f.m_length :=
    fdiv_nonneg (fsub_nonneg b1) hL
  have n2 : 0 ≤ fdiv (fsub q.2 (calculateBounds p rest).miny) f.m_length :=
    fdiv_nonneg (fsub_nonneg b2) hL
  have c1 : fdiv (fsub q.1 (calculateBounds p rest).minx) f.m_length < 2147483648 →
      (primaryCell f.m_length (originX f (calculateBounds p rest))
          (originY f (calculateBounds p rest)) q).1 =
        Int.floor (fdiv (fsub q.1 (calculateBounds p rest).minx) f.m_length) := by
    intro hr
    rw [hox]
    exact toInt_of_nonneg n1 hr
  have c2 : fdiv (fsub q.2 (calculateBounds p rest).miny) f.m_length < 2147483648 →
      (primaryCell f.m_length (originX f (calculateBounds p rest))
          (originY f (calculateBounds p rest)) q).2 =
        Int.floor (fdiv (fsub q.2 (calculateBounds p rest).miny) f.m_length) := by
    intro hr
    rw [hoy]
    exact toInt_of_nonneg n2 hr
  refine ⟨by simp [run, hox], by simp [run, hoy], ?_, n1, n2, c1, c2, ?_, ?_⟩
  · exact (holds_pointLoop f.m_length f.m_buffer (originX f (calculateBounds p rest))
      (originY f (calculateBounds p rest)) (maxBinX f (calculateBounds p rest))
      (maxBinY f (calculateBounds p rest)) (p :: rest) 0 []
      (primaryCell f.m_length (originX f (calculateBounds p rest))
        (originY f (calculateBounds p rest)) q) i).2
      (Or.inl ⟨i, q, hq, by omega, primaryCell_mem_cellsOf _ _ _ _ _ _ _⟩)
  · intro e1 e2 hr
    have h := c1
    rw [e1, e2] at h
    exact h hr
  · intro e1 e2 hr
    have h := c2
    rw [e1, e2] at h
    exact h hr

/-- Witness of the amended C3: the point (19, 7) of a three-point view, cell
length 10, buffer 1. -/
theorem run_primary_cell_floor_witness :
    (primaryCell 10 (originX ⟨10, 1, none, none⟩ (calculateBounds (1, 1) [(19, 7), (4, 25)]))
        (originY ⟨10, 1, none, none⟩ (calculateBounds (1, 1) [(19, 7), (4, 25)])) (19, 7)).1 =
      Int.floor (fdiv (fsub 19 (calculateBounds (1, 1) [(19, 7), (4, 25)]).minx) 10) :=
  (run_primary_cell_floor ⟨10, 1, none, none⟩ (1, 1) [(19, 7), (4, 25)]
    (by norm_num) rfl rfl 1 (19, 7) rfl).2.2.2.2.2.1 (by decide!)

theorem primaryCell_in_grid (f : Filter) (p : ℚ × ℚ) (rest : List (ℚ × ℚ))
    (hL : 0 < f.m_length) (hx : f.m_xOrigin = none) (hy : f.m_yOrigin = none)
    (hRx : fdiv (fsub (calculateBounds p rest).maxx (calculateBounds p rest).minx) f.m_length
      < 2147483648)
    (hRy : fdiv (fsub (calculateBounds p rest).maxy (calculateBounds p rest).miny) f.m_length
      < 2147483648)
    (q : ℚ × ℚ) (hq : q ∈ p :: rest) :
    (0 ≤ (primaryCell f.m_length (originX f (calculateBounds p rest))
        (originY f (calculateBounds p rest)) q).1 ∧
      (primaryCell f.m_length (originX f (calculateBounds p rest))
        (originY f (calculateBounds p rest)) q).1 ≤ maxBinX f (calculateBounds p rest)) ∧
    (0 ≤ (primaryCell f.m_length (originX f (calculateBounds p rest))
        (originY f (calculateBounds p rest)) q).2 ∧
      (primaryCell f.m_length (originX f (calculateBounds p rest))
        (originY f (calculateBounds p rest)) q).2 ≤ maxBinY f (calculateBounds p rest)) := by
  obtain ⟨b1, b2, b3, b4⟩ := calculateBounds_spec p rest q hq
  unfold maxBinX maxBinY
  rw [originX_of_unset f _ hx, originY_of_unset f _ hy]
  unfold primaryCell
  have h1 : 0 ≤ fdiv (fsub q.1 (calculateBounds p rest).minx) f.m_length :=
    fdiv_nonneg (fsub_nonneg b1) hL
  have h2 : 0 ≤ fdiv (fsub q.2 (calculateBounds p rest).miny) f.m_length :=
    fdiv_nonneg (fsub_nonneg b2) hL
  have m1 : fdiv (fsub q.1 (calculateBounds p rest).minx) f.m_length ≤
      fdiv (fsub (calculateBounds p rest).maxx (calculateBounds p rest).minx) f.m_length :=
    fdiv_mono_left (fsub_nonneg b1) (fsub_mono_left b1 b3) hL
  have m2 : fdiv (fsub q.2 (calculateBounds p rest).miny) f.m_length ≤
      fdiv (fsub (calculateBounds p rest).maxy (calculateBounds p rest).miny) f.m_length :=
    fdiv_mono_left (fsub_nonneg b2) (fsub_mono_left b2 b4) hL
  exact ⟨⟨toInt_nonneg h1 (lt_of_le_of_lt m1 hRx), toInt_mono_of_nonneg h1 m1 hRx⟩,
    ⟨toInt_nonneg h2 (lt_of_le_of_lt m2 hRy), toInt_mono_of_nonneg h2 m2 hRy⟩⟩

/-- C7 as stated fails: cell length 1, buffer 0, origin unset, points (0,0)
and (3000000000,0). The quotient 3000000000 is beyond the range of `int`:
`max_x_bin` is -2147483648 and the second point is put in the collection keyed
(-2147483648, 0), a coordinate below 0. -/
theorem run_cell_outside_grid :
    ¬ (∀ (c : Coord) (v : OutView),
        (c, v) ∈ (run ⟨1, 0, none, none⟩ [(0, 0), (3000000000, 0)]).2 →
        (0 ≤ c.1 ∧ c.1 ≤ maxBinX ⟨1, 0, none, none⟩
            (calculateBounds (0, 0) [(3000000000, 0)])) ∧
        (0 ≤ c.2 ∧ c.2 ≤ maxBinY ⟨1, 0, none, none⟩
            (calculateBounds (0, 0) [(3000000000, 0)]))) := by
  intro h
  have h1 := h (-2147483648, 0) [1] (by decide!)
  revert h1
  decide!

/-- C7, amended: with the origin unset and a positive cell length (any
buffer), when on each axis the quotient (bounds maximum - bounds minimum) /
length computed at lines 118-119 is below 2^31, every coordinate that keys an
output collection of `run` lies in the grid `[0, max_x_bin] x [0, max_y_bin]`,
the maxima being the truncations of those quotients. -/
theorem run_cells_within_grid (f : Filter) (p : ℚ × ℚ) (rest : List (ℚ × ℚ))
    (hL : 0 < f.m_length) (hx : f.m_xOrigin = none) (hy : f.m_yOrigin = none)
    (hRx : fdiv (fsub (calculateBounds p rest).maxx (calculateBounds p rest).minx) f.m_length
      < 2147483648)
    (hRy : fdiv (fsub (calculateBounds p rest).maxy (calculateBounds p rest).miny) f.m_length
      < 2147483648)
    (c : Coord) (v : OutView) (hc : (c, v) ∈ (run f (p :: rest)).2) :
    (0 ≤ c.1 ∧ c.1 ≤ maxBinX f (calculateBounds p rest)) ∧
    (0 ≤ c.2 ∧ c.2 ≤ maxBinY f (calculateBounds p rest)) ∧
    maxBinX f (calculateBounds p rest) =
      Int.floor (fdiv (fsub (calculateBounds p rest).maxx (calculateBounds p rest).minx)
        f.m_length) ∧
    maxBinY f (calculateBounds p rest) =
      Int.floor (fdiv (fsub (calculateBounds p rest).maxy (calculateBounds p rest).miny)
        f.m_length) := by
  have hkey : c ∈ (run f (p :: rest)).2.map Prod.fst := List.mem_map.2 ⟨(c, v), hc, rfl⟩
  simp only [run] at hkey
  rw [mem_keys_pointLoop] at hkey
  have hgrid : (0 ≤ c.1 ∧ c.1 ≤ maxBinX f (calculateBounds p rest)) ∧
      (0 ≤ c.2 ∧ c.2 ≤ maxBinY f (calculateBounds p rest)) := by
    rcases hkey with ⟨q, hq, hk⟩ | hk
    · have hprim := primaryCell_in_grid f p rest hL hx hy hRx hRy q hq
      unfold cellsOf at hk
      split_ifs at hk with hb
      · rw [List.mem_singleton] at hk
        subst hk
        exact hprim
      · rcases List.mem_cons.1 hk with hk | hk
        · subst hk
          exact hprim
        · rw [mem_neighbourCells] at hk
          exact ⟨hk.2.2.1, hk.2.2.2.1⟩
    · simp at hk
  obtain ⟨-, -, b3, b4⟩ := calculateBounds_spec p rest p (List.mem_cons_self _ _)
  obtain ⟨b1, b2, -, -⟩ := calculateBounds_spec p rest p (List.mem_cons_self _ _)
  refine ⟨hgrid.1, hgrid.2, ?_, ?_⟩
  · rw [maxBinX, originX_of_unset f _ hx]
    exact toInt_of_nonneg (fdiv_nonneg (fsub_nonneg (le_trans b1 b3)) hL) hRx
  · rw [maxBinY, originY_of_unset f _ hy]
    exact toInt_of_nonneg (fdiv_nonneg (fsub_nonneg (le_trans b2 b4)) hL) hRy

/-- Witness of the amended C7: the collection keyed (1, 0) of a run with
buffer 1. -/
theorem run_cells_within_grid_witness :
    (0 ≤ ((1, 0) : Coord).1 ∧
      ((1, 0) : Coord).1 ≤
        maxBinX ⟨10, 1, none, none⟩ (calculateBounds (0, 0) [(5, 5), (15, 5)])) ∧
    (0 ≤ ((1, 0) : Coord).2 ∧
      ((1, 0) : Coord).2 ≤
        maxBinY ⟨10, 1, none, none⟩ (calculateBounds (0, 0) [(5, 5), (15, 5)])) :=
  ⟨(run_cells_within_grid ⟨10, 1, none, none⟩ (0, 0) [(5, 5), (15, 5)] (by norm_num) rfl rfl
      (by decide!) (by decide!) (1, 0) [0, 1, 2] (by decide!)).1,
   (run_cells_within_grid ⟨10, 1, none, none⟩ (0, 0) [(5, 5), (15, 5)] (by norm_num) rfl rfl
      (by decide!) (by decide!) (1, 0) [0, 1, 2] (by decide!)).2.1⟩

/-- C9: on a view of size 0 `run` returns the empty set of collections at
once, whatever the configuration: the bounds are not computed and the filter,
its stored origin included, is left as it was. -/
theorem run_empty_view (f : Filter) : run f [] = (f, []) := by
  rfl

/-- C10: cell length 10, buffer 0, origin unset, points (1,1), (11,1), (1,11),
(19,19): `run` returns four collections, keyed (0,0), (0,1), (1,0), (1,1) in
map order, holding the points 0, 2, 1 and 3, one each. -/
theorem run_four_points :
    (run ⟨10, 0, none, none⟩ [(1, 1), (11, 1), (1, 11), (19, 19)]).2 =
        [((0, 0), [0]), ((0, 1), [2]), ((1, 0), [1]), ((1, 1), [3])] ∧
    (run ⟨10, 0, none, none⟩ [(1, 1), (11, 1), (1, 11), (19, 19)]).2.length = 4 := by
  decide!

theorem adjRange_eq (L buffer loc : ℚ) (bin : Int)
    (h1 : -2147483648 ≤ Int.floor (fdiv buffer L))
    (h2 : Int.floor (fdiv buffer L) ≤ 2147483647) :
    adjRange L buffer loc bin =
      (-(Int.floor (fdiv buffer L) +
          (if fsub loc (fmul (bin : ℚ) L) < fmod buffer L then 1 else 0)),
        Int.floor (fdiv buffer L) +
          (if fmod buffer L ≤ fsub (fmul ((bin + 1 : Int) : ℚ) L) loc then 1 else 0)) := by
  unfold adjRange
  simp only [toInt_intCast _ h1 h2, ge_iff_le]
  split_ifs <;> simp <;> omega

/-- C2, at a failing input: configured origin_x = 5, cell length 10, points
(0,0) and (22,0). The resolved origin stays 5, above the minimum X = 0 of the
bounds, and the first point gets the negative local offset -5. -/
theorem run_origin_above_minimum_kept :
    (run ⟨10, 0, some 5, none⟩ [(0, 0), (22, 0)]).1.m_xOrigin = some 5 ∧
    (calculateBounds (0, 0) [(22, 0)]).minx = 0 ∧
    ¬ (originX ⟨10, 0, some 5, none⟩ (calculateBounds (0, 0) [(22, 0)]) ≤
        (calculateBounds (0, 0) [(22, 0)]).minx) ∧
    (0 : ℚ) - originX ⟨10, 0, some 5, none⟩ (calculateBounds (0, 0) [(22, 0)]) < 0 := by
  decide!

/-- C4 as stated fails: cell length 10, buffer 15, origin unset, points (0,0)
and (22,0). The point 1 has primary cell (2,0) and is a member of the
collection keyed (0,0), a cell that is neither its primary cell nor adjacent
to it. -/
theorem run_buffer_reaches_nonadjacent :
    ¬ (∀ (i : Nat) (q : ℚ × ℚ), [((0 : ℚ), (0 : ℚ)), (22, 0)][i]? = some q →
        ∀ (c : Coord) (v : OutView),
          (c, v) ∈ (run ⟨10, 15, none, none⟩ [(0, 0), (22, 0)]).2 → i ∈ v →
          (c.1 - (primaryCell 10 (calculateBounds (0, 0) [(22, 0)]).minx
                    (calculateBounds (0, 0) [(22, 0)]).miny q).1).natAbs ≤ 1 ∧
          (c.2 - (primaryCell 10 (calculateBounds (0, 0) [(22, 0)]).minx
                    (calculateBounds (0, 0) [(22, 0)]).miny q).2).natAbs ≤ 1) := by
  intro h
  have h1 := h 1 (22, 0) (by simp) (0, 0) [0, 1] (by decide!) (by decide)
  revert h1
  decide!

/-- C4, amended: with the origin unset, a positive cell length and a positive
buffer, when the grid and the neighbour span fit the 32-bit `int` (on each
axis the quotient (bounds maximum - bounds minimum) / length is below 2^31
and max_bin + q + 1 is at most 2^31 - 1), `run` puts every input point in the
collection of its primary cell and in the collection of every in-grid cell
whose bin offset from the primary cell lies, on each axis, between -(q + a)
and q, where q = floor (buffer / length) and a = 1 exactly when the distance
of the point to the near edge of its primary cell on that axis is smaller than
fmod (buffer, length), the quotient and the distance being those computed in
doubles; and the point is in no collection of a cell further than q + 1 bins
from the primary cell on either axis. -/
theorem run_buffered_membership (f : Filter) (p : ℚ × ℚ) (rest : List (ℚ × ℚ))
    (hL : 0 < f.m_length) (hb : 0 < f.m_buffer)
    (hx : f.m_xOrigin = none) (hy : f.m_yOrigin = none)
    (hRx : fdiv (fsub (calculateBounds p rest).maxx (calculateBounds p rest).minx) f.m_length
      < 2147483648)
    (hRy : fdiv (fsub (calculateBounds p rest).maxy (calculateBounds p rest).miny) f.m_length
      < 2147483648)
    (hS : max (maxBinX f (calculateBounds p rest)) (maxBinY f (calculateBounds p rest)) +
      Int.floor (fdiv f.m_buffer f.m_length) + 1 ≤ 2147483647)
    (i : Nat) (q : ℚ × ℚ) (hq : (p :: rest)[i]? = some q) :
    (∃ v, (primaryCell f.m_length (calculateBounds p rest).minx
          (calculateBounds p rest).miny q, v) ∈ (run f (p :: rest)).2 ∧ i ∈ v) ∧
    (∀ c : Coord,
      (0 ≤ c.1 ∧ c.1 ≤ maxBinX f (calculateBounds p rest)) →
      (0 ≤ c.2 ∧ c.2 ≤ maxBinY f (calculateBounds p rest)) →
      -(Int.floor (fdiv f.m_buffer f.m_length) +
          (if fsub (fsub q.1 (calculateBounds p rest).minx)
              (fmul ((primaryCell f.m_length (calculateBounds p rest).minx
                (calculateBounds p rest).miny q).1 : ℚ) f.m_length)
              < fmod f.m_buffer f.m_length then 1 else 0))
        ≤ c.1 - (primaryCell f.m_length (calculateBounds p rest).minx
                (calculateBounds p rest).miny q).1 →
      c.1 - (primaryCell f.m_length (calculateBounds p rest).minx
                (calculateBounds p rest).miny q).1
        ≤ Int.floor (fdiv f.m_buffer f.m_length) →
      -(Int.floor (fdiv f.m_buffer f.m_length) +
          (if fsub (fsub q.2 (calculateBounds p rest).miny)
              (fmul ((primaryCell f.m_length (calculateBounds p rest).minx
                (calculateBounds p rest).miny q).2 : ℚ) f.m_length)
              < fmod f.m_buffer f.m_length then 1 else 0))
        ≤ c.2 - (primaryCell f.m_length (calculateBounds p rest).minx
                (calculateBounds p rest).miny q).2 →
      c.2 - (primaryCell f.m_length (calculateBounds p rest).minx
                (calculateBounds p rest).miny q).2
        ≤ Int.floor (fdiv f.m_buffer f.m_length) →
      ∃ v, (c, v) ∈ (run f (p :: rest)).2 ∧ i ∈ v) ∧
    (∀ (c : Coord) (v : OutView), (c, v) ∈ (run f (p :: rest)).2 → i ∈ v →
      (-(Int.floor (fdiv f.m_buffer f.m_length) + 1)
          ≤ c.1 - (primaryCell f.m_length (calculateBounds p rest).minx
                (calculateBounds p rest).miny q).1 ∧
        c.1 - (primaryCell f.m_length (calculateBounds p rest).minx
                (calculateBounds p rest).miny q).1
          ≤ Int.floor (fdiv f.m_buffer f.m_length) + 1) ∧
      (-(Int.floor (fdiv f.m_buffer f.m_length) + 1)
          ≤ c.2 - (primaryCell f.m_length (calculateBounds p rest).minx
                (calculateBounds p rest).miny q).2 ∧
        c.2 - (primaryCell f.m_length (calculateBounds p rest).minx
                (calculateBounds p rest).miny q).2
          ≤ Int.floor (fdiv f.m_buffer f.m_length) + 1)) := by
  have hox := originX_of_unset f (calculateBounds p rest) hx
  have hoy := originY_of_unset f (calculateBounds p rest) hy
  have hQ : 0 ≤ Int.floor (fdiv f.m_buffer f.m_length) :=
    Int.floor_nonneg.2 (fdiv_nonneg hb.le hL)
  have hprim := primaryCell_in_grid f p rest hL hx hy hRx hRy q (List.getElem?_mem hq)
  rw [hox, hoy] at hprim
  have hQ1 : -2147483648 ≤ Int.floor (fdiv f.m_buffer f.m_length) := by omega
  have hQ2 : Int.floor (fdiv f.m_buffer f.m_length) ≤ 2147483647 := by
    have h1 := hprim.1
    have h2 := le_max_left (maxBinX f (calculateBounds p rest))
      (maxBinY f (calculateBounds p rest))
    omega
  have hholds : ∀ c : Coord, (∃ v, (c, v) ∈ (run f (p :: rest)).2 ∧ i ∈ v) ↔
      c ∈ cellsOf f.m_length f.m_buffer (calculateBounds p rest).minx
        (calculateBounds p rest).miny (maxBinX f (calculateBounds p rest))
        (maxBinY f (calculateBounds p rest)) q := by
    intro c
    have h := holds_pointLoop f.m_length f.m_buffer (originX f (calculateBounds p rest))
      (originY f (calculateBounds p rest)) (maxBinX f (calculateBounds p rest))
      (maxBinY f (calculateBounds p rest)) (p :: rest) 0 [] c i
    rw [hox, hoy] at h
    simp only [run, hox, hoy]
    constructor
    · intro hc
      rcases h.1 hc with ⟨n, q', hn, hi, hk⟩ | ⟨v, hv, -⟩
      · have hni : n = i := by omega
        subst hni
        rw [hq] at hn
        cases hn
        exact hk
      · simp at hv
    · intro hc
      exact h.2 (Or.inl ⟨i, q, hq, by omega, hc⟩)
  have hcells : ∀ c : Coord,
      c ∈ cellsOf f.m_length f.m_buffer (calculateBounds p rest).minx
        (calculateBounds p rest).miny (maxBinX f (calculateBounds p rest))
        (maxBinY f (calculateBounds p rest)) q ↔
      c = primaryCell f.m_length (calculateBounds p rest).minx
            (calculateBounds p rest).miny q ∨
      c ∈ neighbourCells
        (primaryCell f.m_length (calculateBounds p rest).minx
            (calculateBounds p rest).miny q).1
        (primaryCell f.m_length (calculateBounds p rest).minx
            (calculateBounds p rest).miny q).2
        (maxBinX f (calculateBounds p rest)) (maxBinY f (calculateBounds p rest))
        (adjRange f.m_length f.m_buffer (fsub q.1 (calculateBounds p rest).minx)
          (primaryCell f.m_length (calculateBounds p rest).minx
            (calculateBounds p rest).miny q).1)
        (adjRange f.m_length f.m_buffer (fsub q.2 (calculateBounds p rest).miny)
          (primaryCell f.m_length (calculateBounds p rest).minx
            (calculateBounds p rest).miny q).2) := by
    intro c
    unfold cellsOf
    rw [if_neg (not_le.2 hb)]
    simp only [List.mem_cons, primaryCell]
  refine ⟨?_, ?_, ?_⟩
  · rw [hholds, hcells]
    exact Or.inl rfl
  · intro c hgx hgy hx1 hx2 hy1 hy2
    rw [hholds, hcells]
    by_cases hc : c = primaryCell f.m_length (calculateBounds p rest).minx
        (calculateBounds p rest).miny q
    · exact Or.inl hc
    · right
      rw [mem_neighbourCells, adjRange_eq _ _ _ _ hQ1 hQ2, adjRange_eq _ _ _ _ hQ1 hQ2]
      refine ⟨⟨hx1, ?_⟩, ⟨hy1, ?_⟩, hgx, hgy, hc⟩
      · simp only
        split_ifs <;> omega
      · simp only
        split_ifs <;> omega
  · intro c v hc hi
    have hmem := (hholds c).1 ⟨v, hc, hi⟩
    rw [hcells] at hmem
    rcases hmem with hmem | hmem
    · subst hmem
      simp only [sub_self]
      omega
    · rw [mem_neighbourCells, adjRange_eq _ _ _ _ hQ1 hQ2, adjRange_eq _ _ _ _ hQ1 hQ2]
        at hmem
      obtain ⟨⟨h1, h2⟩, ⟨h3, h4⟩, -⟩ := hmem
      simp only at h1 h2 h3 h4
      constructor
      · split_ifs at h1 h2 <;> omega
      · split_ifs at h3 h4 <;> omega

/-- Witness of the amended C4: the point (22, 0), two cells away from (0, 0),
with cell length 10 and buffer 15. -/
theorem run_buffered_membership_witness :
    ∃ v, (primaryCell 10 (calculateBounds (0, 0) [(22, 0)]).minx
          (calculateBounds (0, 0) [(22, 0)]).miny (22, 0), v)
        ∈ (run ⟨10, 15, none, none⟩ [(0, 0), (22, 0)]).2 ∧ 1 ∈ v :=
  (run_buffered_membership ⟨10, 15, none, none⟩ (0, 0) [(22, 0)] (by norm_num) (by norm_num)
    rfl rfl (by decide!) (by decide!) (by decide!) 1 (22, 0) rfl).1

/-- C5, at a failing input: cell length 10, buffer 1, origin unset, points
(0,0), (5,5), (15,5). The origin resolves to (0,0); the collection keyed (1,0)
holds the points 0 and 1, whose X coordinates 0 and 5 lie below the lower edge
0 + 1 * 10 - 1 = 9 of that cell padded by the buffer. -/
theorem run_far_neighbour_outside_padding :
    (run ⟨10, 1, none, none⟩ [(0, 0), (5, 5), (15, 5)]).2 =
        [((0, 0), [0, 1]), ((1, 0), [0, 1, 2])] ∧
    originX ⟨10, 1, none, none⟩ (calculateBounds (0, 0) [(5, 5), (15, 5)]) = 0 ∧
    ¬ (originX ⟨10, 1, none, none⟩ (calculateBounds (0, 0) [(5, 5), (15, 5)])
        + ((1 : Int) : ℚ) * 10 - 1 ≤ (5 : ℚ)) := by
  decide!

/-- C6, at a failing input: cell length 10, buffer 1 (so q = 0, r = 1) and a
point in bin 0. At local coordinate 5 the distance to the far edge is 5, not
smaller than r, and the upper offset is 1; at local coordinate 19/2 the
distance to the far edge is 1/2, smaller than r, and the upper offset is 0. -/
theorem adjRange_far_edge_reversed :
    adjRange 10 1 5 0 = (0, 1) ∧ adjRange 10 1 (19 / 2) 0 = (0, 0) ∧
    fmod 1 10 = 1 ∧ Int.floor ((1 : ℚ) / 10) = 0 := by
  decide!

/-- C8, at a failing input: minimum 0, cell length 10, configured origin -5.
The adjustment gives -15, and applied to -15 it gives -35. -/
theorem resolveOrigin_not_idempotent :
    resolveOrigin (some (-5)) 0 10 = -15 ∧
    resolveOrigin (some (resolveOrigin (some (-5)) 0 10)) 0 10 = -35 := by
  decide!

end SplitterFilter

namespace PipelineReaderJSON

/-! ## The JSON pipeline reader -/

theorem bind_eq_ok {α β : Type} (a : Except Failure α) (b : α → Except Failure β) (r : β) :
    (a >>= b) = .ok r ↔ ∃ x, a = .ok x ∧ b x = .ok r := by
  cases a with
  | error e => simp [bind, Except.bind]
  | ok x => simp [bind, Except.bind]

theorem modifyStage_append_last (m : PipelineManager) (s : Stage) (g : Stage → Stage) :
    modifyStage (m ++ [s]) m.length g = m ++ [g s] := by
  induction m with
  | nil => rfl
  | cons a m ih => simp [modifyStage, ih]

theorem addReader_ok {f : StageFactory} {m m' : PipelineManager} {type : String} {s : Nat}
    (h : addReader f m type = .ok (m', s)) :
    f.createStage type = true ∧ s = m.length ∧
      m' = m ++ [{ kind := .reader, type := type, options := [], inputs := [] }] := by
  unfold addReader at h
  split_ifs at h with hc
  simp only [Except.ok.injEq, Prod.mk.injEq] at h
  exact ⟨hc, h.2.symm, h.1.symm⟩

theorem addWriter_ok {f : StageFactory} {m m' : PipelineManager} {type : String} {s : Nat}
    (h : addWriter f m type = .ok (m', s)) :
    f.createStage type = true ∧ s = m.length ∧
      m' = m ++ [{ kind := .writer, type := type, options := [], inputs := [] }] := by
  unfold addWriter at h
  split_ifs at h with hc
  simp only [Except.ok.injEq, Prod.mk.injEq] at h
  exact ⟨hc, h.2.symm, h.1.symm⟩

theorem parseReaderByFilename_ok {f : StageFactory} {base : Options}
    {m m' : PipelineManager} {filename : String} {s : Nat}
    (h : parseReaderByFilename f base m filename = .ok (m', s)) :
    f.inferReaderDriver filename ≠ "" ∧ f.createStage (f.inferReaderDriver filename) = true ∧
      s = m.length ∧
      m' = m ++ [{ kind := .reader, type := f.inferReaderDriver filename,
                   options := base ++ [{ name := "filename", value := filename }],
                   inputs := [] }] := by
  unfold parseReaderByFilename at h
  simp only [bind_eq_ok] at h
  obtain ⟨_, hval, ⟨m1, s1⟩, hadd, hpure⟩ := h
  obtain ⟨hc, hs, hm⟩ := addReader_ok hadd
  simp only [pure, Except.pure, Except.ok.injEq, Prod.mk.injEq] at hpure
  obtain ⟨hm', hs'⟩ := hpure
  subst hs' hm' hs hm
  have hne : f.inferReaderDriver filename ≠ "" := by
    intro he
    simp [he, StageParserContext.validate, StageParserContext.new,
      StageParserContext.setCardinality] at hval
  refine ⟨hne, hc, rfl, ?_⟩
  simp [setOptions, modifyStage_append_last]

theorem parseWriterByFilename_ok {f : StageFactory} {base : Options}
    {m m' : PipelineManager} {filename : String} {s : Nat}
    (h : parseWriterByFilename f base m filename = .ok (m', s)) :
    f.inferWriterDriver filename ≠ "" ∧ f.createStage (f.inferWriterDriver filename) = true ∧
      s = m.length ∧
      m' = m ++ [{ kind := .writer, type := f.inferWriterDriver filename,
                   options := base ++ f.inferWriterOptionsChanges filename,
                   inputs := [] }] := by
  unfold parseWriterByFilename at h
  simp only at h
  split_ifs at h with hne
  simp only [bind_eq_ok] at h
  obtain ⟨_, -, ⟨m1, s1⟩, hadd, hpure⟩ := h
  obtain ⟨hc, hs, hm⟩ := addWriter_ok hadd
  simp only [pure, Except.pure, Except.ok.injEq, Prod.mk.injEq] at hpure
  obtain ⟨hm', hs'⟩ := hpure
  subst hs' hm' hs hm
  refine ⟨hne, hc, rfl, ?_⟩
  simp [setOptions, modifyStage_append_last]

theorem parseReaderByFilename_of_resolvable (f : StageFactory) (base : Options)
    (m : PipelineManager) (filename : String)
    (h1 : f.inferReaderDriver filename ≠ "")
    (h2 : f.createStage (f.inferReaderDriver filename) = true) :
    parseReaderByFilename f base m filename =
      .ok (m ++ [{ kind := .reader, type := f.inferReaderDriver filename,
                   options := base ++ [{ name := "filename", value := filename }],
                   inputs := [] }], m.length) := by
  unfold parseReaderByFilename
  simp only [h1, ne_eq, not_false_eq_true, if_true]
  have hv : (StageParserContext.new.addType.setCardinality Cardinality.None).validate = .ok () := by
    rfl
  rw [hv]
  simp [bind, Except.bind, addReader, h2, pure, Except.pure, setOptions, modifyStage_append_last]

theorem parseWriterByFilename_of_resolvable (f : StageFactory) (base : Options)
    (m : PipelineManager) (filename : String)
    (h1 : f.inferWriterDriver filename ≠ "")
    (h2 : f.createStage (f.inferWriterDriver filename) = true) :
    parseWriterByFilename f base m filename =
      .ok (m ++ [{ kind := .writer, type := f.inferWriterDriver filename,
                   options := base ++ f.inferWriterOptionsChanges filename,
                   inputs := [] }], m.length) := by
  unfold parseWriterByFilename
  simp only [h1, if_false]
  have hv : (StageParserContext.new.addType.setCardinality Cardinality.None).validate = .ok () := by
    rfl
  rw [hv]
  simp [bind, Except.bind, addWriter, h2, pure, Except.pure, setOptions, modifyStage_append_last]

end PipelineReaderJSON

namespace PipelineReaderJSON

theorem constructedStage_kind (f : StageFactory) (base : Options) (n i : Nat)
    (type filename : String) :
    (constructedStage f base n i type filename).kind =
      if i < n - 1 then .reader else .writer := by
  unfold constructedStage
  split_ifs <;> rfl

theorem constructedStage_inputs (f : StageFactory) (base : Options) (n i : Nat)
    (type filename : String) :
    (constructedStage f base n i type filename).inputs = [] := by
  unfold constructedStage
  split_ifs <;> rfl

theorem parseStringNode_ok {f : StageFactory} {base : Options} {n : Nat} {st : LoopState}
    {filename : String} {m' : PipelineManager} {stage : Option Nat} {w : Bool}
    (h : parseStringNode f base n st filename = .ok (m', stage, w)) :
    DriverResolvable f n st.i filename ∧ stage = some st.manager.length ∧
      m' = st.manager ++ [constructedStage f base n st.i "" filename] ∧
      w = (if st.i < n - 1 then st.isWriter else true) := by
  unfold parseStringNode at h
  unfold DriverResolvable constructedStage
  by_cases hi : st.i < n - 1
  · simp only [hi, if_true, bind_eq_ok, ne_eq, not_true_eq_false, if_false] at h ⊢
    obtain ⟨⟨m1, s1⟩, hp, hpure⟩ := h
    obtain ⟨h1, h2, hs, hm⟩ := parseReaderByFilename_ok hp
    simp only [pure, Except.pure, Except.ok.injEq, Prod.mk.injEq] at hpure
    obtain ⟨rfl, rfl, rfl⟩ := hpure
    exact ⟨⟨h1, h2⟩, by rw [hs], hm, rfl⟩
  · simp only [hi, if_false, bind_eq_ok, ne_eq, not_true_eq_false] at h ⊢
    obtain ⟨⟨m1, s1⟩, hp, hpure⟩ := h
    obtain ⟨h1, h2, hs, hm⟩ := parseWriterByFilename_ok hp
    simp only [pure, Except.pure, Except.ok.injEq, Prod.mk.injEq] at hpure
    obtain ⟨rfl, rfl, rfl⟩ := hpure
    exact ⟨⟨h1, h2⟩, by rw [hs], hm, rfl⟩

theorem constructStage_ok {f : StageFactory} {base : Options} {n : Nat} {st : LoopState}
    {type filename : String} {m' : PipelineManager} {s : Nat} {w : Bool}
    (h : constructStage f base n st type filename = .ok (m', some s, w)) :
    s = st.manager.length ∧
      m' = st.manager ++ [constructedStage f base n st.i type filename] ∧
      w = (if st.i < n - 1 then st.isWriter else true) ∧
      ((type ≠ "" ∧ f.createStage type = true) ∨
        (type = "" ∧ filename ≠ "" ∧ DriverResolvable f n st.i filename)) := by
  unfold constructStage at h
  unfold DriverResolvable constructedStage
  by_cases ht : type = ""
  · by_cases hf : filename = ""
    · simp [ht, hf] at h
    · by_cases hi : st.i < n - 1
      · simp only [ht, hf, hi, ne_eq, not_true_eq_false, not_false_eq_true, if_true, if_false,
          bind_eq_ok] at h ⊢
        obtain ⟨⟨m1, s1⟩, hp, hpure⟩ := h
        obtain ⟨h1, h2, hs, hm⟩ := parseReaderByFilename_ok hp
        simp only [pure, Except.pure, Except.ok.injEq, Prod.mk.injEq, Option.some.injEq] at hpure
        obtain ⟨rfl, rfl, rfl⟩ := hpure
        exact ⟨hs, hm, rfl, Or.inr ⟨trivial, trivial, h1, h2⟩⟩
      · simp only [ht, hf, hi, ne_eq, not_true_eq_false, not_false_eq_true, if_true, if_false,
          bind_eq_ok] at h ⊢
        obtain ⟨⟨m1, s1⟩, hp, hpure⟩ := h
        obtain ⟨h1, h2, hs, hm⟩ := parseWriterByFilename_ok hp
        simp only [pure, Except.pure, Except.ok.injEq, Prod.mk.injEq, Option.some.injEq] at hpure
        obtain ⟨rfl, rfl, rfl⟩ := hpure
        exact ⟨hs, hm, rfl, Or.inr ⟨trivial, trivial, h1, h2⟩⟩
  · by_cases hi : st.i < n - 1
    · simp only [ht, hi, ne_eq, not_false_eq_true, if_true, bind_eq_ok] at h ⊢
      obtain ⟨⟨m1, s1⟩, hp, hpure⟩ := h
      obtain ⟨hc, hs, hm⟩ := addReader_ok hp
      simp only [pure, Except.pure, Except.ok.injEq, Prod.mk.injEq, Option.some.injEq] at hpure
      obtain ⟨rfl, rfl, rfl⟩ := hpure
      exact ⟨hs, hm, rfl, Or.inl ⟨trivial, hc⟩⟩
    · simp only [ht, hi, ne_eq, not_false_eq_true, if_true, if_false, bind_eq_ok] at h ⊢
      obtain ⟨⟨m1, s1⟩, hp, hpure⟩ := h
      obtain ⟨hc, hs, hm⟩ := addWriter_ok hp
      simp only [pure, Except.pure, Except.ok.injEq, Prod.mk.injEq, Option.some.injEq] at hpure
      obtain ⟨rfl, rfl, rfl⟩ := hpure
      exact ⟨hs, hm, rfl, Or.inl ⟨trivial, hc⟩⟩

theorem linkStage_eq (m0 : PipelineManager) (st : LoopState) (stage : Stage)
    (tags : List (String × Option Nat)) (w : Bool) (hinv : LoopInv m0 st) :
    linkStage st (st.manager ++ [stage]) tags (some st.manager.length) w =
      .ok { manager := st.manager ++
              [{ stage with inputs := stage.inputs ++
                  (if st.i = 0 then [] else [m0.length + (st.i - 1)]) }],
            tags := tags, stages := st.stages ++ [some st.manager.length],
            isWriter := w, i := st.i + 1 } := by
  obtain ⟨hlen, hstages⟩ := hinv
  unfold linkStage
  by_cases hi : st.i = 0
  · simp [hi]
  · have hget : ((st.stages ++ [some st.manager.length])[st.i - 1]?).join =
        some (m0.length + (st.i - 1)) := by
      rw [hstages, List.getElem?_append_left (by simp; omega)]
      rw [List.getElem?_map, List.getElem?_range (by omega)]
      rfl
    simp only [ne_eq, hi, not_false_eq_true, if_true, hget, if_false]
    simp [setInput, modifyStage_append_last]

theorem loopInv_linked (m0 : PipelineManager) (st : LoopState) (stage : Stage)
    (tags : List (String × Option Nat)) (w : Bool) (hinv : LoopInv m0 st) :
    LoopInv m0 { manager := st.manager ++ [stage], tags := tags,
                 stages := st.stages ++ [some st.manager.length], isWriter := w,
                 i := st.i + 1 } := by
  obtain ⟨hlen, hstages⟩ := hinv
  refine ⟨by simp [hlen]; omega, ?_⟩
  simp only [List.range_succ, List.map_append, List.map_cons, List.map_nil, hstages, hlen]

end PipelineReaderJSON

namespace PipelineReaderJSON

theorem asString_ok {v : Json} {s : String} (h : v.asString = .ok s) : s = v.text := by
  cases v <;> simp [Json.asString, Json.text] at h ⊢ <;> exact h.symm

theorem lookup_of_mem_nodup {members : List (String × Json)}
    (hn : (members.map Prod.fst).Nodup) {kv : String × Json} (h : kv ∈ members) :
    members.lookup kv.1 = some kv.2 := by
  induction members with
  | nil => simp at h
  | cons a rest ih =>
    obtain ⟨k, x⟩ := a
    simp only [List.map_cons, List.nodup_cons] at hn
    rcases List.mem_cons.1 h with rfl | h
    · simp [List.lookup]
    · have hne : kv.1 ≠ k := by
        intro he
        apply hn.1
        rw [← he]
        exact List.mem_map.2 ⟨kv, h, rfl⟩
      have hb : (kv.1 == k) = false := by simpa using hne
      simp only [List.lookup, hb]
      exact ih hn.2 h

theorem memberString_obj_ok {members : List (String × Json)} {key s : String}
    (h : memberString (.obj members) key = .ok s) : s = memberText members key := by
  unfold memberString at h
  simp only [Json.isMember, Json.get, bind, Except.bind, pure, Except.pure] at h
  unfold memberText
  cases hl : members.lookup key with
  | none => simp [hl] at h; simp [Json.text, h]
  | some v =>
    simp only [hl, Option.isSome_some, if_true, Option.getD_some] at h ⊢
    exact asString_ok h

/-- The fold of lines 459-473 over the member names `names` of an object. -/
theorem collectOptions_fold_ok (members : List (String × Json)) (names : List String)
    (acc r : Options)
    (h : names.foldlM
      (fun (options : Options) kate =>
        if kate = "filename" then (pure options : Except Failure Options)
        else if kate = "type" then pure options
        else if kate = "inputs" then pure options
        else if kate = "tag" then pure options
        else do
          let value ← (← (Json.obj members).get kate).asString
          pure (options ++ [{ name := kate, value := value }]))
      acc = .ok r) :
    r = acc ++ (names.filter (fun k => !reservedName k)).map
      (fun k => { name := k, value := memberText members k }) := by
  induction names generalizing acc with
  | nil =>
    simp only [List.foldlM, pure, Except.pure, Except.ok.injEq] at h
    simp [h]
  | cons k names ih =>
    simp only [List.foldlM, bind_eq_ok] at h
    obtain ⟨acc', hstep, hrest⟩ := h
    have hr := ih acc' hrest
    by_cases hres : reservedName k = true
    · have hacc : acc' = acc := by
        simp only [reservedName, decide_eq_true_eq] at hres
        rcases hres with e | e | e | e <;> subst e <;>
          simp [pure, Except.pure] at hstep <;> exact hstep.symm
      subst hacc
      simp [hr, List.filter, hres]
    · have hres' : reservedName k = false := by simpa using hres
      simp only [reservedName, decide_eq_false_iff_not, not_or] at hres'
      obtain ⟨e1, e2, e3, e4⟩ := hres'
      simp only [e1, e2, e3, e4, if_false, bind_eq_ok, Json.get, Except.ok.injEq,
        exists_eq_left', pure, Except.pure] at hstep
      obtain ⟨value, hv, hacc⟩ := hstep
      have hvt := asString_ok hv
      subst hacc
      have hres'' : reservedName k = false := by simpa using hres
      simp [hr, List.filter, hres'', hvt, memberText]

theorem names_options_eq_memberOptions (members : List (String × Json))
    (hn : (members.map Prod.fst).Nodup) :
    ((members.map Prod.fst).filter (fun k => !reservedName k)).map
      (fun k => ({ name := k, value := memberText members k } : StageOption)) =
    memberOptions members := by
  unfold memberOptions
  have key : ∀ l : List (String × Json), (∀ kv ∈ l, members.lookup kv.1 = some kv.2) →
      ((l.map Prod.fst).filter (fun k => !reservedName k)).map
        (fun k => ({ name := k, value := memberText members k } : StageOption)) =
      (l.filter (fun kv => !reservedName kv.1)).map
        (fun kv => ({ name := kv.1, value := kv.2.text } : StageOption)) := by
    intro l
    induction l with
    | nil => intro _; rfl
    | cons a l ih =>
      intro hl
      have ha := hl a (List.mem_cons_self _ _)
      have hl' : ∀ kv ∈ l, members.lookup kv.1 = some kv.2 :=
        fun kv hkv => hl kv (List.mem_cons_of_mem _ hkv)
      simp only [List.map_cons, List.filter]
      cases hr : reservedName a.1 with
      | true => simpa using ih hl'
      | false =>
        have ih' := ih hl'
        simp only [Bool.not_false, List.map_cons, memberText, ha, Option.getD_some] at ih' ⊢
        rw [ih']
  exact key members (fun kv hkv => lookup_of_mem_nodup hn hkv)

theorem collectOptions_obj_ok {base : Options} {members : List (String × Json)}
    {opts : Options} (h : collectOptions base (.obj members) = .ok opts) :
    opts = base ++ ((members.map Prod.fst).filter (fun k => !reservedName k)).map
      (fun k => { name := k, value := memberText members k }) := by
  unfold collectOptions at h
  simp only [Json.getMemberNames, bind, Except.bind] at h
  exact collectOptions_fold_ok members _ base opts h

end PipelineReaderJSON

namespace PipelineReaderJSON

theorem parseObjectNode_ok {f : StageFactory} {base : Options} {n : Nat} {st : LoopState}
    {node : Json} {m' : PipelineManager} {tags' : List (String × Option Nat)}
    {stage : Option Nat} {w : Bool}
    (h : parseObjectNode f base n st node = .ok (m', tags', stage, w)) :
    ∃ type filename tag opts,
      memberString node "type" = .ok type ∧ memberString node "filename" = .ok filename ∧
      memberString node "tag" = .ok tag ∧
      registerTag st.tags tag (some st.manager.length) = .ok tags' ∧
      collectOptions base node = .ok opts ∧
      stage = some st.manager.length ∧
      m' = st.manager ++
        [{ constructedStage f base n st.i type filename with
            options := (constructedStage f base n st.i type filename).options ++ opts }] ∧
      w = (if st.i < n - 1 then st.isWriter else true) ∧
      ((type ≠ "" ∧ f.createStage type = true) ∨
        (type = "" ∧ filename ≠ "" ∧ DriverResolvable f n st.i filename)) := by
  unfold parseObjectNode at h
  simp only [bind_eq_ok] at h
  obtain ⟨type, htype, filename, hfile, tag, htag, _, -, _, -, ⟨m1, stage1, w1⟩, hcons,
    tags1, hreg, opts, hopts, hfin⟩ := h
  cases stage1 with
  | none => simp at hfin
  | some s =>
    simp only [pure, Except.pure, Except.ok.injEq, Prod.mk.injEq] at hfin
    obtain ⟨rfl, rfl, rfl, rfl⟩ := hfin
    obtain ⟨hs, hm, hw, hres⟩ := constructStage_ok hcons
    subst hs hm
    refine ⟨type, filename, tag, opts, htype, hfile, htag, hreg, hopts, rfl, ?_, hw, hres⟩
    simp [addOptions, modifyStage_append_last]

theorem parseNode_nonstring (f : StageFactory) (base : Options) (n : Nat) (st : LoopState)
    (node : Json) (h : node.isString = false) :
    parseNode f base n st node =
      (parseObjectNode f base n st node >>= fun r =>
        linkStage st r.1 r.2.1 r.2.2.1 r.2.2.2) := by
  cases node <;> first | rfl | simp [Json.isString] at h

/-- The state after an iteration that constructs `stage0` and adds the
options `opts` to it. -/
theorem parseNode_ok {f : StageFactory} {base : Options} {n : Nat} {st st' : LoopState}
    {node : Json} (m0 : PipelineManager) (hinv : LoopInv m0 st)
    (h : parseNode f base n st node = .ok st') :
    ∃ type filename opts tags',
      st' = { manager := st.manager ++
                [{ kind := if st.i < n - 1 then .reader else .writer,
                   type := (constructedStage f base n st.i type filename).type,
                   options := (constructedStage f base n st.i type filename).options ++ opts,
                   inputs := if st.i = 0 then [] else [m0.length + (st.i - 1)] }],
              tags := tags', stages := st.stages ++ [some st.manager.length],
              isWriter := if st.i < n - 1 then st.isWriter else true, i := st.i + 1 } ∧
      ((node = .str filename ∧ type = "" ∧ opts = [] ∧ tags' = st.tags ∧
          DriverResolvable f n st.i filename) ∨
        (node.isString = false ∧ memberString node "type" = .ok type ∧
          memberString node "filename" = .ok filename ∧ collectOptions base node = .ok opts ∧
          (∃ tag, memberString node "tag" = .ok tag ∧
            registerTag st.tags tag (some st.manager.length) = .ok tags') ∧
          ((type ≠ "" ∧ f.createStage type = true) ∨
            (type = "" ∧ filename ≠ "" ∧ DriverResolvable f n st.i filename)))) := by
  by_cases hs : node.isString = true
  · cases node <;> simp [Json.isString] at hs
    rename_i filename
    simp only [parseNode, bind_eq_ok] at h
    obtain ⟨⟨m1, stage, w⟩, hp, hlink⟩ := h
    obtain ⟨hres, hstage, hm, hw⟩ := parseStringNode_ok hp
    subst hstage hm hw
    simp only at hlink
    rw [linkStage_eq m0 st _ _ _ hinv] at hlink
    simp only [Except.ok.injEq] at hlink
    refine ⟨"", filename, [], st.tags, ?_, Or.inl ⟨rfl, rfl, rfl, rfl, hres⟩⟩
    rw [← hlink]
    simp [constructedStage_kind, constructedStage_inputs]
  · have hs' : node.isString = false := by simpa using hs
    rw [parseNode_nonstring f base n st node hs', bind_eq_ok] at h
    obtain ⟨⟨m1, tags1, stage, w⟩, hp, hlink⟩ := h
    obtain ⟨type, filename, tag, opts, htype, hfile, htag, hreg, hopts, hstage, hm, hw, hres⟩ :=
      parseObjectNode_ok hp
    subst hstage hm hw
    simp only at hlink
    rw [linkStage_eq m0 st _ _ _ hinv] at hlink
    simp only [Except.ok.injEq] at hlink
    refine ⟨type, filename, opts, tags1, ?_,
      Or.inr ⟨hs', htype, hfile, hopts, ⟨tag, htag, hreg⟩, hres⟩⟩
    rw [← hlink]
    simp [constructedStage_kind, constructedStage_inputs]

end PipelineReaderJSON

namespace PipelineReaderJSON

theorem loopInv_initial (m0 : PipelineManager) : LoopInv m0 (initialState m0) := by
  simp [LoopInv, initialState]

theorem parseNode_inv {f : StageFactory} {base : Options} {n : Nat} {st st' : LoopState}
    {node : Json} (m0 : PipelineManager) (hinv : LoopInv m0 st)
    (h : parseNode f base n st node = .ok st') :
    LoopInv m0 st' ∧ st'.i = st.i + 1 ∧ ∃ stage, st'.manager = st.manager ++ [stage] := by
  obtain ⟨type, filename, opts, tags', hst, -⟩ := parseNode_ok m0 hinv h
  subst hst
  exact ⟨loopInv_linked m0 st _ _ _ hinv, rfl, _, rfl⟩

theorem parseLoop_ok {f : StageFactory} {base : Options} {n : Nat} (m0 : PipelineManager)
    (items : List Json) :
    ∀ (st st' : LoopState), LoopInv m0 st → parseLoop f base n st items = .ok st' →
      LoopInv m0 st' ∧ st'.i = st.i + items.length ∧
      (∃ news, st'.manager = st.manager ++ news ∧ news.length = items.length) ∧
      ∀ k node, items[k]? = some node →
        ∃ stk stk', LoopInv m0 stk ∧ stk.i = st.i + k ∧
          parseLoop f base n st (items.take k) = .ok stk ∧
          parseNode f base n stk node = .ok stk' ∧
          parseLoop f base n stk' (items.drop (k + 1)) = .ok st' ∧
          ∃ suffix, st'.manager = stk'.manager ++ suffix := by
  induction items with
  | nil =>
    intro st st' hinv h
    simp only [parseLoop, Except.ok.injEq] at h
    subst h
    exact ⟨hinv, rfl, ⟨[], by simp, rfl⟩, by simp⟩
  | cons node0 rest ih =>
    intro st st' hinv h
    simp only [parseLoop, bind_eq_ok] at h
    obtain ⟨st1, hstep, hrest⟩ := h
    obtain ⟨hinv1, hi1, stage, hm1⟩ := parseNode_inv m0 hinv hstep
    obtain ⟨hinv', hi', ⟨news, hnews, hlen⟩, hall⟩ := ih st1 st' hinv1 hrest
    refine ⟨hinv', by simp [hi', hi1]; omega, ⟨stage :: news, by simp [hnews, hm1], by simp [hlen]⟩,
      ?_⟩
    intro k node hk
    cases k with
    | zero =>
      simp only [List.getElem?_cons_zero, Option.some.injEq] at hk
      subst hk
      exact ⟨st, st1, hinv, rfl, by simp [parseLoop], hstep, by simpa using hrest, news, hnews⟩
    | succ k =>
      simp only [List.getElem?_cons_succ] at hk
      obtain ⟨stk, stk', hinvk, hik, htake, hnode, hdrop, hsuf⟩ := hall k node hk
      refine ⟨stk, stk', hinvk, by omega, ?_, hnode, by simpa using hdrop, hsuf⟩
      simp only [List.take_succ_cons, parseLoop, bind_eq_ok]
      exact ⟨st1, hstep, htake⟩

/-- The stage a successful loop leaves in the manager for the node at
position `k` of the document. -/
theorem parseLoop_stage {f : StageFactory} {base : Options} {n : Nat}
    (m0 : PipelineManager) (items : List Json) (st' : LoopState)
    (h : parseLoop f base n (initialState m0) items = .ok st')
    (k : Nat) (node : Json) (hk : items[k]? = some node) :
    ∃ type filename opts,
      st'.manager[m0.length + k]? =
        some { kind := if k < n - 1 then .reader else .writer,
               type := (constructedStage f base n k type filename).type,
               options := (constructedStage f base n k type filename).options ++ opts,
               inputs := if k = 0 then [] else [m0.length + (k - 1)] } ∧
      ((node = .str filename ∧ type = "" ∧ opts = [] ∧ DriverResolvable f n k filename) ∨
        (node.isString = false ∧ memberString node "type" = .ok type ∧
          memberString node "filename" = .ok filename ∧ collectOptions base node = .ok opts ∧
          ((type ≠ "" ∧ f.createStage type = true) ∨
            (type = "" ∧ filename ≠ "" ∧ DriverResolvable f n k filename)))) := by
  obtain ⟨-, -, -, hall⟩ := parseLoop_ok m0 items _ st' (loopInv_initial m0) h
  obtain ⟨stk, stk', hinvk, hik, -, hnode, -, suffix, hsuf⟩ := hall k node hk
  obtain ⟨type, filename, opts, tags', hst, hcase⟩ := parseNode_ok m0 hinvk hnode
  have hik' : stk.i = k := by simpa [initialState] using hik
  have hlen : stk.manager.length = m0.length + k := by rw [hinvk.1, hik']
  refine ⟨type, filename, opts, ?_, ?_⟩
  · rw [hsuf, hst]
    simp only [List.append_assoc]
    rw [List.getElem?_append_right (by omega)]
    simp [hlen, hik']
  · rw [hik'] at hcase
    rcases hcase with ⟨h1, h2, h3, -, h5⟩ | ⟨h1, h2, h3, h4, -, h6⟩
    · exact Or.inl ⟨h1, h2, h3, h5⟩
    · exact Or.inr ⟨h1, h2, h3, h4, h6⟩

end PipelineReaderJSON

namespace PipelineReaderJSON

theorem parseElement_Pipeline_ok {f : StageFactory} {base : Options} {m0 m : PipelineManager}
    {tree : Json} {w : Bool} (h : parseElement_Pipeline f base m0 tree = .ok (m, w)) :
    ∃ st', parseLoop f base tree.size (initialState m0) tree.elements = .ok st' ∧
      m = st'.manager ∧ w = st'.isWriter := by
  unfold parseElement_Pipeline at h
  simp only [bind_eq_ok, pure, Except.pure, Except.ok.injEq, Prod.mk.injEq] at h
  obtain ⟨st', hloop, hm, hw⟩ := h
  exact ⟨st', hloop, hm.symm, hw.symm⟩

theorem registerTag_of_fresh (tags : List (String × Option Nat)) (tag : String)
    (stage : Option Nat) (h : tag = "" ∨ (tags.lookup tag).join = none) :
    registerTag tags tag stage = .ok (if tag ≠ "" then (tag, stage) :: tags else tags) := by
  unfold registerTag
  by_cases ht : tag = ""
  · simp [ht]
  · rcases h with h | h
    · exact absurd h ht
    · simp only [ne_eq, ht, not_false_eq_true, if_true, h, Option.isSome_none,
        Bool.false_eq_true, if_false]

theorem registerTag_of_dup (tags : List (String × Option Nat)) (tag : String)
    (stage : Option Nat) (s : Nat) (ht : tag ≠ "") (h : tags.lookup tag = some (some s)) :
    registerTag tags tag stage = .error (.pdal_error ("Duplicate tag " ++ tag)) := by
  unfold registerTag
  simp [ht, h]

theorem registerTag_ok_lookup {tags tags' : List (String × Option Nat)} {tag : String}
    {stage : Option Nat} (h : registerTag tags tag stage = .ok tags') (ht : tag ≠ "") :
    tags'.lookup tag = some stage := by
  unfold registerTag at h
  simp only [ht, ne_eq, not_false_eq_true, if_true] at h
  split_ifs at h
  simp only [Except.ok.injEq] at h
  subst h
  simp [List.lookup]

theorem registerTag_ok_mono {tags tags' : List (String × Option Nat)} {tag : String}
    {stage : Option Nat} (h : registerTag tags tag stage = .ok tags') (T : String) (s : Nat)
    (hT : tags.lookup T = some (some s)) : tags'.lookup T = some (some s) := by
  unfold registerTag at h
  by_cases ht : tag = ""
  · simp only [ht, ne_eq, not_true_eq_false, if_false, Except.ok.injEq] at h
    subst h
    exact hT
  · simp only [ht, ne_eq, not_false_eq_true, if_true] at h
    split_ifs at h with hd
    simp only [Except.ok.injEq] at h
    subst h
    have hne : T ≠ tag := by
      intro he
      subst he
      simp [hT] at hd
    have hb : (T == tag) = false := by simpa using hne
    simp only [List.lookup, hb]
    exact hT

theorem parseNode_tags_mono {f : StageFactory} {base : Options} {n : Nat} {st st' : LoopState}
    {node : Json} (m0 : PipelineManager) (hinv : LoopInv m0 st)
    (h : parseNode f base n st node = .ok st') (T : String) (s : Nat)
    (hT : st.tags.lookup T = some (some s)) : st'.tags.lookup T = some (some s) := by
  obtain ⟨type, filename, opts, tags', hst, hcase⟩ := parseNode_ok m0 hinv h
  subst hst
  rcases hcase with ⟨-, -, -, htags, -⟩ | ⟨-, -, -, -, ⟨tag, -, hreg⟩, -⟩
  · simp only [htags]
    exact hT
  · exact registerTag_ok_mono hreg T s hT

theorem parseLoop_tags_mono {f : StageFactory} {base : Options} {n : Nat}
    (m0 : PipelineManager) (items : List Json) :
    ∀ (st st' : LoopState), LoopInv m0 st → parseLoop f base n st items = .ok st' →
      ∀ (T : String) (s : Nat), st.tags.lookup T = some (some s) →
        st'.tags.lookup T = some (some s) := by
  induction items with
  | nil =>
    intro st st' _ h T s hT
    simp only [parseLoop, Except.ok.injEq] at h
    subst h
    exact hT
  | cons node rest ih =>
    intro st st' hinv h T s hT
    simp only [parseLoop, bind_eq_ok] at h
    obtain ⟨st1, hstep, hrest⟩ := h
    exact ih st1 st' (parseNode_inv m0 hinv hstep).1 hrest T s
      (parseNode_tags_mono m0 hinv hstep T s hT)

theorem parseLoop_append (f : StageFactory) (base : Options) (n : Nat) (xs ys : List Json)
    (st : LoopState) :
    parseLoop f base n st (xs ++ ys) =
      (parseLoop f base n st xs >>= fun st1 => parseLoop f base n st1 ys) := by
  induction xs generalizing st with
  | nil => rfl
  | cons x xs ih =>
    simp only [List.cons_append, parseLoop]
    cases parseNode f base n st x with
    | error e => rfl
    | ok st1 => exact ih st1

end PipelineReaderJSON

namespace PipelineReaderJSON

theorem parseStringNode_of_resolvable (f : StageFactory) (base : Options) (n : Nat)
    (st : LoopState) (filename : String) (h : DriverResolvable f n st.i filename) :
    parseStringNode f base n st filename =
      .ok (st.manager ++ [constructedStage f base n st.i "" filename],
        some st.manager.length, if st.i < n - 1 then st.isWriter else true) := by
  unfold parseStringNode constructedStage
  unfold DriverResolvable at h
  by_cases hi : st.i < n - 1
  · simp only [hi, if_true] at h
    simp [hi, parseReaderByFilename_of_resolvable f base _ _ h.1 h.2, bind, Except.bind, pure,
      Except.pure]
  · simp only [hi, if_false] at h
    simp [hi, parseWriterByFilename_of_resolvable f base _ _ h.1 h.2, bind, Except.bind, pure,
      Except.pure]

end PipelineReaderJSON

namespace PipelineReaderJSON

/-! ## Errors other than the duplicate tag -/

theorem ne_duplicate_of_head (msg t : String) (h : msg.data.head? ≠ some 'D') :
    msg ≠ "Duplicate tag " ++ t := by
  intro he
  apply h
  rw [he]
  simp [String.data_append]

theorem notDup_ok {α : Type} (x : α) : NotDuplicateTagError (Except.ok x : Except Failure α) := by
  intro t h
  cases h

theorem notDup_json {α : Type} (msg : String) :
    NotDuplicateTagError (Except.error (.jsonError msg) : Except Failure α) := by
  intro t h
  cases h

theorem notDup_null {α : Type} :
    NotDuplicateTagError (Except.error .nullDereference : Except Failure α) := by
  intro t h
  cases h

theorem notDup_pdal {α : Type} (msg : String) (h : msg.data.head? ≠ some 'D') :
    NotDuplicateTagError (Except.error (.pdal_error msg) : Except Failure α) := by
  intro t he
  simp only [Except.error.injEq, Failure.pdal_error.injEq] at he
  exact ne_duplicate_of_head msg t h he

theorem notDup_bind {α β : Type} (a : Except Failure α) (b : α → Except Failure β)
    (ha : NotDuplicateTagError a) (hb : ∀ x, a = .ok x → NotDuplicateTagError (b x)) :
    NotDuplicateTagError (a >>= b) := by
  cases a with
  | error e =>
    intro t h
    exact ha t (by simpa [bind, Except.bind] using h)
  | ok x => exact hb x rfl

theorem notDup_validate (c : StageParserContext) : NotDuplicateTagError c.validate := by
  unfold StageParserContext.validate
  split_ifs <;> first | exact notDup_ok _ | exact notDup_pdal _ (by decide)

theorem notDup_addReader (f : StageFactory) (m : PipelineManager) (type : String) :
    NotDuplicateTagError (addReader f m type) := by
  unfold addReader
  split_ifs
  · exact notDup_ok _
  · exact notDup_pdal _ (by simp [String.data_append])

theorem notDup_addWriter (f : StageFactory) (m : PipelineManager) (type : String) :
    NotDuplicateTagError (addWriter f m type) := by
  unfold addWriter
  split_ifs
  · exact notDup_ok _
  · exact notDup_pdal _ (by simp [String.data_append])

theorem notDup_parseReaderByFilename (f : StageFactory) (base : Options)
    (m : PipelineManager) (filename : String) :
    NotDuplicateTagError (parseReaderByFilename f base m filename) := by
  unfold parseReaderByFilename
  refine notDup_bind _ _ (notDup_validate _) (fun _ _ => ?_)
  refine notDup_bind _ _ (notDup_addReader _ _ _) (fun _ _ => notDup_ok _)

theorem notDup_parseWriterByFilename (f : StageFactory) (base : Options)
    (m : PipelineManager) (filename : String) :
    NotDuplicateTagError (parseWriterByFilename f base m filename) := by
  unfold parseWriterByFilename
  simp only
  split_ifs
  · exact notDup_pdal _ (by simp [String.data_append])
  · refine notDup_bind _ _ (notDup_validate _) (fun _ _ => ?_)
    refine notDup_bind _ _ (notDup_addWriter _ _ _) (fun _ _ => notDup_ok _)

theorem notDup_parseStringNode (f : StageFactory) (base : Options) (n : Nat)
    (st : LoopState) (filename : String) :
    NotDuplicateTagError (parseStringNode f base n st filename) := by
  unfold parseStringNode
  split_ifs
  · exact notDup_bind _ _ (notDup_parseReaderByFilename _ _ _ _) (fun _ _ => notDup_ok _)
  · exact notDup_bind _ _ (notDup_parseWriterByFilename _ _ _ _) (fun _ _ => notDup_ok _)

theorem notDup_constructStage (f : StageFactory) (base : Options) (n : Nat)
    (st : LoopState) (type filename : String) :
    NotDuplicateTagError (constructStage f base n st type filename) := by
  unfold constructStage
  split_ifs
  · exact notDup_bind _ _ (notDup_addReader _ _ _) (fun _ _ => notDup_ok _)
  · exact notDup_bind _ _ (notDup_addWriter _ _ _) (fun _ _ => notDup_ok _)
  · exact notDup_bind _ _ (notDup_parseReaderByFilename _ _ _ _) (fun _ _ => notDup_ok _)
  · exact notDup_bind _ _ (notDup_parseWriterByFilename _ _ _ _) (fun _ _ => notDup_ok _)
  · exact notDup_ok _

theorem notDup_asString (v : Json) : NotDuplicateTagError v.asString := by
  cases v <;> first | exact notDup_ok _ | exact notDup_json _

theorem notDup_get (v : Json) (key : String) : NotDuplicateTagError (v.get key) := by
  cases v <;> first | exact notDup_ok _ | exact notDup_json _

theorem notDup_isMember (v : Json) (key : String) : NotDuplicateTagError (v.isMember key) := by
  cases v <;> first | exact notDup_ok _ | exact notDup_json _

theorem notDup_getMemberNames (v : Json) : NotDuplicateTagError v.getMemberNames := by
  cases v <;> first | exact notDup_ok _ | exact notDup_json _

theorem notDup_memberString (node : Json) (key : String) :
    NotDuplicateTagError (memberString node key) := by
  unfold memberString
  refine notDup_bind _ _ (notDup_isMember _ _) (fun b _ => ?_)
  split_ifs
  · exact notDup_bind _ _ (notDup_get _ _) (fun _ _ => notDup_asString _)
  · exact notDup_ok _

theorem notDup_foldlM {α β : Type} (step : β → α → Except Failure β)
    (hstep : ∀ acc x, NotDuplicateTagError (step acc x)) (xs : List α) (acc : β) :
    NotDuplicateTagError (xs.foldlM step acc) := by
  induction xs generalizing acc with
  | nil => exact notDup_ok _
  | cons x xs ih =>
    rw [List.foldlM_cons]
    exact notDup_bind _ _ (hstep acc x) (fun acc' _ => ih acc')

theorem notDup_collectOptions (base : Options) (node : Json) :
    NotDuplicateTagError (collectOptions base node) := by
  unfold collectOptions
  refine notDup_bind _ _ (notDup_getMemberNames _) (fun names _ => ?_)
  refine notDup_foldlM _ (fun acc k => ?_) names base
  split_ifs
  · exact notDup_ok _
  · exact notDup_ok _
  · exact notDup_ok _
  · exact notDup_ok _
  · refine notDup_bind _ _ (notDup_get _ _) (fun v _ => ?_)
    exact notDup_bind _ _ (notDup_asString _) (fun _ _ => notDup_ok _)

theorem notDup_linkStage (st : LoopState) (m : PipelineManager)
    (tags : List (String × Option Nat)) (stage : Option Nat) (w : Bool) :
    NotDuplicateTagError (linkStage st m tags stage w) := by
  unfold linkStage
  simp only
  split_ifs
  · split
    · exact notDup_ok _
    · exact notDup_null
  · exact notDup_ok _

theorem memberString_tag_ok {node : Json} {tag : String}
    (h : memberString node "tag" = .ok tag) : tag = tagText node := by
  cases node with
  | obj members => exact memberString_obj_ok h
  | null =>
    simp only [memberString, Json.isMember, bind, Except.bind, pure, Except.pure,
      Bool.false_eq_true, if_false, Except.ok.injEq] at h
    simp [tagText, ← h]
  | bool b => simp [memberString, Json.isMember, bind, Except.bind] at h
  | num t => simp [memberString, Json.isMember, bind, Except.bind] at h
  | str s => simp [memberString, Json.isMember, bind, Except.bind] at h
  | arr a => simp [memberString, Json.isMember, bind, Except.bind] at h

theorem notDup_parseObjectNode (f : StageFactory) (base : Options) (n : Nat)
    (st : LoopState) (node : Json)
    (hfresh : tagText node = "" ∨ (st.tags.lookup (tagText node)).join = none) :
    NotDuplicateTagError (parseObjectNode f base n st node) := by
  unfold parseObjectNode
  refine notDup_bind _ _ (notDup_memberString _ _) (fun type _ => ?_)
  refine notDup_bind _ _ (notDup_memberString _ _) (fun filename _ => ?_)
  refine notDup_bind _ _ (notDup_memberString _ _) (fun tag htag => ?_)
  refine notDup_bind _ _ (notDup_get _ _) (fun v _ => ?_)
  refine notDup_bind _ _ (notDup_getMemberNames _) (fun _ _ => ?_)
  refine notDup_bind _ _ (notDup_constructStage _ _ _ _ _ _) (fun r _ => ?_)
  have ht := memberString_tag_ok htag
  subst ht
  refine notDup_bind _ _ ?_ (fun _ _ => ?_)
  · rw [registerTag_of_fresh _ _ _ hfresh]
    exact notDup_ok _
  · refine notDup_bind _ _ (notDup_collectOptions _ _) (fun _ _ => ?_)
    split
    · exact notDup_null
    · exact notDup_ok _

theorem notDup_parseNode (f : StageFactory) (base : Options) (n : Nat)
    (st : LoopState) (node : Json)
    (hfresh : tagText node = "" ∨ (st.tags.lookup (tagText node)).join = none) :
    NotDuplicateTagError (parseNode f base n st node) := by
  by_cases hs : node.isString = true
  · cases node <;> simp [Json.isString] at hs
    simp only [parseNode]
    exact notDup_bind _ _ (notDup_parseStringNode _ _ _ _ _) (fun _ _ => notDup_linkStage _ _ _ _ _)
  · have hs' : node.isString = false := by simpa using hs
    rw [parseNode_nonstring f base n st node hs']
    exact notDup_bind _ _ (notDup_parseObjectNode f base n st node hfresh)
      (fun _ _ => notDup_linkStage _ _ _ _ _)

theorem parseNode_tags {f : StageFactory} {base : Options} {n : Nat} {st st' : LoopState}
    {node : Json} (m0 : PipelineManager) (hinv : LoopInv m0 st)
    (h : parseNode f base n st node = .ok st') :
    (tagText node = "" ∨ (st.tags.lookup (tagText node)).join = none) ∧
    st'.tags = (if tagText node ≠ "" then
      (tagText node, some st.manager.length) :: st.tags else st.tags) := by
  obtain ⟨type, filename, opts, tags', hst, hcase⟩ := parseNode_ok m0 hinv h
  subst hst
  rcases hcase with ⟨hnode, -, -, htags, -⟩ | ⟨-, -, -, -, ⟨tag, htag, hreg⟩, -⟩
  · subst hnode
    simp [tagText, htags]
  · have ht := memberString_tag_ok htag
    subst ht
    unfold registerTag at hreg
    by_cases he : tagText node = ""
    · simp only [he, ne_eq, not_true_eq_false, if_false, Except.ok.injEq] at hreg
      simp [he, hreg]
    · simp only [he, ne_eq, not_false_eq_true, if_true] at hreg
      by_cases hd : ((st.tags.lookup (tagText node)).join).isSome = true
      · rw [if_pos hd] at hreg
        cases hreg
      · rw [if_neg hd] at hreg
        simp only [Except.ok.injEq] at hreg
        refine ⟨Or.inr ?_, by simp [he, hreg]⟩
        exact Option.not_isSome_iff_eq_none.1 hd

theorem notDup_parseLoop (f : StageFactory) (base : Options) (n : Nat)
    (m0 : PipelineManager) (items : List Json) :
    ∀ st : LoopState, LoopInv m0 st →
      items.Pairwise (fun a b => tagText a = "" ∨ tagText a ≠ tagText b) →
      (∀ node ∈ items, tagText node = "" ∨ (st.tags.lookup (tagText node)).join = none) →
      NotDuplicateTagError (parseLoop f base n st items) := by
  induction items with
  | nil => intro st _ _ _; exact notDup_ok _
  | cons node rest ih =>
    intro st hinv hpair hfresh
    simp only [parseLoop]
    rw [List.pairwise_cons] at hpair
    refine notDup_bind _ _ (notDup_parseNode f base n st node
      (hfresh node (List.mem_cons_self _ _))) (fun st1 hstep => ?_)
    obtain ⟨hinv1, -, -⟩ := parseNode_inv m0 hinv hstep
    obtain ⟨-, htags⟩ := parseNode_tags m0 hinv hstep
    refine ih st1 hinv1 hpair.2 (fun nd hnd => ?_)
    rcases hfresh nd (List.mem_cons_of_mem _ hnd) with he | hl
    · exact Or.inl he
    · right
      rw [htags]
      by_cases ht : tagText node = ""
      · simpa [ht] using hl
      · rcases hpair.1 nd hnd with h0 | hne
        · exact absurd h0 ht
        · have hb : (tagText nd == tagText node) = false := by
            simpa using fun e => hne e.symm
          simp only [ne_eq, ht, not_false_eq_true, if_true, List.lookup, hb]
          exact hl

end PipelineReaderJSON

namespace PipelineReaderJSON

theorem tag_registered {f : StageFactory} {base : Options} {n : Nat} (m0 : PipelineManager)
    (items : List Json) (st' : LoopState)
    (h : parseLoop f base n (initialState m0) items = .ok st')
    (k : Nat) (node : Json) (hk : items[k]? = some node) (ht : tagText node ≠ "") :
    st'.tags.lookup (tagText node) = some (some (m0.length + k)) := by
  obtain ⟨-, -, -, hall⟩ := parseLoop_ok m0 items _ st' (loopInv_initial m0) h
  obtain ⟨stk, stk', hinvk, hik, -, hnode, hdrop, -⟩ := hall k node hk
  obtain ⟨hinvk', -, -⟩ := parseNode_inv m0 hinvk hnode
  obtain ⟨-, htags⟩ := parseNode_tags m0 hinvk hnode
  have hlen : stk.manager.length = m0.length + k := by
    rw [hinvk.1, hik]
    simp [initialState]
  apply parseLoop_tags_mono m0 _ stk' st' hinvk' hdrop
  rw [htags]
  simp [ht, List.lookup, hlen]

theorem parseNode_of_duplicate (f : StageFactory) (base : Options) (n : Nat)
    (st : LoopState) (d2 : Json) (T type filename : String) (names : List String)
    (m1 : PipelineManager) (s s0 : Nat) (w : Bool) (hT : T ≠ "")
    (hreg : st.tags.lookup T = some (some s0))
    (htag : memberString d2 "tag" = .ok T) (htype : memberString d2 "type" = .ok type)
    (hfile : memberString d2 "filename" = .ok filename)
    (hin : (d2.get "inputs" >>= Json.getMemberNames) = .ok names)
    (hcons : constructStage f base n st type filename = .ok (m1, some s, w)) :
    parseNode f base n st d2 = .error (.pdal_error ("Duplicate tag " ++ T)) := by
  have hs : d2.isString = false := by
    cases d2 <;> first | rfl | simp [memberString, Json.isMember, bind, Except.bind] at htag
  rw [parseNode_nonstring f base n st d2 hs]
  rw [bind_eq_ok] at hin
  obtain ⟨v, hget, hnames⟩ := hin
  unfold parseObjectNode
  simp only [htype, hfile, htag, hget, hnames, hcons, registerTag_of_dup _ _ _ s0 hT hreg, bind,
    Except.bind]

end PipelineReaderJSON

namespace PipelineReaderJSON

theorem collectOptions_fold_values (members : List (String × Json)) (names : List String)
    (acc r : Options)
    (h : names.foldlM
      (fun (options : Options) kate =>
        if kate = "filename" then (pure options : Except Failure Options)
        else if kate = "type" then pure options
        else if kate = "inputs" then pure options
        else if kate = "tag" then pure options
        else do
          let value ← (← (Json.obj members).get kate).asString
          pure (options ++ [{ name := kate, value := value }]))
      acc = .ok r) :
    ∀ k ∈ names, reservedName k = false →
      ((members.lookup k).getD .null).asString = .ok (memberText members k) := by
  induction names generalizing acc with
  | nil => intro k hk; simp at hk
  | cons k0 names ih =>
    simp only [List.foldlM, bind_eq_ok] at h
    obtain ⟨acc', hstep, hrest⟩ := h
    intro k hk hres
    rcases List.mem_cons.1 hk with rfl | hk
    · simp only [reservedName, decide_eq_false_iff_not, not_or] at hres
      obtain ⟨e1, e2, e3, e4⟩ := hres
      simp only [e1, e2, e3, e4, if_false, bind_eq_ok, Json.get, Except.ok.injEq,
        exists_eq_left', pure, Except.pure] at hstep
      obtain ⟨value, hv, -⟩ := hstep
      rw [hv, asString_ok hv]
      rfl
    · exact ih acc' hrest k hk hres

end PipelineReaderJSON

namespace PipelineReaderJSON

/-! ## Claims about the JSON pipeline reader -/

/-- C11: a bare-string descriptor is resolved by `parseReaderByFilename` when
its index is below n-1 and by `parseWriterByFilename` when it is n-1, in
every state of the loop and by no other path; so in every successful parse of
an array the stage built from a bare string at index i is the reader stage of
the inferred reader driver (i < n-1) or the writer stage of the inferred
writer driver (i = n-1), with the options those two functions set. -/
theorem bare_string_descriptor (f : StageFactory) (base : Options) (m0 : PipelineManager)
    (items : List Json) (i : Nat) (s : String) (hi : items[i]? = some (.str s)) :
    (∀ st : LoopState, st.i = i →
      parseNode f base items.length st (.str s) =
        if i < items.length - 1 then
          parseReaderByFilename f base st.manager s >>= fun r =>
            linkStage st r.1 st.tags (some r.2) st.isWriter
        else
          parseWriterByFilename f base st.manager s >>= fun r =>
            linkStage st r.1 st.tags (some r.2) true) ∧
    (∀ m w, parseElement_Pipeline f base m0 (.arr items) = .ok (m, w) →
      (i < items.length - 1 →
        f.inferReaderDriver s ≠ "" ∧
        m[m0.length + i]? =
          some { kind := .reader, type := f.inferReaderDriver s,
                 options := base ++ [{ name := "filename", value := s }],
                 inputs := if i = 0 then [] else [m0.length + (i - 1)] }) ∧
      (¬ i < items.length - 1 →
        i = items.length - 1 ∧ f.inferWriterDriver s ≠ "" ∧
        m[m0.length + i]? =
          some { kind := .writer, type := f.inferWriterDriver s,
                 options := base ++ f.inferWriterOptionsChanges s,
                 inputs := if i = 0 then [] else [m0.length + (i - 1)] })) := by
  constructor
  · intro st hst
    subst hst
    simp only [parseNode, parseStringNode]
    by_cases hlt : st.i < items.length - 1
    · simp only [hlt, if_true]
      cases parseReaderByFilename f base st.manager s with
      | error e => rfl
      | ok r => rfl
    · simp only [hlt, if_false]
      cases parseWriterByFilename f base st.manager s with
      | error e => rfl
      | ok r => rfl
  · intro m w h
    obtain ⟨st', hloop, hm, -⟩ := parseElement_Pipeline_ok h
    subst hm
    simp only [Json.size, Json.elements] at hloop
    obtain ⟨type, filename, opts, hstage, hcase⟩ :=
      parseLoop_stage m0 items st' hloop i (.str s) hi
    have hilt : i < items.length := by
      by_contra hge
      rw [List.getElem?_eq_none (by omega)] at hi
      exact absurd hi (by simp)
    rcases hcase with ⟨hnode, htype, hopts, hres⟩ | ⟨hnot, -⟩
    · simp only [Json.str.injEq] at hnode
      subst hnode htype hopts
      unfold DriverResolvable at hres
      constructor
      · intro hlt
        simp only [hlt, if_true] at hres
        refine ⟨hres.1, ?_⟩
        rw [hstage]
        simp [constructedStage, hlt]
      · intro hlt
        simp only [hlt, if_false] at hres
        refine ⟨by omega, hres.1, ?_⟩
        rw [hstage]
        simp [constructedStage, hlt]
    · simp [Json.isString] at hnot

/-- Witness of C11: the document ["in.ext", "out.ext"], index 0. -/
theorem bare_string_descriptor_witness :
    extFactory.inferReaderDriver "in.ext" ≠ "" ∧
    ([{ kind := .reader, type := "readers.ext",
        options := [{ name := "filename", value := "in.ext" }], inputs := [] },
      { kind := .writer, type := "writers.ext",
        options := [{ name := "filename", value := "out.ext" }], inputs := [0] }] :
      PipelineManager)[([] : PipelineManager).length + 0]? =
      some { kind := .reader, type := extFactory.inferReaderDriver "in.ext",
             options := [] ++ [{ name := "filename", value := "in.ext" }],
             inputs := if 0 = 0 then [] else [([] : PipelineManager).length + (0 - 1)] } :=
  ((bare_string_descriptor extFactory [] [] [.str "in.ext", .str "out.ext"] 0 "in.ext"
    rfl).2 _ true rfl).1 (by decide)

end PipelineReaderJSON

namespace PipelineReaderJSON

/-- C13, at failing inputs. (1) A document that defines the tags "A" and "B"
and whose last descriptor lists "A" in an `inputs` array is rejected, with the
JSON library's error of `getMemberNames` on an array and no tag error. (2) The
same document with `inputs` given as an object naming "A" is accepted, and
the last stage has the stage before it (stage 1, tagged "B") as its only
input, not the stage tagged "A" (stage 0). (3) An `inputs` naming the tag "Z",
defined nowhere, is accepted as well. -/
theorem inputs_member_ignored :
    parseElement_Pipeline extFactory [] []
        (.arr [.obj [("tag", .str "A"), ("type", .str "readers.las")],
               .obj [("tag", .str "B"), ("type", .str "readers.bpf")],
               .obj [("inputs", .arr [.str "A"]), ("type", .str "writers.las")]]) =
      .error (.jsonError "value must be objectValue") ∧
    parseElement_Pipeline extFactory [] []
        (.arr [.obj [("tag", .str "A"), ("type", .str "readers.las")],
               .obj [("tag", .str "B"), ("type", .str "readers.bpf")],
               .obj [("inputs", .obj [("A", .null)]), ("type", .str "writers.las")]]) =
      .ok ([{ kind := .reader, type := "readers.las", options := [], inputs := [] },
            { kind := .reader, type := "readers.bpf", options := [], inputs := [0] },
            { kind := .writer, type := "writers.las", options := [], inputs := [1] }], true) ∧
    parseElement_Pipeline extFactory [] []
        (.arr [.obj [("tag", .str "A"), ("type", .str "readers.las")],
               .obj [("inputs", .obj [("Z", .null)]), ("type", .str "writers.las")]]) =
      .ok ([{ kind := .reader, type := "readers.las", options := [], inputs := [] },
            { kind := .writer, type := "writers.las", options := [], inputs := [0] }], true) := by
  refine ⟨rfl, rfl, rfl⟩

/-- C15, at failing inputs: an object descriptor with neither `type` nor
`filename` leaves the stage pointer null, a tag is registered for the null
stage, and `stage->addOptions` dereferences it; no error is thrown before. -/
theorem descriptor_without_driver_dereferences_null :
    parseElement_Pipeline extFactory [] [] (.arr [.obj []]) = .error .nullDereference ∧
    parseElement_Pipeline extFactory [] []
        (.arr [.obj [("tag", .str "A")], .str "out.ext"]) = .error .nullDereference ∧
    registerTag [] "A" none = .ok [("A", none)] := by
  refine ⟨rfl, rfl, rfl⟩

/-- C16 as stated fails: in the graph of the document ["a.ext", "b.ext",
"out.ext"] the stage of index 1 is constructed as a reader and has the stage
of index 0 as input. -/
theorem reader_with_input :
    ¬ (∀ m w, parseElement_Pipeline extFactory [] []
          (.arr [.str "a.ext", .str "b.ext", .str "out.ext"]) = .ok (m, w) →
        ∀ stage ∈ m, stage.kind = .reader → stage.inputs = []) := by
  intro h
  have h1 := h
    [{ kind := .reader, type := "readers.ext",
       options := [{ name := "filename", value := "a.ext" }], inputs := [] },
     { kind := .reader, type := "readers.ext",
       options := [{ name := "filename", value := "b.ext" }], inputs := [0] },
     { kind := .writer, type := "writers.ext",
       options := [{ name := "filename", value := "out.ext" }], inputs := [1] }]
    true rfl
    { kind := .reader, type := "readers.ext",
      options := [{ name := "filename", value := "b.ext" }], inputs := [0] }
    (by simp) rfl
  simp at h1

/-- C16, amended: in every graph a successful `parseElement_Pipeline` makes of
an array, a stage constructed as a reader has no input when it is built from
the first descriptor, and exactly one input, the stage built from the
descriptor before its own, when it is built from a later one. -/
theorem reader_inputs (f : StageFactory) (base : Options) (m0 : PipelineManager)
    (items : List Json) (m : PipelineManager) (w : Bool)
    (h : parseElement_Pipeline f base m0 (.arr items) = .ok (m, w))
    (i : Nat) (stage : Stage) (hs : m[m0.length + i]? = some stage)
    (_hk : stage.kind = .reader) :
    i < items.length ∧ (i = 0 → stage.inputs = []) ∧
      (1 ≤ i → stage.inputs = [m0.length + (i - 1)]) := by
  obtain ⟨st', hloop, hm, -⟩ := parseElement_Pipeline_ok h
  subst hm
  simp only [Json.size, Json.elements] at hloop
  obtain ⟨-, -, ⟨news, hnews, hlen⟩, -⟩ :=
    parseLoop_ok m0 items _ st' (loopInv_initial m0) hloop
  have hilt : i < items.length := by
    by_contra hge
    rw [List.getElem?_eq_none (by simp [hnews, initialState, hlen]; omega)] at hs
    exact absurd hs (by simp)
  obtain ⟨type, filename, opts, hstage, -⟩ :=
    parseLoop_stage m0 items st' hloop i _ (List.getElem?_eq_getElem hilt)
  rw [hs] at hstage
  simp only [Option.some.injEq] at hstage
  subst hstage
  refine ⟨hilt, ?_, ?_⟩
  · intro h0
    simp [h0]
  · intro h1
    have : i ≠ 0 := by omega
    simp [this]

/-- Witness of the amended C16: the reader of index 1 of ["a.ext", "b.ext",
"out.ext"]. -/
theorem reader_inputs_witness :
    1 < [Json.str "a.ext", Json.str "b.ext", Json.str "out.ext"].length ∧
    (1 = 0 → ({ kind := .reader, type := "readers.ext",
                options := [{ name := "filename", value := "b.ext" }],
                inputs := [0] } : Stage).inputs = []) ∧
    (1 ≤ 1 → ({ kind := .reader, type := "readers.ext",
                options := [{ name := "filename", value := "b.ext" }],
                inputs := [0] } : Stage).inputs = [([] : PipelineManager).length + (1 - 1)]) :=
  reader_inputs extFactory [] [] [.str "a.ext", .str "b.ext", .str "out.ext"]
    [{ kind := .reader, type := "readers.ext",
       options := [{ name := "filename", value := "a.ext" }], inputs := [] },
     { kind := .reader, type := "readers.ext",
       options := [{ name := "filename", value := "b.ext" }], inputs := [0] },
     { kind := .writer, type := "writers.ext",
       options := [{ name := "filename", value := "out.ext" }], inputs := [1] }]
    true rfl 1 _ rfl rfl

/-- C17 as stated fails: the document ["out.ext"] is accepted and its graph
is one writer without input. -/
theorem lone_writer_accepted :
    ¬ (∀ m w, parseElement_Pipeline extFactory [] [] (.arr [.str "out.ext"]) = .ok (m, w) →
        ∀ stage ∈ m, stage.kind = .writer → stage.inputs ≠ []) := by
  intro h
  exact h
    [{ kind := .writer, type := "writers.ext",
       options := [{ name := "filename", value := "out.ext" }], inputs := [] }]
    true rfl _ (List.mem_singleton.2 rfl) rfl rfl

/-- C17, amended: in every graph a successful `parseElement_Pipeline` makes of
an array of n >= 2 descriptors, a stage constructed as a writer is the one
built from the last descriptor and has exactly one input, the stage built from
the descriptor before; and a document whose only descriptor is a filename with
a writer driver is accepted, with result `true`, its graph being that writer
with no input. -/
theorem writer_inputs (f : StageFactory) (base : Options) (m0 : PipelineManager) :
    (∀ (items : List Json) (m : PipelineManager) (w : Bool),
      parseElement_Pipeline f base m0 (.arr items) = .ok (m, w) → 2 ≤ items.length →
      ∀ (i : Nat) (stage : Stage), m[m0.length + i]? = some stage → stage.kind = .writer →
        i = items.length - 1 ∧ stage.inputs = [m0.length + (i - 1)]) ∧
    (∀ filename : String, f.inferWriterDriver filename ≠ "" →
      f.createStage (f.inferWriterDriver filename) = true →
      parseElement_Pipeline f base m0 (.arr [.str filename]) =
        .ok (m0 ++ [{ kind := .writer, type := f.inferWriterDriver filename,
                      options := base ++ f.inferWriterOptionsChanges filename,
                      inputs := [] }], true)) := by
  constructor
  · intro items m w h hn i stage hs hk
    obtain ⟨st', hloop, hm, -⟩ := parseElement_Pipeline_ok h
    subst hm
    simp only [Json.size, Json.elements] at hloop
    obtain ⟨-, -, ⟨news, hnews, hlen⟩, -⟩ :=
      parseLoop_ok m0 items _ st' (loopInv_initial m0) hloop
    have hilt : i < items.length := by
      by_contra hge
      rw [List.getElem?_eq_none (by simp [hnews, initialState, hlen]; omega)] at hs
      exact absurd hs (by simp)
    obtain ⟨type, filename, opts, hstage, -⟩ :=
      parseLoop_stage m0 items st' hloop i _ (List.getElem?_eq_getElem hilt)
    rw [hs] at hstage
    simp only [Option.some.injEq] at hstage
    subst hstage
    have hlast : ¬ i < items.length - 1 := by
      intro hlt
      simp [hlt] at hk
    have hi0 : i ≠ 0 := by omega
    exact ⟨by omega, by simp [hi0]⟩
  · intro filename h1 h2
    unfold parseElement_Pipeline
    simp only [Json.size, Json.elements, List.length_singleton, parseLoop, parseNode]
    have hd : DriverResolvable f 1 (initialState m0).i filename := by
      simp [DriverResolvable, initialState, h1, h2]
    rw [parseStringNode_of_resolvable f base 1 (initialState m0) filename hd]
    simp only [bind, Except.bind]
    rw [linkStage_eq m0 (initialState m0) _ _ _ (loopInv_initial m0)]
    simp [initialState, constructedStage, pure, Except.pure]

/-- Witness of the amended C17: ["in.ext", "out.ext"] for the first part,
["out.ext"] for the second. -/
theorem writer_inputs_witness :
    (1 = [Json.str "in.ext", Json.str "out.ext"].length - 1 ∧
      ({ kind := .writer, type := "writers.ext",
         options := [{ name := "filename", value := "out.ext" }],
         inputs := [0] } : Stage).inputs = [([] : PipelineManager).length + (1 - 1)]) ∧
    parseElement_Pipeline extFactory [] [] (.arr [.str "out.ext"]) =
      .ok ([] ++ [{ kind := .writer, type := extFactory.inferWriterDriver "out.ext",
                    options := [] ++ extFactory.inferWriterOptionsChanges "out.ext",
                    inputs := [] }], true) :=
  ⟨(writer_inputs extFactory [] []).1 [.str "in.ext", .str "out.ext"]
      [{ kind := .reader, type := "readers.ext",
         options := [{ name := "filename", value := "in.ext" }], inputs := [] },
       { kind := .writer, type := "writers.ext",
         options := [{ name := "filename", value := "out.ext" }], inputs := [0] }]
      true rfl (by decide) 1 _ rfl rfl,
   (writer_inputs extFactory [] []).2 "out.ext" (by decide) rfl⟩

/-- C18, at failing inputs: a root whose `pipeline` member is a string or a
number is accepted, no stage is made and `false` is returned; a `pipeline`
that is an object is walked as if its member values were the descriptors.
Only an absent or null `pipeline` is rejected. -/
theorem non_array_pipeline_accepted :
    readPipeline extFactory [] [] (some (.obj [("pipeline", .str "in.ext")])) = .ok ([], false) ∧
    readPipeline extFactory [] [] (some (.obj [("pipeline", .num "5")])) = .ok ([], false) ∧
    readPipeline extFactory [] []
        (some (.obj [("pipeline", .obj [("a", .str "in.ext"), ("b", .str "out.ext")])])) =
      .ok ([{ kind := .reader, type := "readers.ext",
              options := [{ name := "filename", value := "in.ext" }], inputs := [] },
            { kind := .writer, type := "writers.ext",
              options := [{ name := "filename", value := "out.ext" }], inputs := [0] }], true) ∧
    readPipeline extFactory [] [] (some (.obj [])) =
      .error (.pdal_error "PipelineReaderJSON: root element is not a Pipeline") ∧
    readPipeline extFactory [] [] (some (.obj [("pipeline", .null)])) =
      .error (.pdal_error "PipelineReaderJSON: root element is not a Pipeline") := by
  refine ⟨rfl, rfl, rfl, rfl, rfl⟩

/-- C19: for counters that are not negative (they start at 0 and are only
incremented), `validate` succeeds exactly when one type is recorded and the
number of child stages fits the cardinality (0 for None, 1 for One, at least
1 for Many); otherwise it throws a `pdal_error`, the missing or extra type
being reported whatever the cardinality and the stages. A new context has
cardinality One, no type and no stage. -/
theorem validate_iff (c : StageParserContext) (h1 : 0 ≤ c.m_numTypes)
    (h2 : 0 ≤ c.m_numStages) :
    (c.validate = .ok () ↔
      c.m_numTypes = 1 ∧
        (c.m_cardinality = .None → c.m_numStages = 0) ∧
        (c.m_cardinality = .One → c.m_numStages = 1) ∧
        (c.m_cardinality = .Many → 1 ≤ c.m_numStages)) ∧
    (c.m_numTypes = 0 → c.validate =
      .error (.pdal_error "PipelineReaderJSON: expected Type element missing")) ∧
    (1 < c.m_numTypes → c.validate =
      .error (.pdal_error "PipelineReaderJSON: extra Type element found")) ∧
    (c.validate ≠ .ok () → ∃ msg, c.validate = .error (.pdal_error msg)) ∧
    StageParserContext.new = { m_numTypes := 0, m_cardinality := .One, m_numStages := 0 } := by
  obtain ⟨t, card, s⟩ := c
  simp only at h1 h2
  refine ⟨?_, ?_, ?_, ?_, rfl⟩
  · unfold StageParserContext.validate
    cases card <;> simp <;> split_ifs <;> simp <;> omega
  · intro h
    simp only at h
    simp [StageParserContext.validate, h]
  · intro h
    simp only at h
    have h0 : t ≠ 0 := by omega
    simp [StageParserContext.validate, h0, h]
  · intro hne
    unfold StageParserContext.validate at hne ⊢
    split_ifs at hne ⊢ <;> first | exact ⟨_, rfl⟩ | exact absurd rfl hne

/-- Witness of C19: the context of `parseReaderByFilename` after a driver was
inferred. -/
theorem validate_iff_witness :
    (StageParserContext.new.addType.setCardinality .None).validate = .ok () ↔
      (StageParserContext.new.addType.setCardinality .None).m_numTypes = 1 ∧
        ((StageParserContext.new.addType.setCardinality .None).m_cardinality = .None →
          (StageParserContext.new.addType.setCardinality .None).m_numStages = 0) ∧
        ((StageParserContext.new.addType.setCardinality .None).m_cardinality = .One →
          (StageParserContext.new.addType.setCardinality .None).m_numStages = 1) ∧
        ((StageParserContext.new.addType.setCardinality .None).m_cardinality = .Many →
          1 ≤ (StageParserContext.new.addType.setCardinality .None).m_numStages) :=
  (validate_iff (StageParserContext.new.addType.setCardinality .None) (by decide)
    (by decide)).1

end PipelineReaderJSON

namespace PipelineReaderJSON

/-- C14: (1) a document in which two descriptors carry the same non-empty tag
is never parsed with success, and when the loop reaches the second of them
and constructs its stage, `parseElement_Pipeline` fails with "Duplicate tag"
followed by the tag; (2) for a document whose non-empty tags are pairwise
distinct that error is never raised, and after the loop the map `tags` gives,
for the tag of every descriptor, the stage built from that descriptor. -/
theorem duplicate_tag (f : StageFactory) (base : Options) (m0 : PipelineManager) :
    (∀ (pre mid post : List Json) (d1 d2 : Json) (T : String), T ≠ "" →
      memberString d1 "tag" = .ok T → memberString d2 "tag" = .ok T →
      (∀ m w, parseElement_Pipeline f base m0 (.arr (pre ++ d1 :: (mid ++ d2 :: post))) ≠
          .ok (m, w)) ∧
      (∀ st type filename names m1 s w,
        parseLoop f base (pre ++ d1 :: (mid ++ d2 :: post)).length (initialState m0)
            (pre ++ d1 :: mid) = .ok st →
        memberString d2 "type" = .ok type → memberString d2 "filename" = .ok filename →
        (d2.get "inputs" >>= Json.getMemberNames) = .ok names →
        constructStage f base (pre ++ d1 :: (mid ++ d2 :: post)).length st type filename =
            .ok (m1, some s, w) →
        parseElement_Pipeline f base m0 (.arr (pre ++ d1 :: (mid ++ d2 :: post))) =
          .error (.pdal_error ("Duplicate tag " ++ T)))) ∧
    (∀ items : List Json,
      items.Pairwise (fun a b => tagText a = "" ∨ tagText a ≠ tagText b) →
      (∀ t, parseElement_Pipeline f base m0 (.arr items) ≠
          .error (.pdal_error ("Duplicate tag " ++ t))) ∧
      (∀ st', parseLoop f base items.length (initialState m0) items = .ok st' →
        ∀ k node, items[k]? = some node → tagText node ≠ "" →
          st'.tags.lookup (tagText node) = some (some (m0.length + k)))) := by
  constructor
  · intro pre mid post d1 d2 T hT h1 h2
    have ht1 := memberString_tag_ok h1
    have ht2 := memberString_tag_ok h2
    constructor
    · intro m w h
      obtain ⟨st', hloop, -, -⟩ := parseElement_Pipeline_ok h
      simp only [Json.size, Json.elements] at hloop
      have hk1 : (pre ++ d1 :: (mid ++ d2 :: post))[pre.length]? = some d1 := by
        rw [List.getElem?_append_right (le_refl _)]
        simp
      have hk2 : (pre ++ d1 :: (mid ++ d2 :: post))[pre.length + (mid.length + 1)]? =
          some d2 := by
        rw [List.getElem?_append_right (by omega)]
        have : pre.length + (mid.length + 1) - pre.length = mid.length + 1 := by omega
        rw [this, List.getElem?_cons_succ, List.getElem?_append_right (le_refl _)]
        simp
      have e1 := tag_registered m0 _ st' hloop _ d1 hk1 (by rw [← ht1]; exact hT)
      have e2 := tag_registered m0 _ st' hloop _ d2 hk2 (by rw [← ht2]; exact hT)
      rw [← ht1] at e1
      rw [← ht2, e1] at e2
      simp only [Option.some.injEq] at e2
      omega
    · intro st type filename names m1 s w hpre htype hfile hin hcons
      have hk1 : (pre ++ d1 :: mid)[pre.length]? = some d1 := by
        rw [List.getElem?_append_right (le_refl _)]
        simp
      have e1 := tag_registered m0 _ st hpre _ d1 hk1 (by rw [← ht1]; exact hT)
      rw [← ht1] at e1
      have hnode := parseNode_of_duplicate f base _ st d2 T type filename names m1 s _ w hT e1
        h2 htype hfile hin hcons
      have hsplit : pre ++ d1 :: (mid ++ d2 :: post) = (pre ++ d1 :: mid) ++ d2 :: post := by
        simp
      unfold parseElement_Pipeline
      simp only [Json.size, Json.elements]
      rw [show parseLoop f base (pre ++ d1 :: (mid ++ d2 :: post)).length (initialState m0)
          (pre ++ d1 :: (mid ++ d2 :: post)) =
          parseLoop f base (pre ++ d1 :: (mid ++ d2 :: post)).length (initialState m0)
          ((pre ++ d1 :: mid) ++ d2 :: post) by rw [← hsplit]]
      rw [parseLoop_append, hpre]
      simp only [bind, Except.bind, parseLoop, hnode]
  · intro items hpair
    constructor
    · intro t h
      have hnd := notDup_parseLoop f base items.length m0 items (initialState m0)
        (loopInv_initial m0) hpair (fun node _ => Or.inr (by simp [initialState]))
      unfold parseElement_Pipeline at h
      simp only [Json.size, Json.elements] at h
      cases hl : parseLoop f base items.length (initialState m0) items with
      | ok st' => simp [hl, bind, Except.bind, pure, Except.pure] at h
      | error e =>
        simp only [hl, bind, Except.bind, Except.error.injEq] at h
        exact hnd t (by rw [hl, h])
    · intro st' hloop k node hk ht
      exact tag_registered m0 items st' hloop k node hk ht

/-- Witness of C14: two typed descriptors tagged "A" followed by a filename. -/
theorem duplicate_tag_witness :
    parseElement_Pipeline extFactory [] []
        (.arr ([] ++ Json.obj [("tag", .str "A"), ("type", .str "readers.las")] ::
          ([] ++ Json.obj [("tag", .str "A"), ("type", .str "readers.bpf")] ::
            [.str "out.ext"]))) =
      .error (.pdal_error ("Duplicate tag " ++ "A")) :=
  ((duplicate_tag extFactory [] []).1 [] [] [.str "out.ext"]
    (.obj [("tag", .str "A"), ("type", .str "readers.las")])
    (.obj [("tag", .str "A"), ("type", .str "readers.bpf")]) "A" (by decide) rfl rfl).2
    _ "readers.bpf" "" [] _ 1 false rfl rfl rfl rfl rfl

/-- C20: in a successful parse, the options `parseElement_Pipeline` adds to
the stage of an object descriptor (with distinct member names) are the base
options followed by one option for each member whose name is not `filename`,
`type`, `inputs` or `tag`, named after the member and holding its value as a
string; they come after the options the construction of the stage had set. -/
theorem object_descriptor_options (f : StageFactory) (base : Options)
    (m0 : PipelineManager) (items : List Json) (m : PipelineManager) (w : Bool)
    (h : parseElement_Pipeline f base m0 (.arr items) = .ok (m, w))
    (i : Nat) (members : List (String × Json)) (hi : items[i]? = some (.obj members))
    (hn : (members.map Prod.fst).Nodup) :
    collectOptions base (.obj members) = .ok (base ++ memberOptions members) ∧
    memberOptions members =
      (members.filter (fun kv => kv.1 ≠ "filename" ∧ kv.1 ≠ "type" ∧ kv.1 ≠ "inputs" ∧
          kv.1 ≠ "tag")).map (fun kv => { name := kv.1, value := kv.2.text }) ∧
    (∀ kv ∈ members, kv.1 ≠ "filename" → kv.1 ≠ "type" → kv.1 ≠ "inputs" → kv.1 ≠ "tag" →
      kv.2.asString = .ok kv.2.text) ∧
    m[m0.length + i]? =
      some { kind := if i < items.length - 1 then .reader else .writer,
             type := (constructedStage f base items.length i (memberText members "type")
                        (memberText members "filename")).type,
             options := (constructedStage f base items.length i (memberText members "type")
                        (memberText members "filename")).options ++
                          (base ++ memberOptions members),
             inputs := if i = 0 then [] else [m0.length + (i - 1)] } := by
  obtain ⟨st', hloop, hm, -⟩ := parseElement_Pipeline_ok h
  subst hm
  simp only [Json.size, Json.elements] at hloop
  obtain ⟨type, filename, opts, hstage, hcase⟩ :=
    parseLoop_stage m0 items st' hloop i (.obj members) hi
  rcases hcase with ⟨hnode, -⟩ | ⟨-, htype, hfile, hopts, -⟩
  · cases hnode
  · have e1 := memberString_obj_ok htype
    have e2 := memberString_obj_ok hfile
    have e3 := collectOptions_obj_ok hopts
    rw [names_options_eq_memberOptions members hn] at e3
    subst e1 e2 e3
    refine ⟨hopts, ?_, ?_, hstage⟩
    · unfold memberOptions
      congr 1
      apply List.filter_congr
      intro kv _
      simp [reservedName]
    · intro kv hkv h1 h2 h3 h4
      have hfold := hopts
      unfold collectOptions at hfold
      simp only [Json.getMemberNames, bind, Except.bind] at hfold
      have hv := collectOptions_fold_values members _ base _ hfold kv.1
        (List.mem_map.2 ⟨kv, hkv, rfl⟩) (by simp [reservedName, h1, h2, h3, h4])
      rw [lookup_of_mem_nodup hn hkv] at hv
      simp only [Option.getD_some] at hv
      rw [hv, asString_ok hv]

end PipelineReaderJSON

namespace PipelineReaderJSON

/-- Witness of C20: a typed descriptor with a tag and the member
`spatialreference`, followed by a filename. -/
theorem object_descriptor_options_witness :
    collectOptions [] (.obj [("spatialreference", .str "EPSG:4326"), ("tag", .str "A"),
        ("type", .str "readers.las")]) =
      .ok ([] ++ memberOptions [("spatialreference", .str "EPSG:4326"), ("tag", .str "A"),
        ("type", .str "readers.las")]) ∧
    memberOptions [("spatialreference", .str "EPSG:4326"), ("tag", .str "A"),
        ("type", .str "readers.las")] =
      [{ name := "spatialreference", value := "EPSG:4326" }] :=
  ⟨(object_descriptor_options extFactory [] []
      [.obj [("spatialreference", .str "EPSG:4326"), ("tag", .str "A"),
        ("type", .str "readers.las")], .str "out.ext"]
      [{ kind := .reader, type := "readers.las",
         options := [{ name := "spatialreference", value := "EPSG:4326" }], inputs := [] },
       { kind := .writer, type := "writers.ext",
         options := [{ name := "filename", value := "out.ext" }], inputs := [0] }]
      true rfl 0 _ rfl (by decide)).1, rfl⟩

end PipelineReaderJSON

namespace SplitterFilter

/-! ## Order of the cells, order inside a collection, and the stored origin -/

/-- C26: `CoordCompare` is the strict lexicographic order on pairs of
integers, first by `bin_x`, then by `bin_y`; it is irreflexive and
transitive, and of `a < b`, `b < a`, `a = b` exactly one holds. -/
theorem coordCompare_strict_total_order :
    (∀ a b : Coord, CoordCompare a b = true ↔ a.1 < b.1 ∨ (a.1 = b.1 ∧ a.2 < b.2)) ∧
    (∀ a : Coord, CoordCompare a a = false) ∧
    (∀ a b c : Coord, CoordCompare a b = true → CoordCompare b c = true →
      CoordCompare a c = true) ∧
    (∀ a b : Coord,
      (CoordCompare a b = true ∧ CoordCompare b a = false ∧ a ≠ b) ∨
      (CoordCompare a b = false ∧ CoordCompare b a = true ∧ a ≠ b) ∨
      (CoordCompare a b = false ∧ CoordCompare b a = false ∧ a = b)) := by
  refine ⟨coordCompare_iff, coordCompare_irrefl, fun a b c => coordCompare_trans, ?_⟩
  intro a b
  cases hab : CoordCompare a b with
  | true =>
    left
    have h1 := (coordCompare_iff a b).1 hab
    refine ⟨rfl, ?_, ?_⟩
    · cases hba : CoordCompare b a with
      | false => rfl
      | true =>
        have h2 := (coordCompare_iff b a).1 hba
        omega
    · intro he
      subst he
      rw [coordCompare_irrefl] at hab
      exact Bool.false_ne_true hab
  | false =>
    right
    cases hba : CoordCompare b a with
    | true =>
      left
      refine ⟨rfl, rfl, ?_⟩
      intro he
      subst he
      rw [coordCompare_irrefl] at hba
      exact Bool.false_ne_true hba
    | false =>
      right
      exact ⟨rfl, rfl, eq_of_not_coordCompare hab hba⟩

/-- C30: `run` stores the resolved origin in the filter, and the result of a
later call depends on it. With cell length 10, buffer 0 and the origin unset,
after a run on the view A = [(0,0)] the filter holds the origin (0,0); a run
on B = [(5,5), (12,5)] then puts the two points in two cells, where a filter
with the origin still unset puts them both in the cell (0,0). -/
theorem run_depends_on_stored_origin :
    ∃ (f : Filter) (A B : PointView),
      f.m_xOrigin = none ∧ f.m_yOrigin = none ∧ A ≠ [] ∧ B ≠ [] ∧
      (run f A).1.m_xOrigin = some (0 : ℚ) ∧ (run f A).1.m_yOrigin = some (0 : ℚ) ∧
      (run f B).2 = [((0, 0), [0, 1])] ∧
      (run (run f A).1 B).2 = [((1, 1), [0]), ((2, 1), [1])] ∧
      (run (run f A).1 B).2 ≠ (run f B).2 := by
  refine ⟨⟨10, 0, none, none⟩, [(0, 0)], [(5, 5), (12, 5)], rfl, rfl, by simp, by simp, ?_, ?_,
    ?_, ?_, ?_⟩ <;> decide!

end SplitterFilter

namespace SplitterFilter

end SplitterFilter

namespace PipelineReaderJSON

/-! ## Driver inference, typed descriptors and stored filenames -/

/-- C22, at a failing input: in the graph of the document ["in.ext",
"out.ext"] the reader holds the option `filename` with the value "in.ext",
the relative name as written; the same for the `filename` member
"data/in.ext" of an object descriptor. Whatever the filename and the
directory of the document, `parseReaderByFilename` stores the filename it is
given. -/
theorem relative_filename_stored :
    parseElement_Pipeline extFactory [] [] (.arr [.str "in.ext", .str "out.ext"]) =
      .ok ([{ kind := .reader, type := "readers.ext",
              options := [{ name := "filename", value := "in.ext" }], inputs := [] },
            { kind := .writer, type := "writers.ext",
              options := [{ name := "filename", value := "out.ext" }], inputs := [0] }], true) ∧
    isAbsolutePath "in.ext" = false ∧
    parseElement_Pipeline extFactory [] []
        (.arr [.obj [("filename", .str "data/in.ext")], .str "out.ext"]) =
      .ok ([{ kind := .reader, type := "readers.ext",
              options := [{ name := "filename", value := "data/in.ext" }], inputs := [] },
            { kind := .writer, type := "writers.ext",
              options := [{ name := "filename", value := "out.ext" }], inputs := [0] }], true) ∧
    isAbsolutePath "data/in.ext" = false ∧
    (∀ (f : StageFactory) (base : Options) (m m1 : PipelineManager) (filename : String)
        (s : Nat), parseReaderByFilename f base m filename = .ok (m1, s) →
      ∃ stage, m1 = m ++ [stage] ∧
        stage.options = base ++ [{ name := "filename", value := filename }]) := by
  refine ⟨rfl, by decide, rfl, by decide, ?_⟩
  intro f base m m1 filename s h
  obtain ⟨-, -, -, hm⟩ := parseReaderByFilename_ok h
  exact ⟨_, hm, rfl⟩

/-- C28: an object descriptor with a non-empty `type` t at index i of n is
constructed by `addReader (t)` when i < n-1 and by `addWriter (t)` when
i = n-1, whatever t is; in a successful parse its stage has the driver name t
and that kind, and no stage the parse adds to the manager is constructed by
`addFilter`. -/
theorem typed_descriptor_construction (f : StageFactory) (base : Options)
    (m0 : PipelineManager) (items : List Json) (i : Nat) (node : Json) (t : String)
    (hi : items[i]? = some node) (ht : memberString node "type" = .ok t) (hne : t ≠ "") :
    (∀ (st : LoopState) (filename : String), st.i = i →
      constructStage f base items.length st t filename =
        if i < items.length - 1 then
          addReader f st.manager t >>= fun r => pure (r.1, some r.2, st.isWriter)
        else
          addWriter f st.manager t >>= fun r => pure (r.1, some r.2, true)) ∧
    (∀ m w, parseElement_Pipeline f base m0 (.arr items) = .ok (m, w) →
      (∃ stage, m[m0.length + i]? = some stage ∧ stage.type = t ∧
        stage.kind = (if i < items.length - 1 then .reader else .writer)) ∧
      (∀ k stage, m[m0.length + k]? = some stage → stage.kind ≠ .filter)) := by
  constructor
  · intro st filename hst
    subst hst
    unfold constructStage
    simp only [hne, ne_eq, not_false_eq_true, if_true]
  · intro m w h
    obtain ⟨st', hloop, hm, -⟩ := parseElement_Pipeline_ok h
    subst hm
    simp only [Json.size, Json.elements] at hloop
    constructor
    · obtain ⟨type, filename, opts, hstage, hcase⟩ :=
        parseLoop_stage m0 items st' hloop i node hi
      rcases hcase with ⟨hnode, -⟩ | ⟨-, htype, -⟩
      · subst hnode
        simp [memberString, Json.isMember, bind, Except.bind] at ht
      · rw [ht] at htype
        simp only [Except.ok.injEq] at htype
        subst htype
        refine ⟨_, hstage, ?_, rfl⟩
        simp [constructedStage, hne]
    · intro k stage hs
      obtain ⟨-, -, ⟨news, hnews, hlen⟩, -⟩ :=
        parseLoop_ok m0 items _ st' (loopInv_initial m0) hloop
      have hklt : k < items.length := by
        by_contra hge
        rw [List.getElem?_eq_none (by simp [hnews, initialState, hlen]; omega)] at hs
        exact absurd hs (by simp)
      obtain ⟨type, filename, opts, hstage, -⟩ :=
        parseLoop_stage m0 items st' hloop k _ (List.getElem?_eq_getElem hklt)
      rw [hs] at hstage
      simp only [Option.some.injEq] at hstage
      subst hstage
      simp only
      split_ifs <;> simp

/-- Witness of C28: the descriptor of type "filters.splitter" in the middle
of a three-descriptor pipeline is constructed as a reader. -/
theorem typed_descriptor_construction_witness :
    ∃ stage : Stage,
      ([{ kind := .reader, type := "readers.ext",
          options := [{ name := "filename", value := "in.ext" }], inputs := [] },
        { kind := .reader, type := "filters.splitter", options := [], inputs := [0] },
        { kind := .writer, type := "writers.ext",
          options := [{ name := "filename", value := "out.ext" }], inputs := [1] }] :
        PipelineManager)[([] : PipelineManager).length + 1]? = some stage ∧
      stage.type = "filters.splitter" ∧
      stage.kind = (if 1 < [Json.str "in.ext", .obj [("type", .str "filters.splitter")],
        .str "out.ext"].length - 1 then .reader else .writer) :=
  ((typed_descriptor_construction extFactory [] []
    [.str "in.ext", .obj [("type", .str "filters.splitter")], .str "out.ext"] 1
    (.obj [("type", .str "filters.splitter")]) "filters.splitter" rfl rfl (by decide)).2
    _ true rfl).1

end PipelineReaderJSON

namespace PdalLog

/-! ## The log -/

theorem linePrefix_ne_empty (log : Log) (level : LogLevel) : log.linePrefix level ≠ "" := by
  intro h
  have hd := congrArg String.data h
  unfold Log.linePrefix at hd
  simp [String.data_append] at hd

theorem append_ne_self (a b : String) (hb : b ≠ "") : a ++ b ≠ a := by
  intro h
  apply hb
  have hd := congrArg String.data h
  rw [String.data_append, List.append_right_eq_self] at hd
  exact String.ext hd

/-- C27: `get` of a message level l on a log of level s writes the leader
text to `*m_log` and returns `*m_log` when l <= s in the numeric order of the
levels, and returns the null stream with nothing written otherwise; so it
writes exactly when l <= s and, the two streams being different, returns
`*m_log` exactly when l <= s. Both constructors set the level Error. -/
theorem get_iff_level (log : Log) (level : LogLevel) :
    (toNative level ≤ toNative log.m_level →
      log.get level =
        ({ log with written := log.written ++ log.linePrefix level }, log.m_log)) ∧
    (¬ toNative level ≤ toNative log.m_level → log.get level = (log, log.m_nullStream)) ∧
    ((log.get level).1.written ≠ log.written ↔ toNative level ≤ toNative log.m_level) ∧
    (log.m_log ≠ log.m_nullStream →
      ((log.get level).2 = log.m_log ↔ toNative level ≤ toNative log.m_level)) ∧
    (∀ leaderString outputName, (Log.ofName leaderString outputName).m_level = .Error) ∧
    (∀ leaderString v, (Log.ofStream leaderString v).m_level = .Error) := by
  refine ⟨?_, ?_, ?_, ?_, ?_, ?_⟩
  · intro h
    simp [Log.get, h]
  · intro h
    simp [Log.get, h]
  · by_cases h : toNative level ≤ toNative log.m_level
    · simp only [Log.get, h, if_true, iff_true]
      exact append_ne_self _ _ (linePrefix_ne_empty log level)
    · simp [Log.get, h]
  · intro hne
    by_cases h : toNative level ≤ toNative log.m_level
    · simp [Log.get, h]
    · simp only [Log.get, h, if_false, iff_false]
      exact fun e => hne e.symm
  · intro leaderString outputName
    unfold Log.ofName
    simp only
    split_ifs <;> rfl
  · intro leaderString v
    rfl

end PdalLog

namespace OutlierFilter

/-! ## The outlier filters -/

theorem ascending_length_le (D : List Nat) :
    ∀ (a c : Nat), D.Pairwise (fun x y => x < y) → (∀ y ∈ D, a ≤ y ∧ y < a + c) →
      D.length ≤ c := by
  induction D with
  | nil => intro a c _ _; simp
  | cons y D ih =>
    intro a c hp hr
    rw [List.pairwise_cons] at hp
    have hy := hr y (List.mem_cons_self _ _)
    have h := ih (y + 1) (a + c - (y + 1)) hp.2 (fun z hz => by
      have h1 := hp.1 z hz
      have h2 := hr z (List.mem_cons_of_mem _ hz)
      omega)
    simp only [List.length_cons]
    omega

theorem getElem?_of_drop {L : List Nat} {j x : Nat} {D : List Nat}
    (h : L.drop j = x :: D) : L[j]? = some x ∧ L.drop (j + 1) = D ∧ j < L.length := by
  have h0 : (L.drop j)[0]? = some x := by rw [h]; simp
  rw [List.getElem?_drop] at h0
  have h1 : L.drop (j + 1) = D := by
    have := congrArg (List.drop 1) h
    rw [List.drop_drop] at this
    simpa using this
  refine ⟨by simpa using h0, h1, ?_⟩
  by_contra hge
  rw [List.drop_eq_nil_of_le (by omega)] at h
  cases h

/-- The complement loop from the point `i` on, `cnt` points to go, with the
retained indices `D` still to meet and `pre` written so far. -/
theorem scan_spec (L : List Nat) :
    ∀ (cnt i j : Nat) (pre : List Nat) (r : Nat) (D : List Nat),
      L.drop j = D → j ≤ L.length →
      D.Pairwise (fun x y => x < y) → (∀ x ∈ D, i ≤ x ∧ x < i + cnt) →
      (cnt ≠ 0 → D.getLast? = some (i + cnt - 1)) → cnt ≤ r + D.length →
      (List.range' i cnt).foldlM (scanStep L)
          { j := j, k := pre.length, outliers := pre ++ List.replicate r 0 } =
        .ok { j := L.length,
              k := pre.length + ((List.range' i cnt).filter (fun x => decide (x ∉ D))).length,
              outliers := pre ++ (List.range' i cnt).filter (fun x => decide (x ∉ D)) ++
                List.replicate
                  (r - ((List.range' i cnt).filter (fun x => decide (x ∉ D))).length) 0 } ∧
      ((List.range' i cnt).filter (fun x => decide (x ∉ D))).length + D.length = cnt := by
  intro cnt
  induction cnt with
  | zero =>
    intro i j pre r D hD hj _ hr _ _
    have hnil : D = [] := by
      cases D with
      | nil => rfl
      | cons x D =>
        have := hr x (List.mem_cons_self _ _)
        omega
    subst hnil
    have hlen : j = L.length := by
      have := List.drop_eq_nil_iff.1 hD
      omega
    subst hlen
    simp [List.foldlM, pure, Except.pure]
  | succ cnt ih =>
    intro i j pre r D hD hj hp hr hlast hroom
    have hlast' := hlast (Nat.succ_ne_zero cnt)
    cases D with
    | nil => simp at hlast'
    | cons x D' =>
      obtain ⟨hget, hdrop, hjlt⟩ := getElem?_of_drop hD
      rw [List.pairwise_cons] at hp
      have hx := hr x (List.mem_cons_self _ _)
      rw [List.range'_succ, List.foldlM_cons]
      by_cases hix : i = x
      · subst hix
        have hstep : scanStep L { j := j, k := pre.length, outliers := pre ++ List.replicate r 0 }
            i = .ok { j := j + 1, k := pre.length, outliers := pre ++ List.replicate r 0 } := by
          simp [scanStep, hget]
        rw [hstep]
        have hD'last : cnt ≠ 0 → D'.getLast? = some (i + 1 + cnt - 1) := by
          intro hc
          rw [List.getLast?_cons] at hlast'
          cases hl : D'.getLast? with
          | none =>
            rw [hl] at hlast'
            simp only [Option.getD_none, Option.some.injEq] at hlast'
            omega
          | some z =>
            rw [hl] at hlast'
            simp only [Option.getD_some, Option.some.injEq] at hlast'
            rw [hlast']
            congr 1
            omega
        obtain ⟨hres, hcount⟩ := ih (i + 1) (j + 1) pre r D' hdrop (by omega) hp.2
          (fun z hz => by
            have h1 := hp.1 z hz
            have h2 := hr z (List.mem_cons_of_mem _ hz)
            omega)
          hD'last (by simp only [List.length_cons] at hroom; omega)
        have hfilter : (i :: List.range' (i + 1) cnt).filter (fun x => decide (x ∉ i :: D')) =
            (List.range' (i + 1) cnt).filter (fun x => decide (x ∉ D')) := by
          rw [List.filter_cons_of_neg (by simp)]
          apply List.filter_congr
          intro z hz
          rw [List.mem_range'_1] at hz
          have hne : z ≠ i := by omega
          simp [hne]
        rw [hfilter]
        refine ⟨hres, ?_⟩
        simp only [List.length_cons]
        omega
      · have hlt : i < x := by omega
        have hDlen : (x :: D').length ≤ cnt := by
          apply ascending_length_le (x :: D') (i + 1) cnt (List.pairwise_cons.2 hp)
          intro z hz
          rcases List.mem_cons.1 hz with rfl | hz'
          · omega
          · have h1 := hp.1 z hz'
            have h2 := hr z hz
            omega
        obtain ⟨r', hr'⟩ : ∃ r', r = r' + 1 := ⟨r - 1, by omega⟩
        subst hr'
        have hstep : scanStep L
            { j := j, k := pre.length, outliers := pre ++ List.replicate (r' + 1) 0 } i =
            .ok { j := j, k := (pre ++ [i]).length,
                  outliers := (pre ++ [i]) ++ List.replicate r' 0 } := by
          simp [scanStep, hget, hix, List.replicate_succ]
        rw [hstep]
        have hnotin : i ∉ x :: D' := by
          intro hmem
          rcases List.mem_cons.1 hmem with h | h
          · exact hix h
          · have := hp.1 i h
            omega
        obtain ⟨hres, hcount⟩ := ih (i + 1) j (pre ++ [i]) r' (x :: D') hD hj
          (List.pairwise_cons.2 hp)
          (fun z hz => by
            rcases List.mem_cons.1 hz with rfl | hz'
            · omega
            · have h1 := hp.1 z hz'
              have h2 := hr z hz
              omega)
          (fun _ => by rw [hlast']; congr 1; omega)
          (by omega)
        have hfilter : (i :: List.range' (i + 1) cnt).filter (fun y => decide (y ∉ x :: D')) =
            i :: (List.range' (i + 1) cnt).filter (fun y => decide (y ∉ x :: D')) := by
          rw [List.filter_cons_of_pos (by simpa using hnotin)]
        rw [hfilter]
        generalize (List.range' (i + 1) cnt).filter (fun y => decide (y ∉ x :: D')) = F
          at hres hcount
        constructor
        · refine Eq.trans hres ?_
          have e1 : (pre ++ [i]).length + F.length = pre.length + (i :: F).length := by
            simp only [List.length_append, List.length_cons, List.length_nil]
            omega
          have e2 : pre ++ [i] ++ F = pre ++ i :: F := by simp
          have e3 : r' - F.length = r' + 1 - (i :: F).length := by
            simp only [List.length_cons]
            omega
          rw [e1, e2, e3]
        · simp only [List.length_cons] at hcount ⊢
          omega

end OutlierFilter

namespace OutlierFilter

/-- The vector `outliers` when the retained indices are strictly ascending,
below `n`, and end with `n - 1`: the ascending complement. -/
theorem computeOutliers_eq (n : Nat) (L : List Nat)
    (hp : L.Pairwise (fun x y => x < y)) (hr : ∀ x ∈ L, x < n)
    (hlast : L.getLast? = some (n - 1)) :
    computeOutliers n L = .ok ((List.range n).filter (fun x => decide (x ∉ L))) ∧
    ((List.range n).filter (fun x => decide (x ∉ L))).length + L.length = n := by
  have hlen : L.length ≤ n := by
    have := ascending_length_le L 0 n hp (fun y hy => by have := hr y hy; omega)
    exact this
  obtain ⟨hres, hcount⟩ := scan_spec L n 0 0 [] (n - L.length) L rfl (Nat.zero_le _) hp
    (fun x hx => by have := hr x hx; omega)
    (fun _ => by rw [hlast]; congr 1; omega) (by omega)
  rw [← List.range_eq_range'] at hres hcount
  refine ⟨?_, hcount⟩
  unfold computeOutliers
  simp only [List.length_nil, List.nil_append] at hres
  rw [hres]
  have h0 : n - L.length - ((List.range n).filter (fun x => decide (x ∉ L))).length = 0 := by
    omega
  rw [h0]
  simp [bind, Except.bind, pure, Except.pure]

theorem classifyOutliers_length (outliers : List Nat) :
    ∀ cls : List Nat, (classifyOutliers cls outliers).length = cls.length := by
  induction outliers with
  | nil => intro cls; rfl
  | cons o outliers ih =>
    intro cls
    simp only [classifyOutliers, List.foldl_cons] at ih ⊢
    rw [ih]
    simp

theorem classifyOutliers_getElem? (outliers : List Nat) :
    ∀ (cls : List Nat) (i : Nat), i < cls.length →
      (classifyOutliers cls outliers)[i]? = if i ∈ outliers then some 18 else cls[i]? := by
  induction outliers with
  | nil => intro cls i _; simp [classifyOutliers]
  | cons o outliers ih =>
    intro cls i hi
    simp only [classifyOutliers, List.foldl_cons] at ih ⊢
    rw [ih (cls.set o 18) i (by simpa using hi)]
    by_cases h1 : i ∈ outliers
    · simp [h1]
    · by_cases h2 : i = o
      · subst h2
        simp [h1, List.getElem?_set_self hi]
      · have h3 : o ≠ i := fun e => h2 e.symm
        simp [h1, h2, List.getElem?_set_ne h3]

theorem run_of_outliers (flt : Filter) (cls inliers outliers : List Nat)
    (hne : inliers ≠ []) (ho : computeOutliers cls.length inliers = .ok outliers) :
    run flt cls inliers =
      if !outliers.isEmpty && (flt.m_classify || flt.m_extract) then
        .ok (if flt.m_classify then classifyOutliers cls outliers else cls,
             if flt.m_extract then [View.made inliers]
             else if flt.m_classify then [View.input] else [])
      else .ok (cls, [View.input]) := by
  unfold run
  have hemp : inliers.isEmpty = false := by
    cases inliers with
    | nil => exact absurd rfl hne
    | cons a l => rfl
  simp only [hemp, Bool.false_eq_true, if_false, ho, bind, Except.bind]
  obtain ⟨c, e⟩ := flt
  cases c <;> cases e <;> cases h : outliers.isEmpty <;>
    simp [h, pure, Except.pure, insertView, eraseView]

/-- C23: `run` returns the set of the input view alone, no Classification
changed, when the list of retained indices is empty, when it holds every
point, and, with neither `classify` nor `extract` set, whenever the
complement loop comes to its end. At the failing input of three points of
which only the point 0 is retained, neither flag set, the complement loop
reads `inliers->indices[1]`, past the end of the list, before the branch that
returns the input. -/
theorem input_returned_unchanged :
    (∀ (flt : Filter) (cls : List Nat), run flt cls [] = .ok (cls, [.input])) ∧
    (∀ (flt : Filter) (cls : List Nat),
      run flt cls (List.range cls.length) = .ok (cls, [.input])) ∧
    (∀ (cls inliers outliers : List Nat),
      computeOutliers cls.length inliers = .ok outliers →
      run ⟨false, false⟩ cls inliers = .ok (cls, [.input])) ∧
    run ⟨false, false⟩ [2, 2, 2] [0] = .error .indexOutOfRange := by
  refine ⟨fun flt cls => rfl, ?_, ?_, rfl⟩
  · intro flt cls
    cases hc : cls with
    | nil => rfl
    | cons a l =>
      rw [← hc]
      have hn : cls.length ≠ 0 := by simp [hc]
      obtain ⟨hres, hcount⟩ := computeOutliers_eq cls.length (List.range cls.length)
        (List.pairwise_lt_range _) (fun x hx => List.mem_range.1 hx)
        (by rw [List.getLast?_range]; simp [hn])
      have hnil : (List.range cls.length).filter
          (fun x => decide (x ∉ List.range cls.length)) = [] := by
        apply List.length_eq_zero.1
        simp only [List.length_range] at hcount
        omega
      rw [hnil] at hres
      rw [run_of_outliers flt cls _ [] (by simp [hc, List.range_succ]) hres]
      simp
  · intro cls inliers outliers ho
    by_cases hne : inliers = []
    · subst hne
      rfl
    · rw [run_of_outliers _ cls inliers outliers hne ho]
      simp

/-- C24: when the retained indices are strictly ascending, below n, omit a
point and end with the last point n - 1, `run` with `classify` set and
`extract` unset computes the ascending complement as outliers, sets
Classification 18 on exactly the points that are not retained, leaves the
others as they were and returns the set of the input view alone. At the
failing input of three points of which only the point 0 is retained, the
complement loop reads `inliers->indices[1]`, past the end of the list. -/
theorem classify_marks_outliers :
    (∀ (cls inliers : List Nat), inliers.Pairwise (fun x y => x < y) →
      (∀ x ∈ inliers, x < cls.length) → inliers.getLast? = some (cls.length - 1) →
      inliers.length < cls.length →
      computeOutliers cls.length inliers =
        .ok ((List.range cls.length).filter (fun x => decide (x ∉ inliers))) ∧
      ∃ cls', run ⟨true, false⟩ cls inliers = .ok (cls', [.input]) ∧
        cls'.length = cls.length ∧
        ∀ i, i < cls.length →
          (i ∉ inliers → cls'[i]? = some 18) ∧ (i ∈ inliers → cls'[i]? = cls[i]?)) ∧
    run ⟨true, false⟩ [2, 2, 2] [0] = .error .indexOutOfRange := by
  refine ⟨?_, rfl⟩
  intro cls inliers hp hr hlast hlt
  obtain ⟨hres, hcount⟩ := computeOutliers_eq cls.length inliers hp hr hlast
  have hne : inliers ≠ [] := by
    intro h
    subst h
    simp at hlast
  have hmem : ∀ i, i ∈ (List.range cls.length).filter (fun x => decide (x ∉ inliers)) ↔
      i < cls.length ∧ i ∉ inliers := by
    intro i
    simp [List.mem_filter]
  generalize (List.range cls.length).filter (fun x => decide (x ∉ inliers)) = F
    at hres hcount hmem ⊢
  have hnonempty : F.isEmpty = false := by
    cases F with
    | nil =>
      simp only [List.length_nil] at hcount
      omega
    | cons a l => rfl
  refine ⟨hres, classifyOutliers cls F, ?_, classifyOutliers_length _ _, ?_⟩
  · rw [run_of_outliers _ cls inliers F hne hres, hnonempty]
    rfl
  · intro i hi
    rw [classifyOutliers_getElem? _ cls i hi]
    constructor
    · intro hnot
      rw [if_pos ((hmem i).2 ⟨hi, hnot⟩)]
    · intro hin
      rw [if_neg (fun h => ((hmem i).1 h).2 hin)]

/-- C25: when the retained indices are strictly ascending, below n, omit a
point and end with the last point n - 1, `run` with `extract` set, `classify`
set or not, returns a set of one member, a new view holding the retained
points in the order of the list; the input view is not in the set. At the
failing input of three points of which only the point 0 is retained, the
complement loop reads `inliers->indices[1]`, past the end of the list. -/
theorem extract_returns_inliers :
    (∀ (classify : Bool) (cls inliers : List Nat), inliers.Pairwise (fun x y => x < y) →
      (∀ x ∈ inliers, x < cls.length) → inliers.getLast? = some (cls.length - 1) →
      inliers.length < cls.length →
      ∃ cls', run ⟨classify, true⟩ cls inliers = .ok (cls', [.made inliers]) ∧
        View.input ∉ [View.made inliers] ∧ (classify = false → cls' = cls)) ∧
    run ⟨false, true⟩ [2, 2, 2] [0] = .error .indexOutOfRange ∧
    run ⟨true, true⟩ [2, 2, 2] [0] = .error .indexOutOfRange := by
  refine ⟨?_, rfl, rfl⟩
  intro classify cls inliers hp hr hlast hlt
  obtain ⟨hres, hcount⟩ := computeOutliers_eq cls.length inliers hp hr hlast
  have hne : inliers ≠ [] := by
    intro h
    subst h
    simp at hlast
  generalize (List.range cls.length).filter (fun x => decide (x ∉ inliers)) = F
    at hres hcount
  have hnonempty : F.isEmpty = false := by
    cases F with
    | nil =>
      simp only [List.length_nil] at hcount
      omega
    | cons a l => rfl
  refine ⟨if classify then classifyOutliers cls F else cls, ?_, by simp, ?_⟩
  · rw [run_of_outliers _ cls inliers F hne hres, hnonempty]
    cases classify <;> rfl
  · intro hc
    rw [hc]
    rfl

/-- Witness of C23: three points of which the points 0 and 2 are retained,
neither flag set; the complement loop ends with the outliers [1] and the
input view is returned as it was. -/
theorem input_returned_unchanged_witness :
    run ⟨false, false⟩ [2, 2, 2] [0, 2] = .ok ([2, 2, 2], [.input]) :=
  input_returned_unchanged.2.2.1 [2, 2, 2] [0, 2] [1] rfl

/-- Witness of C24: three points of which the points 0 and 2 are retained. -/
theorem classify_marks_outliers_witness :
    computeOutliers 3 [0, 2] = .ok ((List.range 3).filter (fun x => decide (x ∉ [0, 2]))) ∧
    ∃ cls', run ⟨true, false⟩ [2, 2, 2] [0, 2] = .ok (cls', [.input]) ∧
      cls'.length = 3 ∧
      ∀ i, i < 3 →
        (i ∉ [0, 2] → cls'[i]? = some 18) ∧ (i ∈ [0, 2] → cls'[i]? = [2, 2, 2][i]?) :=
  classify_marks_outliers.1 [2, 2, 2] [0, 2] (by decide) (by decide) rfl (by decide)

/-- Witness of C25: four points of which the points 1 and 3 are retained,
both flags set. -/
theorem extract_returns_inliers_witness :
    ∃ cls', run ⟨true, true⟩ [2, 2, 2, 2] [1, 3] = .ok (cls', [.made [1, 3]]) ∧
      View.input ∉ [View.made [1, 3]] ∧ (true = false → cls' = [2, 2, 2, 2]) :=
  extract_returns_inliers.1 true [2, 2, 2, 2] [1, 3] (by decide) (by decide) rfl (by decide)

end OutlierFilter

namespace OutlierFilter

/-! ## The bounds of the accesses of the complement loop -/

theorem accesses_cons (L : List Nat) (s : Scan) (i : Nat) (rest : List Nat) :
    accesses L s (i :: rest) =
      stepAccesses L s i ++
        match scanStep L s i with
        | .ok s' => accesses L s' rest
        | .error _ => [] := rfl

/-- The accesses of the complement loop from the point `i` on, `cnt` points
to go, with the retained indices `D` still to meet: every write is within
`outliers`, and every read is within `indices` exactly when the last point is
still to meet. -/
theorem accesses_spec (L : List Nat) (n : Nat) :
    ∀ (cnt i : Nat) (s : Scan) (D : List Nat),
      i + cnt = n → L.drop s.j = D →
      D.Pairwise (fun x y => x < y) → (∀ x ∈ D, i ≤ x ∧ x < n) →
      s.k + s.j = i → s.outliers.length = n - L.length →
      (∀ k, Access.write k ∈ accesses L s (List.range' i cnt) → k < n - L.length) ∧
      ((∀ j, Access.read j ∈ accesses L s (List.range' i cnt) → j < L.length) ↔
        (cnt = 0 ∨ n - 1 ∈ D)) := by
  intro cnt
  induction cnt with
  | zero =>
    intro i s D _ _ _ _ _ _
    simp [accesses]
  | succ c ih =>
    intro i s D hn hdrop hp hr hkj hlen
    rw [List.range'_succ, accesses_cons]
    cases hD : D with
    | nil =>
      rw [hD] at hdrop
      have hge : L.length ≤ s.j := List.drop_eq_nil_iff.1 hdrop
      have hnone : L[s.j]? = none := List.getElem?_eq_none hge
      simp only [stepAccesses, scanStep, hnone, List.append_nil]
      constructor
      · intro k hk
        simp at hk
      · constructor
        · intro h
          have := h s.j (by simp)
          omega
        · intro h
          simp at h
    | cons x D' =>
      rw [hD] at hdrop hp hr
      obtain ⟨hget, hdrop', hjlt⟩ := getElem?_of_drop hdrop
      rw [List.pairwise_cons] at hp
      have hx := hr x (List.mem_cons_self _ _)
      by_cases hix : i = x
      · have hr' : ∀ y ∈ D', i + 1 ≤ y ∧ y < n := by
          intro y hy
          have h1 := hp.1 y hy
          have h2 := hr y (List.mem_cons_of_mem _ hy)
          omega
        obtain ⟨hw, hrd⟩ := ih (i + 1) { s with j := s.j + 1 } D' (by omega) hdrop' hp.2 hr'
          (by simp only; omega) hlen
        simp only [stepAccesses, scanStep, hget, hix, if_true, List.singleton_append]
        rw [← hix]
        constructor
        · intro k hk
          simp only [List.mem_cons] at hk
          rcases hk with hk | hk
          · cases hk
          · exact hw k hk
        · constructor
          · intro h
            have h' := hrd.1 (fun j hj => h j (List.mem_cons_of_mem _ hj))
            rcases h' with h' | h'
            · right
              rw [List.mem_cons]
              left
              omega
            · right
              exact List.mem_cons_of_mem _ h'
          · intro h j hj
            simp only [List.mem_cons] at hj
            rcases hj with hj | hj
            · cases hj
              exact hjlt
            · refine hrd.2 ?_ j hj
              rcases h with h | h
              · omega
              · rw [List.mem_cons] at h
                rcases h with h | h
                · left
                  omega
                · right
                  exact h
      · have hr' : ∀ y ∈ x :: D', i + 1 ≤ y ∧ y < n := by
          intro y hy
          rw [List.mem_cons] at hy
          rcases hy with hy | hy
          · omega
          · have h1 := hp.1 y hy
            have h2 := hr y (List.mem_cons_of_mem _ hy)
            omega
        have hDlen : (x :: D').length ≤ n - (i + 1) :=
          ascending_length_le (x :: D') (i + 1) (n - (i + 1)) (List.pairwise_cons.2 hp)
            (fun y hy => by have := hr' y hy; omega)
        have hLlen : L.length = s.j + (x :: D').length := by
          rw [← hdrop, List.length_drop]
          omega
        have hk : s.k < s.outliers.length := by
          rw [hlen]
          omega
        obtain ⟨hw, hrd⟩ := ih (i + 1)
          { s with k := s.k + 1, outliers := s.outliers.set s.k i } (x :: D') (by omega) hdrop
          (List.pairwise_cons.2 hp) hr' (by simp only; omega)
          (by simp only [List.length_set]; exact hlen)
        simp only [stepAccesses, scanStep, hget, hix, if_false, hk, if_true, List.cons_append,
          List.nil_append]
        constructor
        · intro k hk'
          simp only [List.mem_cons] at hk'
          rcases hk' with hk' | hk' | hk'
          · cases hk'
          · cases hk'
            omega
          · exact hw k hk'
        · constructor
          · intro h
            have h' := hrd.1 (fun j hj =>
              h j (List.mem_cons_of_mem _ (List.mem_cons_of_mem _ hj)))
            rcases h' with h' | h'
            · omega
            · right
              exact h'
          · intro h j hj
            simp only [List.mem_cons] at hj
            rcases hj with hj | hj | hj
            · cases hj
              exact hjlt
            · cases hj
            · refine hrd.2 ?_ j hj
              rcases h with h | h
              · omega
              · right
                exact h

/-- C31: for a non-empty, strictly ascending list of retained indices below
n, every write `outliers[k]` of the complement loop has k below n minus the
length of the list, and every read `inliers->indices[j]` has j below the
length exactly when the last point, n - 1, is retained. At three points of
which only the point 0 is retained the loop reads position 0 and then
position 1 of a list of length 1, and `computeOutliers` ends out of range. -/
theorem complement_loop_bounds :
    (∀ (n : Nat) (L : List Nat), L ≠ [] → L.Pairwise (fun x y => x < y) →
      (∀ x ∈ L, x < n) →
      (∀ k, Access.write k ∈ loopAccesses n L → k < n - L.length) ∧
      ((∀ j, Access.read j ∈ loopAccesses n L → j < L.length) ↔ n - 1 ∈ L)) ∧
    loopAccesses 3 [0] = [.read 0, .read 1] ∧
    computeOutliers 3 [0] = .error .indexOutOfRange := by
  refine ⟨?_, rfl, rfl⟩
  intro n L hne hp hr
  have hn : n ≠ 0 := by
    cases L with
    | nil => exact absurd rfl hne
    | cons a l =>
      have := hr a (List.mem_cons_self _ _)
      omega
  obtain ⟨hw, hrd⟩ := accesses_spec L n n 0
    { j := 0, k := 0, outliers := List.replicate (n - L.length) 0 } L (by omega) rfl hp
    (fun x hx => ⟨Nat.zero_le _, hr x hx⟩) rfl (by simp)
  rw [← List.range_eq_range'] at hw hrd
  refine ⟨hw, hrd.trans ?_⟩
  constructor
  · intro h
    rcases h with h | h
    · exact absurd h hn
    · exact h
  · intro h
    exact Or.inr h

/-- Witness of C31: three points of which the points 0 and 2 are retained;
the last point is retained and every access is within bounds. -/
theorem complement_loop_bounds_witness :
    (∀ k, Access.write k ∈ loopAccesses 3 [0, 2] → k < 3 - [0, 2].length) ∧
    ((∀ j, Access.read j ∈ loopAccesses 3 [0, 2] → j < [0, 2].length) ↔ 3 - 1 ∈ [0, 2]) :=
  complement_loop_bounds.1 3 [0, 2] (by decide) (by decide) (by decide)

end OutlierFilter

namespace PipelineReaderJSON

/-! ## The value returned and the `filename` option -/

theorem collectOptions_fold_filename (node : Json) (names : List String) :
    ∀ (acc r : Options),
      names.foldlM
        (fun (options : Options) kate =>
          if kate = "filename" then (pure options : Except Failure Options)
          else if kate = "type" then pure options
          else if kate = "inputs" then pure options
          else if kate = "tag" then pure options
          else do
            let value ← (← node.get kate).asString
            pure (options ++ [{ name := kate, value := value }]))
        acc = .ok r →
      ∀ o ∈ r, o.name = "filename" → o ∈ acc := by
  induction names with
  | nil =>
    intro acc r h o ho _
    simp only [List.foldlM, pure, Except.pure, Except.ok.injEq] at h
    rw [h]
    exact ho
  | cons k names ih =>
    intro acc r h o ho hname
    simp only [List.foldlM, bind_eq_ok] at h
    obtain ⟨acc', hstep, hrest⟩ := h
    have ho' := ih acc' r hrest o ho hname
    by_cases e1 : k = "filename"
    · simp only [e1, if_true, pure, Except.pure, Except.ok.injEq] at hstep
      rw [hstep]
      exact ho'
    · by_cases e2 : k = "type"
      · simp [e2, pure, Except.pure] at hstep
        rw [hstep]
        exact ho'
      · by_cases e3 : k = "inputs"
        · simp [e3, pure, Except.pure] at hstep
          rw [hstep]
          exact ho'
        · by_cases e4 : k = "tag"
          · simp [e4, pure, Except.pure] at hstep
            rw [hstep]
            exact ho'
          · simp only [e1, e2, e3, e4, if_false, bind_eq_ok, pure, Except.pure,
              Except.ok.injEq] at hstep
            obtain ⟨jv, -, value, -, hacc⟩ := hstep
            rw [← hacc, List.mem_append, List.mem_singleton] at ho'
            rcases ho' with ho' | ho'
            · exact ho'
            · rw [ho'] at hname
              exact absurd hname e1

/-- No option the member loop (lines 458-473) adds is named `filename`. -/
theorem collectOptions_filename {base : Options} {node : Json} {opts : Options}
    (h : collectOptions base node = .ok opts) :
    ∀ o ∈ opts, o.name = "filename" → o ∈ base := by
  unfold collectOptions at h
  simp only [bind_eq_ok] at h
  obtain ⟨names, -, hfold⟩ := h
  exact collectOptions_fold_filename node names base opts hfold

theorem baseOptions_filename (isDebug : Bool) (verboseLevel : Nat) :
    ∀ o ∈ baseOptions isDebug verboseLevel, o.name ≠ "filename" := by
  intro o ho
  unfold baseOptions at ho
  rw [List.mem_append] at ho
  rcases ho with ho | ho
  · cases isDebug with
    | false => simp at ho
    | true =>
      simp at ho
      rw [ho]
      decide
  · by_cases hv : verboseLevel = 0
    · simp [hv] at ho
    · simp [hv] at ho
      rw [ho]
      show "verbose" ≠ "filename"
      decide

/-- The value of `isWriter` and the last stage after the loop over a document
that is not empty. -/
theorem parseLoop_last {f : StageFactory} {base : Options} (m0 : PipelineManager)
    (items : List Json) (st' : LoopState) (hne : items ≠ [])
    (h : parseLoop f base items.length (initialState m0) items = .ok st') :
    st'.isWriter = true ∧ st'.manager.length = m0.length + items.length ∧
    ∃ stage, st'.manager[m0.length + (items.length - 1)]? = some stage ∧
      stage.kind = .writer := by
  have hpos : 0 < items.length := List.length_pos.2 hne
  have hk : items[items.length - 1]? = some (items.get ⟨items.length - 1, by omega⟩) :=
    List.getElem?_eq_getElem _
  obtain ⟨-, -, ⟨news, hnews, hlen⟩, hall⟩ :=
    parseLoop_ok m0 items _ st' (loopInv_initial m0) h
  obtain ⟨stk, stk', hinvk, hik, -, hnode, hdrop, -⟩ := hall _ _ hk
  have hik' : stk.i = items.length - 1 := by simpa [initialState] using hik
  obtain ⟨type, filename, opts, tags', hst, -⟩ := parseNode_ok m0 hinvk hnode
  have hnil : items.drop (items.length - 1 + 1) = [] := List.drop_eq_nil_of_le (by omega)
  rw [hnil] at hdrop
  simp only [parseLoop, Except.ok.injEq] at hdrop
  refine ⟨?_, ?_, ?_⟩
  · rw [← hdrop, hst]
    simp [hik']
  · rw [hnews]
    simp [initialState, hlen]
  · obtain ⟨type, filename, opts, hstage, -⟩ := parseLoop_stage m0 items st' h _ _ hk
    refine ⟨_, hstage, ?_⟩
    simp

/-- C33: a successful `parseElement_Pipeline` on an array returns true
exactly when the array is not empty; then the manager has one more stage for
each descriptor and the stage of the last descriptor is a writer; on the
empty array it returns false and the manager is as it was; `readPipeline` on
a document whose `pipeline` member is that array returns the same. -/
theorem result_iff_nonempty (f : StageFactory) (base : Options) (m0 : PipelineManager)
    (items : List Json) (m : PipelineManager) (w : Bool)
    (h : parseElement_Pipeline f base m0 (.arr items) = .ok (m, w)) :
    (w = true ↔ items ≠ []) ∧
    (items ≠ [] → m.length = m0.length + items.length ∧
      ∃ stage, m[m0.length + (items.length - 1)]? = some stage ∧ stage.kind = .writer) ∧
    (items = [] → m = m0 ∧ w = false) ∧
    (∀ root : Json, root.get "pipeline" = .ok (.arr items) →
      readPipeline f base m0 (some root) = .ok (m, w)) := by
  obtain ⟨st', hloop, hm, hw⟩ := parseElement_Pipeline_ok h
  simp only [Json.size, Json.elements] at hloop
  have hempty : items = [] → m = m0 ∧ w = false := by
    intro he
    subst he
    simp only [parseLoop, Except.ok.injEq] at hloop
    rw [hm, hw, ← hloop]
    exact ⟨rfl, rfl⟩
  refine ⟨?_, ?_, hempty, ?_⟩
  · constructor
    · intro hwt he
      rw [(hempty he).2] at hwt
      cases hwt
    · intro hne
      rw [hw]
      exact (parseLoop_last m0 items st' hne hloop).1
  · intro hne
    rw [hm]
    exact (parseLoop_last m0 items st' hne hloop).2
  · intro root hroot
    unfold readPipeline
    simp only [hroot, bind, Except.bind, Json.isNull, Bool.false_eq_true, if_false]
    exact h

/-- Witness of C33: the document ["in.ext", "out.ext"]. -/
theorem result_iff_nonempty_witness :
    (true = true ↔ [Json.str "in.ext", .str "out.ext"] ≠ []) ∧
    readPipeline extFactory [] []
        (some (.obj [("pipeline", .arr [.str "in.ext", .str "out.ext"])])) =
      .ok ([{ kind := .reader, type := "readers.ext",
              options := [{ name := "filename", value := "in.ext" }], inputs := [] },
            { kind := .writer, type := "writers.ext",
              options := [{ name := "filename", value := "out.ext" }], inputs := [0] }], true) :=
  ⟨(result_iff_nonempty extFactory [] [] [.str "in.ext", .str "out.ext"] _ true rfl).1,
   (result_iff_nonempty extFactory [] [] [.str "in.ext", .str "out.ext"] _ true rfl).2.2.2
     (.obj [("pipeline", .arr [.str "in.ext", .str "out.ext"])]) rfl⟩

end PipelineReaderJSON

namespace PipelineReaderJSON

/-- C32 as stated fails: with a registry whose reader inference recognises
no filename, no call of `parseReaderByFilename` returns; the document of an
object descriptor with the type "readers.las" and the filename "out.ext" is
parsed all the same, and its writer, made by `parseWriterByFilename`, holds
the option `filename` that the registry gave among the option changes of
"out.ext". -/
theorem filename_option_from_writer_inference :
    ¬ (∀ m w, parseElement_Pipeline { extFactory with inferReaderDriver := fun _ => "" } [] []
          (.arr [.obj [("type", .str "readers.las")], .str "out.ext"]) = .ok (m, w) →
        ∀ stage ∈ m, ∀ o ∈ stage.options, o.name = "filename" →
          ∃ filename m1 m2 s,
            parseReaderByFilename { extFactory with inferReaderDriver := fun _ => "" } []
              m1 filename = .ok (m2, s)) := by
  intro hall
  obtain ⟨filename, m1, m2, s, hcall⟩ := hall
    [{ kind := .reader, type := "readers.las", options := [], inputs := [] },
     { kind := .writer, type := "writers.ext",
       options := [{ name := "filename", value := "out.ext" }], inputs := [0] }]
    true rfl
    { kind := .writer, type := "writers.ext",
      options := [{ name := "filename", value := "out.ext" }], inputs := [0] }
    (by simp) { name := "filename", value := "out.ext" } (by simp) rfl
  obtain ⟨hne, -⟩ := parseReaderByFilename_ok hcall
  exact hne rfl

/-- C32, amended: for a non-empty `type` the stage is constructed from the
type alone, whatever the filename and the inference of the registry; in a
successful parse the stage of a typed object descriptor has that type and no
option named `filename` other than one of the base options; and an option
named `filename` that is not a base option is on a stage whose driver was
inferred from the filename of its descriptor: set to that filename by
`parseReaderByFilename` before the last position, or one of the option
changes the registry inferred in `parseWriterByFilename` at the last. The
base options of the reader hold no `filename`. -/
theorem filename_option_paths (f : StageFactory) (base : Options) (m0 : PipelineManager)
    (items : List Json) (m : PipelineManager) (w : Bool)
    (h : parseElement_Pipeline f base m0 (.arr items) = .ok (m, w)) :
    (∀ (g : StageFactory) (n : Nat) (st : LoopState) (t filename other : String),
      g.createStage = f.createStage → t ≠ "" →
      constructStage f base n st t filename = constructStage g base n st t other) ∧
    (∀ (i : Nat) (members : List (String × Json)), items[i]? = some (.obj members) →
      memberText members "type" ≠ "" →
      ∃ stage, m[m0.length + i]? = some stage ∧ stage.type = memberText members "type" ∧
        ∀ o ∈ stage.options, o.name = "filename" → o ∈ base) ∧
    (∀ (i : Nat) (node : Json) (stage : Stage) (o : StageOption), items[i]? = some node →
      m[m0.length + i]? = some stage → o ∈ stage.options → o.name = "filename" →
      o ∈ base ∨
      ∃ filename,
        (node = .str filename ∨
          (node.isString = false ∧ memberString node "type" = .ok "" ∧
            memberString node "filename" = .ok filename)) ∧
        ((i < items.length - 1 ∧ stage.type = f.inferReaderDriver filename ∧
            o = { name := "filename", value := filename }) ∨
          (i = items.length - 1 ∧ stage.type = f.inferWriterDriver filename ∧
            o ∈ f.inferWriterOptionsChanges filename))) ∧
    (∀ (isDebug : Bool) (verboseLevel : Nat), ∀ o ∈ baseOptions isDebug verboseLevel,
      o.name ≠ "filename") := by
  obtain ⟨st', hloop, hm, -⟩ := parseElement_Pipeline_ok h
  subst hm
  simp only [Json.size, Json.elements] at hloop
  refine ⟨?_, ?_, ?_, baseOptions_filename⟩
  · intro g n st t filename other hg ht
    unfold constructStage
    simp only [ht, ne_eq, not_false_eq_true, if_true, addReader, addWriter, hg]
  · intro i members hi ht
    obtain ⟨type, filename, opts, hstage, hcase⟩ :=
      parseLoop_stage m0 items st' hloop i (.obj members) hi
    rcases hcase with ⟨hnode, -⟩ | ⟨-, htype, -, hopts, -⟩
    · cases hnode
    · have e1 := memberString_obj_ok htype
      subst e1
      refine ⟨_, hstage, ?_, ?_⟩
      · simp [constructedStage, ht]
      · intro o ho hname
        simp only [constructedStage, ht, ne_eq, not_false_eq_true, if_true,
          List.nil_append] at ho
        exact collectOptions_filename hopts o ho hname
  · intro i node stage o hi hs ho hname
    have hilt : i < items.length := by
      by_contra hge
      rw [List.getElem?_eq_none (by omega)] at hi
      cases hi
    obtain ⟨type, filename, opts, hstage, hcase⟩ :=
      parseLoop_stage m0 items st' hloop i node hi
    rw [hs] at hstage
    simp only [Option.some.injEq] at hstage
    subst hstage
    simp only [List.mem_append] at ho
    have key : type = "" → o ∈ (constructedStage f base items.length i type filename).options →
        o ∈ base ∨
        ((i < items.length - 1 ∧
            (constructedStage f base items.length i type filename).type =
              f.inferReaderDriver filename ∧
            o = { name := "filename", value := filename }) ∨
          (i = items.length - 1 ∧
            (constructedStage f base items.length i type filename).type =
              f.inferWriterDriver filename ∧
            o ∈ f.inferWriterOptionsChanges filename)) := by
      intro ht hc
      subst ht
      by_cases hlt : i < items.length - 1
      · simp only [constructedStage, ne_eq, not_true_eq_false, if_false, hlt, if_true,
          List.mem_append, List.mem_singleton] at hc
        rcases hc with hc | hc
        · exact Or.inl hc
        · exact Or.inr (Or.inl ⟨hlt, by simp [constructedStage, hlt], hc⟩)
      · simp only [constructedStage, ne_eq, not_true_eq_false, if_false, hlt,
          List.mem_append] at hc
        rcases hc with hc | hc
        · exact Or.inl hc
        · exact Or.inr (Or.inr ⟨by omega, by simp [constructedStage, hlt], hc⟩)
    rcases hcase with ⟨hnode, htype, hopts, -⟩ | ⟨hstr, htype, hfile, hopts, hres⟩
    · subst hopts
      rcases ho with ho | ho
      · rcases key htype ho with hb | hp
        · exact Or.inl hb
        · exact Or.inr ⟨filename, Or.inl hnode, hp⟩
      · cases ho
    · rcases ho with ho | ho
      · rcases hres with ⟨hne, -⟩ | ⟨hte, -, -⟩
        · simp [constructedStage, hne] at ho
        · rcases key hte ho with hb | hp
          · exact Or.inl hb
          · rw [hte] at htype
            exact Or.inr ⟨filename, Or.inr ⟨hstr, htype, hfile⟩, hp⟩
      · exact Or.inl (collectOptions_filename hopts o ho hname)

/-- Witness of C32: a descriptor with the type "readers.las" and the filename
"in.las", followed by a filename; its stage has the type and no option. -/
theorem filename_option_paths_witness :
    ∃ stage : Stage,
      ([{ kind := .reader, type := "readers.las", options := [], inputs := [] },
        { kind := .writer, type := "writers.ext",
          options := [{ name := "filename", value := "out.ext" }], inputs := [0] }] :
        PipelineManager)[([] : PipelineManager).length + 0]? = some stage ∧
      stage.type = memberText [("type", .str "readers.las"), ("filename", .str "in.las")]
        "type" ∧
      ∀ o ∈ stage.options, o.name = "filename" → o ∈ ([] : Options) :=
  (filename_option_paths extFactory [] []
    [.obj [("type", .str "readers.las"), ("filename", .str "in.las")], .str "out.ext"]
    _ true rfl).2.1 0 _ rfl (by decide)

end PipelineReaderJSON
